import Mathlib

/-!
# file_to_nsq: the reconciliation and delivery engine of `logsend.go`

A shallow embedding of `src/file_to_nsq/logsend.go` and the properties of its
reconciler (`CheckReload`), configuration reader (`ReadConfigFromConsul`),
supervisor (`Run`, `Stop`), line reader (`ReadLog`) and of the publish call of the
delivery worker (`WriteLoop`).

Conventions of the embedding.

* A Go `string` is a finite sequence of bytes; it is modelled as `List Char`, one
  list element per byte, `len` is `List.length` and `s[i]` is list indexing.
* A Go `map[string]V` is an association list whose entry order is the order in
  which `range` visits the map.  Go leaves that order unspecified: the theorems
  quantify over every entry list, and the reachable states of a task include every
  reordering of its registries.
* A channel value is a natural number: `0` is the nil channel and `make`
  returns the identities `1, 2, 3, ...` in allocation order.
* Run-time panics (closing a nil or closed channel, indexing out of range) are
  the `Except.error` results.
-/

namespace FileToNsq

/-! ## Definitions -/

/-- A Go string, byte by byte. -/
abbrev GoString := List Char

/-- A Go `map[string]V`, as the list of its entries. -/
abbrev GoMap (V : Type) := List (GoString × V)

/-- A channel value; `0` is the nil channel. -/
abbrev Chan := Nat

/-- A Go `error` value other than nil. -/
structure GoError where
  code : Nat
  deriving DecidableEq

/-- The run-time panics the embedded code can raise. -/
inductive GoPanic where
  | closeNilChannel
  | closeClosedChannel
  | indexOutOfRange
  | sliceOutOfRange
  deriving DecidableEq

/-- The two-result map read `v, ok := m[k]`. -/
def mapGet? {V : Type} : GoMap V → GoString → Option V
  | [], _ => none
  | (k', v) :: rest, k => if k' = k then some v else mapGet? rest k

/-- The builtin `delete(m, k)`. -/
def mapDelete {V : Type} (m : GoMap V) (k : GoString) : GoMap V :=
  m.filter (fun e => decide (e.1 ≠ k))

/-- The assignment `m[k] = v`. -/
def mapSet {V : Type} (m : GoMap V) (k : GoString) (v : V) : GoMap V :=
  mapDelete m k ++ [(k, v)]

/-- The keys `range m` visits, in visiting order. -/
def mapKeys {V : Type} (m : GoMap V) : List GoString := m.map Prod.fst

/-- The read `m[k]` of a `map[string]string`: the empty string when `k` is missing. -/
def strAt (m : GoMap GoString) (k : GoString) : GoString := (mapGet? m k).getD []

/-- The read `m[k]` of a `map[string]chan int`: the nil channel when `k` is missing. -/
def chanAt (m : GoMap Chan) (k : GoString) : Chan := (mapGet? m k).getD 0

/-- The call `strings.Split(s, sep)` for a one-byte separator. -/
def Split : GoString → Char → List GoString
  | [], _ => [[]]
  | c :: rest, sep =>
    if c = sep then [] :: Split rest sep
    else
      match Split rest sep with
      | [] => [[c]]
      | h :: t => (c :: h) :: t

/-- The width of Go's `int` (`strconv.IntSize`) on 64-bit targets. -/
def intSize : Nat := 64

/-- Whether a byte is a decimal digit. -/
def isDecDigit (c : Char) : Bool := decide ('0'.toNat ≤ c.toNat) && decide (c.toNat ≤ '9'.toNat)

/-- The value of a run of decimal digits, most significant first. -/
def decValue (ds : GoString) : Nat := ds.foldl (fun a c => 10 * a + (c.toNat - '0'.toNat)) 0

/-- The call `strconv.Atoi(s)`: `none` stands for a non-nil error (syntax or range).
A leading `+` or `-` is dropped; what is left must be at least one decimal digit
and nothing else; the value must fit a signed `intSize`-bit integer. -/
def Atoi (s : GoString) : Option Int :=
  let neg : Bool := decide (s.head? = some '-')
  let ds : GoString := if s.head? = some '+' ∨ s.head? = some '-' then s.tail else s
  if ds = [] then none
  else if !ds.all isDecDigit then none
  else if neg then
    (if decValue ds > 2 ^ (intSize - 1) then none else some (-(decValue ds : Int)))
  else
    (if decValue ds ≥ 2 ^ (intSize - 1) then none else some (decValue ds : Int))

/-- What a call does to the world outside the registries. -/
inductive Event where
  | make (c : Chan)
  | close (c : Chan)
  | goWriteLoop (exitchan : Chan)
  | goReadLog (file topic : GoString) (exitchan : Chan) (batch : Int)
  | writerStop
  deriving DecidableEq

/-- The struct `LogTask` (fields `LogStat`, `CurrentConfig`, `Setting`, `msgChan`,
`exitChan`) together with the part of the Go run time its methods act on: how many
channels were allocated (`nchans`, their identities are `1..nchans`), which were
closed (`closed`, in closing order), and the log of channel operations and
goroutine starts (`trace`). -/
structure LogTask where
  LogStat : GoMap Chan
  CurrentConfig : GoMap GoString
  Setting : GoMap GoString
  msgChan : Chan
  exitChan : Chan
  nchans : Nat
  closed : List Chan
  trace : List Event
  deriving DecidableEq

/-- The builtin `close(c)`. -/
def closeChan (m : LogTask) (c : Chan) : Except GoPanic LogTask :=
  if c = 0 then .error .closeNilChannel
  else if c ∈ m.closed then .error .closeClosedChannel
  else .ok { m with closed := m.closed ++ [c], trace := m.trace ++ [.close c] }

/-- The builtin `make(chan T)`: the new channel and the state after the allocation. -/
def makeChan (m : LogTask) : Chan × LogTask :=
  (m.nchans + 1, { m with nchans := m.nchans + 1, trace := m.trace ++ [.make (m.nchans + 1)] })

/-- An entry of the store listing (`api.KVPair`, fields `Key` and `Value`). -/
structure KVPair where
  Key : GoString
  Value : GoString
  deriving DecidableEq

/-- What `kv.List(prefix, nil)` returned: the entries and the error. -/
structure Listing where
  pairs : List KVPair
  err : Option GoError
  deriving DecidableEq

/-- The loop of `ReadConfigFromConsul` (lines 77-81) over the listed entries. -/
def readPairs (size : Nat) : List KVPair → GoMap GoString → Except GoPanic (GoMap GoString)
  | [], acc => .ok acc
  | value :: rest, acc =>
    if value.Key.length > size then
      match value.Key[size - 1]? with
      | none => .error .indexOutOfRange
      | some c =>
        if c = '/' then
          (if size ≤ value.Key.length then
            readPairs size rest (mapSet acc (value.Key.drop size) value.Value)
          else .error .sliceOutOfRange)
        else readPairs size rest acc
    else readPairs size rest acc

/-- The method `ReadConfigFromConsul` (lines 69-84), given what `kv.List` returned. -/
def ReadConfigFromConsul (m : LogTask) (l : Listing) :
    Except GoPanic (GoMap GoString × Option GoError) :=
  match l.err with
  | some e => .ok ([], some e)
  | none =>
    match readPairs ((strAt m.Setting "cluster".toList).length + 1) l.pairs [] with
    | .error p => .error p
    | .ok consulSetting => .ok (consulSetting, none)

/-- The batch size chosen at lines 101-108 from `items = strings.Split(v, ":")`. -/
def batchOf (items : List GoString) : Int :=
  match items with
  | _ :: i1 :: _ =>
    match Atoi i1 with
    | some i => if i > 0 then i else 20
    | none => 20
  | _ => 20

/-- The loop of lines 109-112: one `WriteLoop` and one `ReadLog` goroutine per file. -/
def startAll (k : GoString) (batch : Int) : List GoString → LogTask → LogTask
  | [], m => m
  | fileName :: rest, m =>
    startAll k batch rest
      { m with trace := m.trace ++
          [.goWriteLoop (chanAt m.LogStat k), .goReadLog fileName k (chanAt m.LogStat k) batch] }

/-- The body of the first loop of `CheckReload` (lines 91-114) for the key `k`. -/
def reloadKey (newConf : GoMap GoString) (m : LogTask) (k : GoString) :
    Except GoPanic LogTask :=
  if strAt m.CurrentConfig k ≠ strAt newConf k then
    (if (strAt m.CurrentConfig k).length > 0 then
      (closeChan m (chanAt m.LogStat k)).map fun m1 =>
        { m1 with LogStat := mapDelete m1.LogStat k,
                  CurrentConfig := mapDelete m1.CurrentConfig k }
    else .ok m).bind fun m2 =>
    if (strAt newConf k).length > 0 then
      match Split (strAt newConf k) ':' with
      | [] => .error .indexOutOfRange
      | items0 :: itemsRest =>
        let m3 := makeChan m2
        .ok (startAll k (batchOf (items0 :: itemsRest)) (Split items0 ',')
              { m3.2 with LogStat := mapSet m3.2.LogStat k m3.1 })
    else .ok m2
  else .ok m

/-- The body of the second loop of `CheckReload` (lines 117-122) for the key `k`. -/
def pruneKey (newConf : GoMap GoString) (m : LogTask) (k : GoString) :
    Except GoPanic LogTask :=
  if strAt m.CurrentConfig k ≠ strAt newConf k then
    (if (strAt newConf k).length = 0 then
      (closeChan m (chanAt m.LogStat k)).map fun m1 =>
        { m1 with LogStat := mapDelete m1.LogStat k }
    else .ok m)
  else .ok m

/-- A `for k := range` loop whose body may panic. -/
def rangeLoop (body : LogTask → GoString → Except GoPanic LogTask) :
    List GoString → LogTask → Except GoPanic LogTask
  | [], m => .ok m
  | k :: ks, m =>
    match body m k with
    | .error p => .error p
    | .ok m1 => rangeLoop body ks m1

/-- Lines 90-125 of `CheckReload`: reconcile the task with the fetched `newConf`. -/
def applyConf (m : LogTask) (newConf : GoMap GoString) : Except GoPanic LogTask :=
  match rangeLoop (reloadKey newConf) (mapKeys newConf) m with
  | .error p => .error p
  | .ok m1 =>
    match rangeLoop (pruneKey newConf) (mapKeys m1.CurrentConfig) m1 with
    | .error p => .error p
    | .ok m2 => .ok { m2 with CurrentConfig := newConf }

/-- The method `CheckReload` (lines 85-126), given what `kv.List` returned: the task
afterwards and the returned error (`none` is nil). -/
def CheckReload (m : LogTask) (l : Listing) : Except GoPanic (LogTask × Option GoError) :=
  match ReadConfigFromConsul m l with
  | .error p => .error p
  | .ok (_, some e) => .ok (m, some e)
  | .ok (newConf, none) =>
    match applyConf m newConf with
    | .error p => .error p
    | .ok m1 => .ok (m1, none)

/-- The loop `for _, v := range m.LogStat { close(v) }` of `Stop`. -/
def closeAll : List Chan → LogTask → Except GoPanic LogTask
  | [], m => .ok m
  | v :: vs, m =>
    match closeChan m v with
    | .error p => .error p
    | .ok m1 => closeAll vs m1

/-- The method `Stop` (lines 62-68). -/
def Stop (m : LogTask) : Except GoPanic LogTask :=
  match closeChan m m.exitChan with
  | .error p => .error p
  | .ok m1 =>
    match closeAll (m1.LogStat.map Prod.snd) m1 with
    | .error p => .error p
    | .ok m2 => .ok { m2 with trace := m2.trace ++ [.writerStop] }

/-- The reconciliations of `Run` after the first: one `CheckReload` per tick, the
returned error only printed. -/
def tickLoop : List Listing → LogTask → Except GoPanic LogTask
  | [], m => .ok m
  | l :: ls, m =>
    match CheckReload m l with
    | .error p => .error p
    | .ok (m1, _) => tickLoop ls m1

/-- The two allocations that open `Run` (lines 34-35). -/
def runInit (m : LogTask) : LogTask :=
  let a := makeChan m
  let b := makeChan { a.2 with exitChan := a.1 }
  { b.2 with msgChan := b.1 }

/-- The method `Run` (lines 33-61) up to the moment the exit signal is observed:
the two channels are made, `CheckReload` runs once at once and then once per tick,
`first` and `ticks` being what `kv.List` returned to each call. -/
def Run (m : LogTask) (first : Listing) (ticks : List Listing) : Except GoPanic LogTask :=
  tickLoop (first :: ticks) (runInit m)

/-- A task whose registries are empty maps and for which no channel exists yet. -/
def newLogTask (setting : GoMap GoString) : LogTask :=
  { LogStat := [], CurrentConfig := [], Setting := setting, msgChan := 0, exitChan := 0,
    nchans := 0, closed := [], trace := [] }

/-- The struct `message`; `ResultChan` is the identity of the reply channel. -/
structure message where
  topic : GoString
  body : List GoString
  ResultChan : Nat
  deriving DecidableEq

/-- The errors `reader.ReadString` returns: `io.EOF` or another error. -/
inductive ReadErr where
  | EOF
  | other (e : GoError)
  deriving DecidableEq

/-- What one call `reader.ReadString('\n')` returns. By the contract of `bufio` the
error is nil exactly when the data ends in the delimiter: `line content` is the
return `(content ++ "\n", nil)` and `fail part err` is the return `(part, err)`. -/
inductive ReadResult where
  | line (content : GoString)
  | fail (part : GoString) (err : ReadErr)
  deriving DecidableEq

/-- The string a read returned. -/
def ReadResult.data : ReadResult → GoString
  | .line content => content ++ ['\n']
  | .fail part _ => part

/-- The argument `whence` of `Seek`. -/
inductive Whence where
  | SeekStart
  | SeekCurrent
  | SeekEnd
  deriving DecidableEq

/-- An open file descriptor: the size of the file and the current offset. -/
structure File where
  size : Int
  pos : Int
  deriving DecidableEq

/-- A successful `fd.Seek(offset, whence)`: the descriptor afterwards and the
returned offset. -/
def File.Seek (fd : File) (offset : Int) (whence : Whence) : File × Int :=
  match whence with
  | .SeekStart => ({ fd with pos := offset }, offset)
  | .SeekCurrent => ({ fd with pos := fd.pos + offset }, fd.pos + offset)
  | .SeekEnd => ({ fd with pos := fd.size + offset }, fd.size + offset)

/-- What the file system answers during one end-of-file handling (lines 163-180):
`offset` is the result of `fd.Seek(0, io.SeekCurrent)` on the old descriptor,
`opened` the size of the file `os.Open(file)` opened, `none` being an error, and
`seekEndFails` says whether `fd.Seek(0, io.SeekEnd)` failed (it then returns 0). -/
structure EofProbe where
  offset : Option Int
  opened : Option Int
  seekEndFails : Bool
  deriving DecidableEq

/-- Lines 172-180: measure the reopened file and place its offset. -/
def reposition (size0 : Int) (fd : File) (seekEndFails : Bool) : File × Int :=
  let r : File × Int := if seekEndFails then (fd, 0) else fd.Seek 0 .SeekEnd
  if r.2 < size0 then ((r.1.Seek 0 .SeekCurrent).1, r.2)
  else ((r.1.Seek size0 .SeekStart).1, r.2)

/-- What a reader does, in program order. `loopHead` marks the head of the main
`for` loop with the values of `body` and `retryCount` there; `eofElse` marks the
`else` branch of line 184; `send` is the submission of line 201 and `resend` the
resubmission of line 208. -/
inductive ReaderEvent where
  | loopHead (body : List GoString) (retryCount : Nat)
  | read (r : ReadResult)
  | sleep
  | reopened (size0 size1 pos : Int)
  | eofElse
  | send (msg : message)
  | resend (msg : message)
  deriving DecidableEq

/-- The locals of `ReadLog` and what is left of the answers of its environment:
the reads of the file, the file-system answers at end of file, and the outcomes
that arrive on the reply channels. -/
structure Reader where
  fd : File
  retryCount : Nat
  body : List GoString
  made : Nat
  reads : List ReadResult
  probes : List EofProbe
  acks : List (Option GoError)
  trace : List ReaderEvent
  deriving DecidableEq

/-- How a run of the reader ends: the function returned, or the reader is still
running when the recorded answers of the environment end. -/
inductive Status where
  | returned
  | running
  deriving DecidableEq

/-- The result of one pass through the main loop. -/
inductive Step where
  | next (r : Reader)
  | done (s : Status) (r : Reader)
  deriving DecidableEq

/-- Lines 202-209: wait for the outcome, resubmitting after every failure. Returns
the events and the outcomes left over, `none` when the wait has not ended. -/
def awaitResult (msg : message) :
    List (Option GoError) → List ReaderEvent → List ReaderEvent × Option (List (Option GoError))
  | [], tr => (tr, none)
  | none :: rest, tr => (tr, some rest)
  | some _ :: rest, tr => awaitResult msg rest (tr ++ [.sleep, .resend msg])

/-- Lines 192-210: append the line, submit the message, wait for success, clear. -/
def emit (topic : GoString) (line : GoString) (r : Reader) : Step :=
  let body := if line ≠ [] then r.body ++ [line] else r.body
  let msg : message := { topic := topic, body := body, ResultChan := r.made + 1 }
  let w := awaitResult msg r.acks (r.trace ++ [.send msg])
  match w.2 with
  | none =>
    .done .running { r with body := body, retryCount := 0, made := r.made + 1, acks := [],
                            trace := w.1 }
  | some rest =>
    .next { r with body := [], retryCount := 0, made := r.made + 1, acks := rest,
                   trace := w.1 }

/-- Lines 155-160: read a line, and after an error sleep, count and read again.
`none` when the recorded reads end. -/
def readLine (r : Reader) : Option ReadResult × Reader :=
  match r.reads with
  | [] => (none, r)
  | .line c :: rest =>
    (some (ReadResult.line c),
      { r with reads := rest, trace := r.trace ++ [ReaderEvent.read (ReadResult.line c)] })
  | .fail part e :: rest =>
    let r1 := { r with retryCount := r.retryCount + 1,
                       trace := r.trace ++ [ReaderEvent.read (ReadResult.fail part e), ReaderEvent.sleep] }
    match rest with
    | [] => (none, { r1 with reads := [] })
    | r2 :: rest2 => (some r2, { r1 with reads := rest2, trace := r1.trace ++ [ReaderEvent.read r2] })

/-- The `default` case of the main loop (lines 155-210). The `err` that the `else`
branch of line 184 sets to nil is the one declared by `:=` at line 163 inside the
end-of-file block; it shadows the `err` of line 155, which is still `io.EOF` at line
188, so that after this branch the reader logs the error and returns. -/
def iteration (topic : GoString) (r0 : Reader) : Step :=
  match readLine r0 with
  | (none, r) => .done .running r
  | (some (.line c), r) => emit topic (c ++ ['\n']) r
  | (some (.fail _ (.other _)), r) => .done .returned r
  | (some (.fail _ .EOF), r) =>
    match r.probes with
    | [] => .done .running r
    | p :: ps =>
      match p.offset with
      | none => .done .returned { r with probes := ps }
      | some size0 =>
        match p.opened with
        | none => .done .returned { r with probes := ps }
        | some sz =>
          let f := reposition size0 { size := sz, pos := 0 } p.seekEndFails
          let r1 := { r with probes := ps, fd := f.1,
                             trace := r.trace ++ [.reopened size0 f.2 f.1.pos] }
          if r1.body.length = 0 || r1.retryCount < 5 then .next r1
          else .done .returned { r1 with trace := r1.trace ++ [.eofElse] }

/-- The main loop of `ReadLog` (lines 150-212). `polls` says, for each pass, whether
the exit channel is found closed by the `select` at the head of the loop. -/
def readLoop (topic : GoString) : List Bool → Reader → Status × Reader
  | [], r => (.running, r)
  | true :: _, r => (.returned, { r with trace := r.trace ++ [.loopHead r.body r.retryCount] })
  | false :: polls, r =>
    match iteration topic { r with trace := r.trace ++ [.loopHead r.body r.retryCount] } with
    | .done s r1 => (s, r1)
    | .next r1 => readLoop topic polls r1

/-- What the environment of one reader answers: whether `os.Open` succeeds and with
which file size, whether the two initial seeks succeed, the polls of the exit
channel, the reads, the end-of-file probes and the delivery outcomes. -/
structure Feed where
  opened : Option Int
  seekStartOk : Bool
  seekEndOk : Bool
  polls : List Bool
  reads : List ReadResult
  probes : List EofProbe
  acks : List (Option GoError)
  deriving DecidableEq

/-- The method `ReadLog` (lines 128-213). `readAll` is `m.Setting["read_all"]`;
`batch` is received and not used. -/
def ReadLog (readAll : GoString) (_file : GoString) (topic : GoString) (_batch : Int)
    (w : Feed) : Status × Reader :=
  let r0 : Reader := { fd := { size := 0, pos := 0 }, retryCount := 0, body := [], made := 0,
                       reads := w.reads, probes := w.probes, acks := w.acks, trace := [] }
  match w.opened with
  | none => (.returned, r0)
  | some sz =>
    if !w.seekStartOk then (.returned, r0)
    else
      let fd0 : File := ({ size := sz, pos := 0 } : File).Seek 0 .SeekStart |>.1
      if readAll.length = 0 then
        (if !w.seekEndOk then (.returned, r0)
         else readLoop topic w.polls { r0 with fd := (fd0.Seek 0 .SeekEnd).1 })
      else readLoop topic w.polls { r0 with fd := fd0 }

/-- The call the worker issues for a message (lines 231-235). -/
inductive PublishCall where
  | Publish (topic : GoString) (body : GoString)
  | MultiPublish (topic : GoString) (body : List GoString)
  deriving DecidableEq

/-- Lines 231-235 of `WriteLoop`: choose the publish call for `msg`. -/
def publishCall (msg : message) : Except GoPanic PublishCall :=
  if msg.body.length > 1 then .ok (.MultiPublish msg.topic msg.body)
  else
    match msg.body[0]? with
    | none => .error .indexOutOfRange
    | some b => .ok (.Publish msg.topic b)

/-- The messages a reader put on the work channel, resubmissions included, in order. -/
def sends : List ReaderEvent → List message
  | [] => []
  | .send msg :: rest => msg :: sends rest
  | .resend msg :: rest => msg :: sends rest
  | _ :: rest => sends rest

/-- The reader a pass through the main loop leaves. -/
def Step.reader : Step → Reader
  | .next r => r
  | .done _ r => r

/-- The goroutines lines 109-112 start for the key `k`, the channel `c` and the value `v`. -/
def starts (k : GoString) (c : Chan) (v : GoString) : List Event :=
  (Split ((Split v ':').headD []) ',').flatMap fun fileName =>
    [Event.goWriteLoop c, Event.goReadLog fileName k c (batchOf (Split v ':'))]

/-- The state after lines 93-95, when the `close` does not panic. -/
def dropKey (m : LogTask) (k : GoString) : LogTask :=
  { m with closed := m.closed ++ [chanAt m.LogStat k],
           trace := m.trace ++ [Event.close (chanAt m.LogStat k)],
           LogStat := mapDelete m.LogStat k,
           CurrentConfig := mapDelete m.CurrentConfig k }

/-- The state after lines 98-112 for the value `v`. -/
def startKey (v : GoString) (m : LogTask) (k : GoString) : LogTask :=
  { m with nchans := m.nchans + 1,
           LogStat := mapSet m.LogStat k (m.nchans + 1),
           trace := m.trace ++ Event.make (m.nchans + 1) :: starts k (m.nchans + 1) v }

/-- The state after the body of the first loop for `k`, when it does not panic. -/
def reloadKeyEff (newConf : GoMap GoString) (m : LogTask) (k : GoString) : LogTask :=
  if strAt m.CurrentConfig k = strAt newConf k then m
  else if strAt m.CurrentConfig k = [] then startKey (strAt newConf k) m k
  else if strAt newConf k = [] then dropKey m k
  else startKey (strAt newConf k) (dropKey m k) k

/-- Every registered signal is an allocated, open channel registered under one key
only, the entry list has no repeated key, and only allocated channels are closed. -/
structure Good (m : LogTask) : Prop where
  keys : (mapKeys m.LogStat).Nodup
  opened : ∀ k c, mapGet? m.LogStat k = some c → 0 < c ∧ c ≤ m.nchans ∧ c ∉ m.closed
  inj : ∀ k k' c, mapGet? m.LogStat k = some c → mapGet? m.LogStat k' = some c → k = k'
  closedAlloc : ∀ c ∈ m.closed, c ≤ m.nchans

/-- The key `k` has a registered signal exactly when its applied value is non-empty. -/
def ActiveAt (m : LogTask) (k : GoString) : Prop :=
  mapGet? m.LogStat k ≠ none ↔ strAt m.CurrentConfig k ≠ []

/-- The state after the first loop over the keys `ks`, when no pass panics. -/
def loop1 (newConf : GoMap GoString) (ks : List GoString) (m : LogTask) : LogTask :=
  ks.foldl (reloadKeyEff newConf) m

/-- The state after the body of the second loop for `k`, when it does not panic. -/
def pruneKeyEff (newConf : GoMap GoString) (m : LogTask) (k : GoString) : LogTask :=
  if strAt m.CurrentConfig k ≠ strAt newConf k ∧ strAt newConf k = [] then
    { m with closed := m.closed ++ [chanAt m.LogStat k],
             trace := m.trace ++ [Event.close (chanAt m.LogStat k)],
             LogStat := mapDelete m.LogStat k }
  else m

/-- The state after the second loop over the keys `ks`, when no pass panics. -/
def loop2 (newConf : GoMap GoString) (ks : List GoString) (m : LogTask) : LogTask :=
  ks.foldl (pruneKeyEff newConf) m

/-- The map `ReadConfigFromConsul` builds from the listed entries for the prefix
length `size - 1`, when no index is out of range. -/
def readPairsEff (size : Nat) (pairs : List KVPair) (acc : GoMap GoString) : GoMap GoString :=
  pairs.foldl (fun a value =>
    if value.Key.length > size ∧ value.Key[size - 1]? = some '/' then
      mapSet a (value.Key.drop size) value.Value
    else a) acc

/-- The snapshot a task fetches from the listed entries `pairs`. -/
def snapshot (m : LogTask) (pairs : List KVPair) : GoMap GoString :=
  readPairsEff ((strAt m.Setting "cluster".toList).length + 1) pairs []

/-- The state after lines 90-125, when nothing panics. -/
def applyEff (m : LogTask) (newConf : GoMap GoString) : LogTask :=
  { loop2 newConf (mapKeys (loop1 newConf (mapKeys newConf) m).CurrentConfig)
      (loop1 newConf (mapKeys newConf) m) with CurrentConfig := newConf }

/-- The registries are well formed and every key is active exactly when its applied
value is non-empty. -/
structure Inv (m : LogTask) : Prop where
  good : Good m
  keysCur : (mapKeys m.CurrentConfig).Nodup
  active : ∀ k, ActiveAt m k

/-- The keys of `ks` whose pipeline the first loop tears down. -/
def torn1 (newConf : GoMap GoString) (m : LogTask) (ks : List GoString) : List GoString :=
  ks.filter fun k =>
    decide (strAt m.CurrentConfig k ≠ strAt newConf k ∧ strAt m.CurrentConfig k ≠ [])

/-- The keys of `ks` whose pipeline the second loop tears down. -/
def torn2 (newConf : GoMap GoString) (m : LogTask) (ks : List GoString) : List GoString :=
  ks.filter fun k =>
    decide (strAt m.CurrentConfig k ≠ strAt newConf k ∧ strAt newConf k = [])

/-- The channels the reconciliation of `m` with `newConf` closes, in closing order. -/
def closes (m : LogTask) (newConf : GoMap GoString) : List Chan :=
  (torn1 newConf m (mapKeys newConf)).map (chanAt m.LogStat) ++
  (torn2 newConf (loop1 newConf (mapKeys newConf) m)
      (mapKeys (loop1 newConf (mapKeys newConf) m).CurrentConfig)).map
    (chanAt (loop1 newConf (mapKeys newConf) m).LogStat)

/-- The registry `LogStat` holds an open, allocated signal for exactly the keys whose
applied value is non-empty (and, as in every Go map, no key twice; only allocated
channels are closed). -/
def Registered (m : LogTask) : Prop :=
  (mapKeys m.LogStat).Nodup ∧ (mapKeys m.CurrentConfig).Nodup ∧
  (∀ k ∈ mapKeys m.LogStat, strAt m.CurrentConfig k ≠ []) ∧
  (∀ k ∈ mapKeys m.CurrentConfig, strAt m.CurrentConfig k ≠ [] → k ∈ mapKeys m.LogStat) ∧
  (∀ c ∈ m.LogStat.map Prod.snd, 0 < c ∧ c ≤ m.nchans ∧ c ∉ m.closed) ∧
  (∀ c ∈ m.closed, c ≤ m.nchans)

instance (m : LogTask) : Decidable (Registered m) := by
  unfold Registered; infer_instance

/-- No channel is registered under two keys. -/
def Distinct (m : LogTask) : Prop := (m.LogStat.map Prod.snd).Nodup

instance (m : LogTask) : Decidable (Distinct m) := by
  unfold Distinct; infer_instance

/-- What holds of the task whenever `Run` is between two reconciliations. -/
structure RunInv (m : LogTask) : Prop where
  inv : Inv m
  exitPos : 0 < m.exitChan
  exitAlloc : m.exitChan ≤ m.nchans
  exitOpen : m.exitChan ∉ m.closed
  exitFresh : ∀ k, mapGet? m.LogStat k ≠ some m.exitChan

/-- The events of the pass of the first loop for `k`. -/
def keyEvents (newConf : GoMap GoString) (m : LogTask) (k : GoString) : List Event :=
  if strAt m.CurrentConfig k = strAt newConf k then []
  else
    (if strAt m.CurrentConfig k = [] then [] else [Event.close (chanAt m.LogStat k)]) ++
    (if strAt newConf k = [] then []
     else Event.make (m.nchans + 1) :: starts k (m.nchans + 1) (strAt newConf k))

/-- The events of the first loop over `ks`. -/
def loop1Events (newConf : GoMap GoString) : List GoString → LogTask → List Event
  | [], _ => []
  | k :: ks, m => keyEvents newConf m k ++ loop1Events newConf ks (reloadKeyEff newConf m k)

/-- Whether an event concerns the pipeline of the key `k`, whose old signal is `cOld`
and whose new signal is `c`. -/
def about (k : GoString) (cOld c : Chan) : Event → Bool
  | .make c' => decide (c' = c)
  | .close c' => decide (c' = c) || decide (c' = cOld)
  | .goWriteLoop c' => decide (c' = c)
  | .goReadLog _ t c' _ => decide (t = k) || decide (c' = c)
  | .writerStop => false

/-- The events of a reconciliation of `m` with `newConf`. -/
def applyEvents (m : LogTask) (newConf : GoMap GoString) : List Event :=
  loop1Events newConf (mapKeys newConf) m ++
  ((torn2 newConf (loop1 newConf (mapKeys newConf) m)
      (mapKeys (loop1 newConf (mapKeys newConf) m).CurrentConfig)).map
    (chanAt (loop1 newConf (mapKeys newConf) m).LogStat)).map Event.close

/-- Whether an event is the close of `cOld` or the allocation of `cNew`. -/
def isCloseOrMake (cOld cNew : Chan) : Event → Bool
  | .close c => decide (c = cOld)
  | .make c => decide (c = cNew)
  | _ => false

/-- Whether an event starts a goroutine of the pipeline of `k` on the signal `c`. -/
def isStart (k : GoString) (c : Chan) : Event → Bool
  | .goWriteLoop c' => decide (c' = c)
  | .goReadLog _ t c' _ => decide (t = k) || decide (c' = c)
  | _ => false

/-- The file names lines 98-99 extract from the value `v`. -/
def filesOf (v : GoString) : List GoString := Split ((Split v ':').headD []) ','

/-- The batch size lines 98-108 extract from the value `v`. -/
def batchFor (v : GoString) : Int := batchOf (Split v ':')

/-- Whether `s` is an optionally signed, non-empty run of decimal digits. -/
def isNumeral (s : GoString) : Bool :=
  let ds : GoString := if s.head? = some '+' ∨ s.head? = some '-' then s.tail else s
  !ds.isEmpty && ds.all isDecDigit

/-- The integer an optionally signed run of decimal digits denotes. -/
def numValue (s : GoString) : Int :=
  if s.head? = some '-' then -(decValue s.tail : Int)
  else if s.head? = some '+' then (decValue s.tail : Int)
  else (decValue s : Int)

/-- The value of the last entry of the listing whose key is `key`. -/
def lastValue : List KVPair → GoString → Option GoString
  | [], _ => none
  | e :: rest, key =>
    match lastValue rest key with
    | some v => some v
    | none => if e.Key = key then some e.Value else none

/-- The events of `n` failed deliveries of `msg`: a sleep and a resubmission each. -/
def retries (msg : message) : Nat → List ReaderEvent
  | 0 => []
  | n + 1 => ReaderEvent.sleep :: ReaderEvent.resend msg :: retries msg n

/-- The results of the reads a reader made, in order. -/
def readsOf : List ReaderEvent → List ReadResult
  | [] => []
  | .read r :: rest => r :: readsOf rest
  | _ :: rest => readsOf rest

/-- The payloads of the messages a reader submitted, resubmissions left out, in order. -/
def firstBodies : List ReaderEvent → List (List GoString)
  | [] => []
  | .send msg :: rest => msg.body :: firstBodies rest
  | _ :: rest => firstBodies rest

/-- How many resubmissions a reader made. -/
def resendCount : List ReaderEvent → Nat
  | [] => 0
  | .resend _ :: rest => resendCount rest + 1
  | _ :: rest => resendCount rest

/-- How many of the outcomes are errors. -/
def errorCount : List (Option GoError) → Nat
  | [] => 0
  | some _ :: rest => errorCount rest + 1
  | none :: rest => errorCount rest

/-- The payload of the message that carries a read: the line with its terminator when
the read returned no error, nothing otherwise. -/
def lineBody : ReadResult → Option (List GoString)
  | .line c => some [c ++ ['\n']]
  | .fail _ _ => none

/-- What holds of a reader at every point of its run for the topic `topic`, the reads
`allReads` and the outcomes `allAcks` of its environment. -/
structure Tidy (topic : GoString) (allReads : List ReadResult)
    (allAcks : List (Option GoError)) (r : Reader) : Prop where
  heads : ∀ b n, ReaderEvent.loopHead b n ∈ r.trace → b = []
  msgs : ∀ msg ∈ sends r.trace, msg.topic = topic ∧ ∃ c, msg.body = [c ++ ['\n']]
  noElse : ReaderEvent.eofElse ∉ r.trace
  reads : allReads = readsOf r.trace ++ r.reads
  bodies : firstBodies r.trace = (readsOf r.trace).filterMap lineBody
  acks : ∃ used, allAcks = used ++ r.acks ∧ resendCount r.trace = errorCount used

/-- The states a task can be in after any number of `CheckReload` calls from `m0`,
whatever each fetch returned. A Go map has no order, so the entries of the two
registries may stand in any order between two calls. -/
inductive Reaches (m0 : LogTask) : LogTask → Prop where
  | start : Reaches m0 m0
  | reload {m m1 : LogTask} (l : Listing) (e : Option GoError) :
      Reaches m0 m → CheckReload m l = .ok (m1, e) → Reaches m0 m1
  | reorder {m : LogTask} (logStat : GoMap Chan) (currentConfig : GoMap GoString) :
      Reaches m0 m → logStat.Perm m.LogStat → currentConfig.Perm m.CurrentConfig →
      Reaches m0 { m with LogStat := logStat, CurrentConfig := currentConfig }

/-- The state after `{A: "f:10"}` was applied to an empty task. -/
def afterA : LogTask :=
  { LogStat := [("A".toList, 1)], CurrentConfig := [("A".toList, "f:10".toList)], Setting := [],
    msgChan := 0, exitChan := 0, nchans := 1, closed := [],
    trace := [.make 1, .goWriteLoop 1, .goReadLog "f".toList "A".toList 1 10] }

/-- A file that ends in `abc` without a terminator when first read, and to which
`def` and a terminator are appended before the retry: the line `abcdef` written in
two pieces. -/
def unterminatedFeed : Feed :=
  { opened := some 0, seekStartOk := true, seekEndOk := true, polls := [false, true],
    reads := [.fail "abc".toList .EOF, .line "def".toList], probes := [], acks := [none] }

/-- A file found at its end by the first read, holding `abc` without a terminator at
the retry, and `def` with a terminator once it was reopened at the recorded offset. -/
def eofRetryFeed : Feed :=
  { opened := some 0, seekStartOk := true, seekEndOk := true, polls := [false, false, true],
    reads := [.fail [] .EOF, .fail "abc".toList .EOF, .line "def".toList],
    probes := [⟨some 3, some 7, false⟩], acks := [none] }

/-! ## Theorems -/

theorem mapGet?_cons {V : Type} (k' : GoString) (v : V) (rest : GoMap V) (k : GoString) :
    mapGet? ((k', v) :: rest) k = if k' = k then some v else mapGet? rest k := rfl

theorem mapGet?_append {V : Type} (a b : GoMap V) (k : GoString) :
    mapGet? (a ++ b) k = match mapGet? a k with
      | some v => some v
      | none => mapGet? b k := by
  induction a with
  | nil => simp [mapGet?]
  | cons e rest ih =>
    obtain ⟨k', v⟩ := e
    by_cases h : k' = k
    · simp [mapGet?, h]
    · simp [mapGet?, h, ih]

theorem mapDelete_cons {V : Type} (k₀ : GoString) (v : V) (rest : GoMap V) (k : GoString) :
    mapDelete ((k₀, v) :: rest) k
      = if k₀ = k then mapDelete rest k else (k₀, v) :: mapDelete rest k := by
  by_cases h : k₀ = k <;> simp [mapDelete, List.filter_cons, h]

theorem mapGet?_mapDelete_self {V : Type} (m : GoMap V) (k : GoString) :
    mapGet? (mapDelete m k) k = none := by
  induction m with
  | nil => rfl
  | cons e rest ih =>
    obtain ⟨k', v⟩ := e
    by_cases h : k' = k
    · rw [mapDelete_cons, if_pos h]; exact ih
    · rw [mapDelete_cons, if_neg h, mapGet?_cons, if_neg h]; exact ih

theorem mapGet?_mapDelete_ne {V : Type} (m : GoMap V) {k k' : GoString} (h : k' ≠ k) :
    mapGet? (mapDelete m k) k' = mapGet? m k' := by
  induction m with
  | nil => rfl
  | cons e rest ih =>
    obtain ⟨k₀, v⟩ := e
    by_cases h0 : k₀ = k
    · have h1 : k₀ ≠ k' := fun hh => h (hh ▸ h0)
      rw [mapDelete_cons, if_pos h0, mapGet?_cons, if_neg h1]; exact ih
    · rw [mapDelete_cons, if_neg h0, mapGet?_cons, mapGet?_cons, ih]

theorem mapGet?_mapSet_self {V : Type} (m : GoMap V) (k : GoString) (v : V) :
    mapGet? (mapSet m k v) k = some v := by
  simp [mapSet, mapGet?_append, mapGet?_mapDelete_self, mapGet?]

theorem mapGet?_mapSet_ne {V : Type} (m : GoMap V) {k k' : GoString} (v : V) (h : k' ≠ k) :
    mapGet? (mapSet m k v) k' = mapGet? m k' := by
  have h' : ¬ k = k' := fun hh => h hh.symm
  rw [mapSet, mapGet?_append, mapGet?_mapDelete_ne m h]
  cases mapGet? m k' <;> simp [mapGet?, h']

theorem mapKeys_cons {V : Type} (k' : GoString) (v : V) (rest : GoMap V) :
    mapKeys ((k', v) :: rest) = k' :: mapKeys rest := rfl

theorem mapGet?_eq_none_iff {V : Type} (m : GoMap V) (k : GoString) :
    mapGet? m k = none ↔ k ∉ mapKeys m := by
  induction m with
  | nil => exact ⟨fun _ h => (by cases h), fun _ => rfl⟩
  | cons e rest ih =>
    obtain ⟨k', v⟩ := e
    rw [mapGet?_cons, mapKeys_cons, List.mem_cons]
    by_cases h : k' = k
    · rw [if_pos h]
      exact ⟨fun hh => (by cases hh), fun hh => absurd (Or.inl h.symm) hh⟩
    · rw [if_neg h, ih]
      constructor
      · rintro h1 (h2 | h2)
        · exact h h2.symm
        · exact h1 h2
      · intro h1 h2
        exact h1 (Or.inr h2)

theorem mem_mapKeys_iff {V : Type} (m : GoMap V) (k : GoString) :
    k ∈ mapKeys m ↔ mapGet? m k ≠ none := by
  rw [Ne, mapGet?_eq_none_iff]; simp

theorem mem_of_mapGet? {V : Type} {m : GoMap V} {k : GoString} {v : V} (h : mapGet? m k = some v) :
    (k, v) ∈ m := by
  induction m with
  | nil => simp [mapGet?] at h
  | cons e rest ih =>
    obtain ⟨k', v'⟩ := e
    by_cases hk : k' = k
    · simp [mapGet?, hk] at h
      simp [hk, h]
    · simp [mapGet?, hk] at h
      exact List.mem_cons_of_mem _ (ih h)

theorem mapGet?_of_mem {V : Type} {m : GoMap V} {k : GoString} {v : V} (hn : (mapKeys m).Nodup)
    (h : (k, v) ∈ m) : mapGet? m k = some v := by
  induction m with
  | nil => simp at h
  | cons e rest ih =>
    obtain ⟨k', v'⟩ := e
    simp only [mapKeys, List.map_cons, List.nodup_cons] at hn
    rcases List.mem_cons.1 h with h1 | h1
    · cases h1; simp [mapGet?]
    · have hk : k' ≠ k := by
        intro hh; subst hh
        exact hn.1 (List.mem_map_of_mem Prod.fst h1)
      simpa [mapGet?, hk] using ih hn.2 h1

theorem mapKeys_mapDelete_sublist {V : Type} (m : GoMap V) (k : GoString) :
    (mapKeys (mapDelete m k)).Sublist (mapKeys m) :=
  (List.filter_sublist m).map Prod.fst

theorem nodup_mapKeys_mapDelete {V : Type} {m : GoMap V} (k : GoString) (h : (mapKeys m).Nodup) :
    (mapKeys (mapDelete m k)).Nodup :=
  h.sublist (mapKeys_mapDelete_sublist m k)

theorem not_mem_mapKeys_mapDelete {V : Type} (m : GoMap V) (k : GoString) : k ∉ mapKeys (mapDelete m k) := by
  rw [← mapGet?_eq_none_iff]; exact mapGet?_mapDelete_self m k

theorem nodup_mapKeys_mapSet {V : Type} {m : GoMap V} (k : GoString) (v : V) (h : (mapKeys m).Nodup) :
    (mapKeys (mapSet m k v)).Nodup := by
  have h1 := nodup_mapKeys_mapDelete k h
  have h2 := not_mem_mapKeys_mapDelete m k
  simp only [mapSet, mapKeys, List.map_append, List.map_cons, List.map_nil] at *
  rw [List.nodup_append]
  refine ⟨h1, by simp, ?_⟩
  intro a ha hb
  simp at hb
  subst hb
  exact h2 ha

theorem strAt_eq_of_get {a b : GoMap GoString} {k : GoString} (h : mapGet? a k = mapGet? b k) :
    strAt a k = strAt b k := by simp [strAt, h]

theorem chanAt_of_get {a : GoMap Chan} {k : GoString} {c : Chan} (h : mapGet? a k = some c) :
    chanAt a k = c := by simp [chanAt, h]

theorem strAt_ne_nil_mem {a : GoMap GoString} {k : GoString} (h : strAt a k ≠ []) :
    k ∈ mapKeys a := by
  rw [mem_mapKeys_iff]
  intro hn
  simp [strAt, hn] at h

theorem Split_ne_nil (s : GoString) (sep : Char) : Split s sep ≠ [] := by
  cases s with
  | nil => simp [Split]
  | cons c rest =>
    simp only [Split]
    split_ifs
    · simp
    · split <;> simp

theorem startAll_eq (k : GoString) (b : Int) (fs : List GoString) (m : LogTask) :
    startAll k b fs m = { m with trace := m.trace ++ fs.flatMap fun f =>
      [Event.goWriteLoop (chanAt m.LogStat k), Event.goReadLog f k (chanAt m.LogStat k) b] } := by
  induction fs generalizing m with
  | nil => simp [startAll]
  | cons f fs ih => simp [startAll, ih, List.flatMap_cons]

theorem startBlock_eq (v : GoString) (m : LogTask) (k : GoString) :
    (match Split v ':' with
      | [] => (Except.error GoPanic.indexOutOfRange : Except GoPanic LogTask)
      | items0 :: itemsRest =>
        Except.ok (startAll k (batchOf (items0 :: itemsRest)) (Split items0 ',')
          { (makeChan m).2 with LogStat := mapSet (makeChan m).2.LogStat k (makeChan m).1 }))
      = Except.ok (startKey v m k) := by
  have h := Split_ne_nil v ':'
  cases hs : Split v ':' with
  | nil => exact absurd hs h
  | cons i0 ir =>
    simp only [startAll_eq, makeChan, startKey, starts, hs, List.headD_cons,
      chanAt, mapGet?_mapSet_self, Option.getD_some, List.append_assoc, List.singleton_append]

theorem length_pos_iff_ne_nil (s : GoString) : s.length > 0 ↔ s ≠ [] := by
  cases s <;> simp

theorem closeChan_ok {m : LogTask} {c : Chan} (h0 : c ≠ 0) (h1 : c ∉ m.closed) :
    closeChan m c = .ok { m with closed := m.closed ++ [c], trace := m.trace ++ [.close c] } := by
  simp [closeChan, h0, h1]

theorem reloadKey_eq (newConf : GoMap GoString) (m : LogTask) (k : GoString)
    (h : strAt m.CurrentConfig k ≠ strAt newConf k → strAt m.CurrentConfig k ≠ [] →
      chanAt m.LogStat k ≠ 0 ∧ chanAt m.LogStat k ∉ m.closed) :
    reloadKey newConf m k = .ok (reloadKeyEff newConf m k) := by
  unfold reloadKey reloadKeyEff
  by_cases h1 : strAt m.CurrentConfig k = strAt newConf k
  · simp [h1]
  · rw [if_pos h1, if_neg h1]
    by_cases h2 : strAt m.CurrentConfig k = []
    · have h3 : strAt newConf k ≠ [] := fun hh => h1 (h2.trans hh.symm)
      have h3' : (strAt newConf k).length > 0 := (length_pos_iff_ne_nil _).2 h3
      rw [if_pos h2]
      simp only [h2, List.length_nil, gt_iff_lt, lt_self_iff_false, if_false]
      show (if (strAt newConf k).length > 0 then _ else _) = _
      rw [if_pos h3']
      exact startBlock_eq _ _ _
    · have hc := h h1 h2
      have h2' : (strAt m.CurrentConfig k).length > 0 := (length_pos_iff_ne_nil _).2 h2
      rw [if_neg h2, if_pos h2', closeChan_ok hc.1 hc.2]
      show (if (strAt newConf k).length > 0 then _ else _) = _
      by_cases h3 : strAt newConf k = []
      · simp [h3, dropKey]
      · have h3' : (strAt newConf k).length > 0 := (length_pos_iff_ne_nil _).2 h3
        rw [if_pos h3', if_neg h3]
        exact startBlock_eq _ _ _

theorem good_dropKey {m : LogTask} (h : Good m) (k : GoString) : Good (dropKey m k) where
  keys := nodup_mapKeys_mapDelete k h.keys
  opened := by
    intro k' c hc
    by_cases hk : k' = k
    · subst hk; simp [dropKey, mapGet?_mapDelete_self] at hc
    · simp only [dropKey, mapGet?_mapDelete_ne _ hk] at hc
      obtain ⟨h1, h2, h3⟩ := h.opened k' c hc
      refine ⟨h1, h2, ?_⟩
      simp only [dropKey, List.mem_append, List.mem_singleton, not_or]
      refine ⟨h3, ?_⟩
      intro hcc
      cases hg : mapGet? m.LogStat k with
      | none =>
        have : c = 0 := by simpa [chanAt, hg] using hcc
        exact absurd this (Nat.pos_iff_ne_zero.1 h1)
      | some c' =>
        have : c = c' := by simpa [chanAt, hg] using hcc
        subst this
        exact hk (h.inj k' k c hc hg)
  inj := by
    intro k1 k2 c h1 h2
    have e1 : k1 ≠ k := by
      intro hh; subst hh; simp [dropKey, mapGet?_mapDelete_self] at h1
    have e2 : k2 ≠ k := by
      intro hh; subst hh; simp [dropKey, mapGet?_mapDelete_self] at h2
    simp only [dropKey, mapGet?_mapDelete_ne _ e1] at h1
    simp only [dropKey, mapGet?_mapDelete_ne _ e2] at h2
    exact h.inj k1 k2 c h1 h2
  closedAlloc := by
    intro c hc
    simp only [dropKey, List.mem_append, List.mem_singleton] at hc
    rcases hc with hc | hc
    · exact h.closedAlloc c hc
    · cases hg : mapGet? m.LogStat k with
      | none => simp [chanAt, hg] at hc; simp [hc, dropKey]
      | some c' =>
        simp [chanAt, hg] at hc
        subst hc
        exact (h.opened k c hg).2.1

theorem good_startKey {m : LogTask} (h : Good m) (v : GoString) (k : GoString) :
    Good (startKey v m k) where
  keys := nodup_mapKeys_mapSet k _ h.keys
  opened := by
    intro k' c hc
    by_cases hk : k' = k
    · subst hk
      simp only [startKey, mapGet?_mapSet_self, Option.some.injEq] at hc
      subst hc
      refine ⟨Nat.succ_pos _, le_refl _, ?_⟩
      intro hcl
      exact absurd (h.closedAlloc _ hcl) (Nat.not_succ_le_self _)
    · simp only [startKey, mapGet?_mapSet_ne _ _ hk] at hc
      obtain ⟨h1, h2, h3⟩ := h.opened k' c hc
      exact ⟨h1, Nat.le_succ_of_le h2, h3⟩
  inj := by
    intro k1 k2 c h1 h2
    by_cases e1 : k1 = k
    · by_cases e2 : k2 = k
      · rw [e1, e2]
      · subst e1
        simp only [startKey, mapGet?_mapSet_self, Option.some.injEq] at h1
        simp only [startKey, mapGet?_mapSet_ne _ _ e2] at h2
        have h3 := (h.opened k2 c h2).2.1
        rw [← h1] at h3
        exact absurd h3 (Nat.not_succ_le_self _)
    · by_cases e2 : k2 = k
      · subst e2
        simp only [startKey, mapGet?_mapSet_self, Option.some.injEq] at h2
        simp only [startKey, mapGet?_mapSet_ne _ _ e1] at h1
        have h3 := (h.opened k1 c h1).2.1
        rw [← h2] at h3
        exact absurd h3 (Nat.not_succ_le_self _)
      · simp only [startKey, mapGet?_mapSet_ne _ _ e1] at h1
        simp only [startKey, mapGet?_mapSet_ne _ _ e2] at h2
        exact h.inj k1 k2 c h1 h2
  closedAlloc := by
    intro c hc
    exact Nat.le_succ_of_le (h.closedAlloc c hc)

theorem good_reloadKeyEff {m : LogTask} (h : Good m) (newConf : GoMap GoString) (k : GoString) :
    Good (reloadKeyEff newConf m k) := by
  unfold reloadKeyEff
  split_ifs
  · exact h
  · exact good_startKey h _ _
  · exact good_dropKey h _
  · exact good_startKey (good_dropKey h _) _ _

/-- Keys other than `k` keep their registered signal. -/
theorem reloadKeyEff_LogStat_ne (newConf : GoMap GoString) (m : LogTask) {k k' : GoString}
    (h : k' ≠ k) : mapGet? (reloadKeyEff newConf m k).LogStat k' = mapGet? m.LogStat k' := by
  unfold reloadKeyEff
  split_ifs <;>
    simp [startKey, dropKey, mapGet?_mapSet_ne _ _ h, mapGet?_mapDelete_ne _ h]

/-- Keys other than `k` keep their applied value. -/
theorem reloadKeyEff_Cur_ne (newConf : GoMap GoString) (m : LogTask) {k k' : GoString}
    (h : k' ≠ k) :
    mapGet? (reloadKeyEff newConf m k).CurrentConfig k' = mapGet? m.CurrentConfig k' := by
  unfold reloadKeyEff
  split_ifs <;> simp [startKey, dropKey, mapGet?_mapDelete_ne _ h]

/-- The registered signal of `k` after its pass. -/
theorem reloadKeyEff_LogStat_self (newConf : GoMap GoString) (m : LogTask) (k : GoString) :
    mapGet? (reloadKeyEff newConf m k).LogStat k =
      if strAt m.CurrentConfig k = strAt newConf k then mapGet? m.LogStat k
      else if strAt newConf k = [] then none else some (m.nchans + 1) := by
  unfold reloadKeyEff
  by_cases h1 : strAt m.CurrentConfig k = strAt newConf k
  · simp [h1]
  · by_cases h2 : strAt m.CurrentConfig k = []
    · have h3 : strAt newConf k ≠ [] := fun hh => h1 (h2.trans hh.symm)
      simp [h1, h2, h3, startKey, mapGet?_mapSet_self]
    · by_cases h3 : strAt newConf k = []
      · simp [h1, h2, h3, dropKey, mapGet?_mapDelete_self]
      · simp [h1, h2, h3, startKey, dropKey, mapGet?_mapSet_self]

/-- The applied value of `k` after its pass. -/
theorem reloadKeyEff_Cur_self (newConf : GoMap GoString) (m : LogTask) (k : GoString) :
    strAt (reloadKeyEff newConf m k).CurrentConfig k =
      if strAt m.CurrentConfig k = strAt newConf k then strAt newConf k else [] := by
  unfold reloadKeyEff
  by_cases h1 : strAt m.CurrentConfig k = strAt newConf k
  · simp [h1]
  · by_cases h2 : strAt m.CurrentConfig k = []
    · have h3 : strAt newConf k ≠ [] := fun hh => h1 (h2.trans hh.symm)
      simp [h1, h2, h3, startKey]
    · by_cases h3 : strAt newConf k = []
      · rw [if_neg h1, if_neg h2, if_pos h3, if_neg h1]
        simp [dropKey, strAt, mapGet?_mapDelete_self]
      · rw [if_neg h1, if_neg h2, if_neg h3, if_neg h1]
        simp [startKey, dropKey, strAt, mapGet?_mapDelete_self]

theorem reloadKeyEff_Cur_sublist (newConf : GoMap GoString) (m : LogTask) (k : GoString) :
    (mapKeys (reloadKeyEff newConf m k).CurrentConfig).Sublist (mapKeys m.CurrentConfig) := by
  unfold reloadKeyEff
  split_ifs
  · exact List.Sublist.refl _
  · exact List.Sublist.refl _
  · exact mapKeys_mapDelete_sublist _ _
  · exact mapKeys_mapDelete_sublist _ _

theorem reloadKeyEff_nchans (newConf : GoMap GoString) (m : LogTask) (k : GoString) :
    m.nchans ≤ (reloadKeyEff newConf m k).nchans := by
  unfold reloadKeyEff
  split_ifs <;> simp [startKey, dropKey]

theorem reloadKeyEff_fixed (newConf : GoMap GoString) (m : LogTask) (k : GoString) :
    (reloadKeyEff newConf m k).Setting = m.Setting ∧
    (reloadKeyEff newConf m k).exitChan = m.exitChan ∧
    (reloadKeyEff newConf m k).msgChan = m.msgChan := by
  unfold reloadKeyEff
  split_ifs <;> simp [startKey, dropKey]

theorem loop1_cons (newConf : GoMap GoString) (k : GoString) (ks : List GoString) (m : LogTask) :
    loop1 newConf (k :: ks) m = loop1 newConf ks (reloadKeyEff newConf m k) := rfl

theorem good_loop1 (newConf : GoMap GoString) (ks : List GoString) {m : LogTask} (h : Good m) :
    Good (loop1 newConf ks m) := by
  induction ks generalizing m with
  | nil => exact h
  | cons k ks ih => exact ih (good_reloadKeyEff h newConf k)

theorem loop1_LogStat_of_not_mem (newConf : GoMap GoString) (ks : List GoString) (m : LogTask)
    {k : GoString} (h : k ∉ ks) :
    mapGet? (loop1 newConf ks m).LogStat k = mapGet? m.LogStat k := by
  induction ks generalizing m with
  | nil => rfl
  | cons k0 ks ih =>
    rw [loop1_cons, ih _ (fun hh => h (List.mem_cons_of_mem _ hh))]
    exact reloadKeyEff_LogStat_ne newConf m (fun hh => h (hh ▸ List.mem_cons_self _ _))

theorem loop1_Cur_of_not_mem (newConf : GoMap GoString) (ks : List GoString) (m : LogTask)
    {k : GoString} (h : k ∉ ks) :
    mapGet? (loop1 newConf ks m).CurrentConfig k = mapGet? m.CurrentConfig k := by
  induction ks generalizing m with
  | nil => rfl
  | cons k0 ks ih =>
    rw [loop1_cons, ih _ (fun hh => h (List.mem_cons_of_mem _ hh))]
    exact reloadKeyEff_Cur_ne newConf m (fun hh => h (hh ▸ List.mem_cons_self _ _))

theorem loop1_nchans (newConf : GoMap GoString) (ks : List GoString) (m : LogTask) :
    m.nchans ≤ (loop1 newConf ks m).nchans := by
  induction ks generalizing m with
  | nil => exact le_refl _
  | cons k0 ks ih => exact le_trans (reloadKeyEff_nchans newConf m k0) (ih _)

theorem loop1_fixed (newConf : GoMap GoString) (ks : List GoString) (m : LogTask) :
    (loop1 newConf ks m).Setting = m.Setting ∧
    (loop1 newConf ks m).exitChan = m.exitChan ∧
    (loop1 newConf ks m).msgChan = m.msgChan := by
  induction ks generalizing m with
  | nil => exact ⟨rfl, rfl, rfl⟩
  | cons k0 ks ih =>
    obtain ⟨a, b, c⟩ := ih (reloadKeyEff newConf m k0)
    obtain ⟨a', b', c'⟩ := reloadKeyEff_fixed newConf m k0
    exact ⟨a.trans a', b.trans b', c.trans c'⟩

theorem loop1_Cur_sublist (newConf : GoMap GoString) (ks : List GoString) (m : LogTask) :
    (mapKeys (loop1 newConf ks m).CurrentConfig).Sublist (mapKeys m.CurrentConfig) := by
  induction ks generalizing m with
  | nil => exact List.Sublist.refl _
  | cons k0 ks ih => exact (ih _).trans (reloadKeyEff_Cur_sublist newConf m k0)

/-- A key of a duplicate-free `ks` ends the first loop as its own pass left it. -/
theorem loop1_LogStat_of_mem (newConf : GoMap GoString) (ks : List GoString) (m : LogTask)
    (hn : ks.Nodup) {k : GoString} (h : k ∈ ks) :
    (strAt m.CurrentConfig k = strAt newConf k →
      mapGet? (loop1 newConf ks m).LogStat k = mapGet? m.LogStat k) ∧
    (strAt m.CurrentConfig k ≠ strAt newConf k → strAt newConf k = [] →
      mapGet? (loop1 newConf ks m).LogStat k = none) ∧
    (strAt m.CurrentConfig k ≠ strAt newConf k → strAt newConf k ≠ [] →
      ∃ c, m.nchans < c ∧ mapGet? (loop1 newConf ks m).LogStat k = some c) := by
  induction ks generalizing m with
  | nil => cases h
  | cons k0 ks ih =>
    rw [List.nodup_cons] at hn
    rw [loop1_cons]
    by_cases hk : k = k0
    · subst hk
      rw [loop1_LogStat_of_not_mem _ _ _ hn.1, reloadKeyEff_LogStat_self]
      refine ⟨fun h1 => by rw [if_pos h1], fun h1 h2 => by rw [if_neg h1, if_pos h2],
        fun h1 h2 => ⟨m.nchans + 1, Nat.lt_succ_self _, by rw [if_neg h1, if_neg h2]⟩⟩
    · have hmem : k ∈ ks := by
        rcases List.mem_cons.1 h with h1 | h1
        · exact absurd h1 hk
        · exact h1
      have hc : strAt (reloadKeyEff newConf m k0).CurrentConfig k = strAt m.CurrentConfig k :=
        strAt_eq_of_get (reloadKeyEff_Cur_ne newConf m hk)
      have hl := reloadKeyEff_LogStat_ne newConf m hk
      obtain ⟨i1, i2, i3⟩ := ih (reloadKeyEff newConf m k0) hn.2 hmem
      rw [hc, hl] at i1
      rw [hc] at i2 i3
      refine ⟨i1, i2, fun h1 h2 => ?_⟩
      obtain ⟨c, hc1, hc2⟩ := i3 h1 h2
      exact ⟨c, lt_of_le_of_lt (reloadKeyEff_nchans newConf m k0) hc1, hc2⟩

theorem loop1_Cur_of_mem (newConf : GoMap GoString) (ks : List GoString) (m : LogTask)
    (hn : ks.Nodup) {k : GoString} (h : k ∈ ks) :
    strAt (loop1 newConf ks m).CurrentConfig k =
      if strAt m.CurrentConfig k = strAt newConf k then strAt newConf k else [] := by
  induction ks generalizing m with
  | nil => cases h
  | cons k0 ks ih =>
    rw [List.nodup_cons] at hn
    rw [loop1_cons]
    by_cases hk : k = k0
    · subst hk
      rw [strAt_eq_of_get (loop1_Cur_of_not_mem _ _ _ hn.1), reloadKeyEff_Cur_self]
    · have hmem : k ∈ ks := by
        rcases List.mem_cons.1 h with h1 | h1
        · exact absurd h1 hk
        · exact h1
      rw [ih _ hn.2 hmem, strAt_eq_of_get (reloadKeyEff_Cur_ne newConf m hk)]

/-- The first loop does not panic on well-formed registries. -/
theorem rangeLoop_reloadKey (newConf : GoMap GoString) (ks : List GoString) (m : LogTask)
    (hn : ks.Nodup) (hg : Good m) (ha : ∀ k ∈ ks, ActiveAt m k) :
    rangeLoop (reloadKey newConf) ks m = .ok (loop1 newConf ks m) := by
  induction ks generalizing m with
  | nil => rfl
  | cons k0 ks ih =>
    rw [List.nodup_cons] at hn
    have h0 : reloadKey newConf m k0 = .ok (reloadKeyEff newConf m k0) := by
      apply reloadKey_eq
      intro _ h2
      have h3 := (ha k0 (List.mem_cons_self _ _)).2 h2
      cases hg0 : mapGet? m.LogStat k0 with
      | none => exact absurd hg0 h3
      | some c =>
        obtain ⟨p1, _, p3⟩ := hg.opened k0 c hg0
        rw [chanAt_of_get hg0]
        exact ⟨Nat.pos_iff_ne_zero.1 p1, p3⟩
    simp only [rangeLoop, h0, loop1_cons]
    apply ih _ hn.2 (good_reloadKeyEff hg newConf k0)
    intro k hk
    have hne : k ≠ k0 := fun hh => hn.1 (hh ▸ hk)
    have := ha k (List.mem_cons_of_mem _ hk)
    unfold ActiveAt at this ⊢
    rw [reloadKeyEff_LogStat_ne newConf m hne, strAt_eq_of_get (reloadKeyEff_Cur_ne newConf m hne)]
    exact this

theorem Good.of_eq {m m' : LogTask} (h : Good m) (e1 : m'.LogStat = m.LogStat)
    (e2 : m'.nchans = m.nchans) (e3 : m'.closed = m.closed) : Good m' where
  keys := by rw [e1]; exact h.keys
  opened := by rw [e1, e2, e3]; exact h.opened
  inj := by rw [e1]; exact h.inj
  closedAlloc := by rw [e2, e3]; exact h.closedAlloc

theorem loop2_cons (newConf : GoMap GoString) (k : GoString) (ks : List GoString) (m : LogTask) :
    loop2 newConf (k :: ks) m = loop2 newConf ks (pruneKeyEff newConf m k) := rfl

theorem pruneKey_eq (newConf : GoMap GoString) (m : LogTask) (k : GoString)
    (h : strAt m.CurrentConfig k ≠ strAt newConf k → strAt newConf k = [] →
      chanAt m.LogStat k ≠ 0 ∧ chanAt m.LogStat k ∉ m.closed) :
    pruneKey newConf m k = .ok (pruneKeyEff newConf m k) := by
  unfold pruneKey pruneKeyEff
  by_cases h1 : strAt m.CurrentConfig k = strAt newConf k
  · simp [h1]
  · by_cases h2 : strAt newConf k = []
    · have hc := h h1 h2
      have hl : (strAt newConf k).length = 0 := by rw [h2]; rfl
      have h12 : strAt m.CurrentConfig k ≠ strAt newConf k ∧ strAt newConf k = [] := ⟨h1, h2⟩
      rw [if_pos h1, if_pos hl, if_pos h12, closeChan_ok hc.1 hc.2]
      rfl
    · have h2' : ¬ (strAt newConf k).length = 0 := by
        intro hh; exact h2 (List.length_eq_zero.1 hh)
      rw [if_pos h1, if_neg h2', if_neg (fun hh => h2 hh.2)]

theorem pruneKeyEff_Cur (newConf : GoMap GoString) (m : LogTask) (k : GoString) :
    (pruneKeyEff newConf m k).CurrentConfig = m.CurrentConfig := by
  unfold pruneKeyEff; split_ifs <;> rfl

theorem pruneKeyEff_fixed (newConf : GoMap GoString) (m : LogTask) (k : GoString) :
    (pruneKeyEff newConf m k).nchans = m.nchans ∧
    (pruneKeyEff newConf m k).Setting = m.Setting ∧
    (pruneKeyEff newConf m k).exitChan = m.exitChan ∧
    (pruneKeyEff newConf m k).msgChan = m.msgChan := by
  unfold pruneKeyEff; split_ifs <;> exact ⟨rfl, rfl, rfl, rfl⟩

theorem good_pruneKeyEff {m : LogTask} (h : Good m) (newConf : GoMap GoString) (k : GoString) :
    Good (pruneKeyEff newConf m k) := by
  unfold pruneKeyEff
  split_ifs
  · exact (good_dropKey h k).of_eq rfl rfl rfl
  · exact h

theorem pruneKeyEff_LogStat (newConf : GoMap GoString) (m : LogTask) (k k' : GoString) :
    mapGet? (pruneKeyEff newConf m k).LogStat k' =
      if k' = k ∧ strAt m.CurrentConfig k ≠ strAt newConf k ∧ strAt newConf k = [] then none
      else mapGet? m.LogStat k' := by
  unfold pruneKeyEff
  by_cases hc : strAt m.CurrentConfig k ≠ strAt newConf k ∧ strAt newConf k = []
  · rw [if_pos hc]
    by_cases hk : k' = k
    · rw [if_pos ⟨hk, hc⟩, hk]; exact mapGet?_mapDelete_self _ _
    · rw [if_neg (fun hh => hk hh.1)]; exact mapGet?_mapDelete_ne _ hk
  · rw [if_neg hc, if_neg (fun hh => hc hh.2)]

theorem loop2_fixed (newConf : GoMap GoString) (ks : List GoString) (m : LogTask) :
    (loop2 newConf ks m).nchans = m.nchans ∧
    (loop2 newConf ks m).Setting = m.Setting ∧
    (loop2 newConf ks m).exitChan = m.exitChan ∧
    (loop2 newConf ks m).msgChan = m.msgChan := by
  induction ks generalizing m with
  | nil => exact ⟨rfl, rfl, rfl, rfl⟩
  | cons k0 ks ih =>
    obtain ⟨a, b, c, d⟩ := ih (pruneKeyEff newConf m k0)
    obtain ⟨a', b', c', d'⟩ := pruneKeyEff_fixed newConf m k0
    exact ⟨a.trans a', b.trans b', c.trans c', d.trans d'⟩

theorem good_loop2 (newConf : GoMap GoString) (ks : List GoString) {m : LogTask} (h : Good m) :
    Good (loop2 newConf ks m) := by
  induction ks generalizing m with
  | nil => exact h
  | cons k ks ih => exact ih (good_pruneKeyEff h newConf k)

theorem loop2_LogStat (newConf : GoMap GoString) (ks : List GoString) (m : LogTask)
    (k : GoString) :
    mapGet? (loop2 newConf ks m).LogStat k =
      if k ∈ ks ∧ strAt m.CurrentConfig k ≠ strAt newConf k ∧ strAt newConf k = [] then none
      else mapGet? m.LogStat k := by
  induction ks generalizing m with
  | nil => simp [loop2]
  | cons k0 ks ih =>
    rw [loop2_cons, ih, pruneKeyEff_Cur, pruneKeyEff_LogStat]
    by_cases hk : k = k0
    · subst hk
      by_cases hc : strAt m.CurrentConfig k ≠ strAt newConf k ∧ strAt newConf k = []
      · rw [if_pos (⟨rfl, hc⟩ : k = k ∧ _), if_pos (⟨List.mem_cons_self _ _, hc⟩ : k ∈ k :: ks ∧ _)]
        simp only [ite_self]
      · simp only [hc, and_false, if_false]
    · by_cases h1 : k ∈ ks
      · simp only [hk, false_and, if_false, List.mem_cons, h1, or_true]
      · simp only [hk, false_and, if_false, List.mem_cons, h1, or_false]

/-- The second loop does not panic when every key it prunes has an open signal. -/
theorem rangeLoop_pruneKey (newConf : GoMap GoString) (ks : List GoString) (m : LogTask)
    (hn : ks.Nodup) (hg : Good m)
    (ha : ∀ k ∈ ks, strAt m.CurrentConfig k ≠ strAt newConf k → strAt newConf k = [] →
      mapGet? m.LogStat k ≠ none) :
    rangeLoop (pruneKey newConf) ks m = .ok (loop2 newConf ks m) := by
  induction ks generalizing m with
  | nil => rfl
  | cons k0 ks ih =>
    rw [List.nodup_cons] at hn
    have h0 : pruneKey newConf m k0 = .ok (pruneKeyEff newConf m k0) := by
      apply pruneKey_eq
      intro h1 h2
      have h3 := ha k0 (List.mem_cons_self _ _) h1 h2
      cases hg0 : mapGet? m.LogStat k0 with
      | none => exact absurd hg0 h3
      | some c =>
        obtain ⟨p1, _, p3⟩ := hg.opened k0 c hg0
        rw [chanAt_of_get hg0]
        exact ⟨Nat.pos_iff_ne_zero.1 p1, p3⟩
    simp only [rangeLoop, h0, loop2_cons]
    apply ih _ hn.2 (good_pruneKeyEff hg newConf k0)
    intro k hk h1 h2
    have hne : k ≠ k0 := fun hh => hn.1 (hh ▸ hk)
    rw [pruneKeyEff_Cur] at h1
    rw [pruneKeyEff_LogStat, if_neg (fun hh => hne hh.1)]
    exact ha k (List.mem_cons_of_mem _ hk) h1 h2

theorem readPairs_eq (size : Nat) (pairs : List KVPair) (acc : GoMap GoString) :
    readPairs size pairs acc = .ok (readPairsEff size pairs acc) := by
  induction pairs generalizing acc with
  | nil => rfl
  | cons value rest ih =>
    unfold readPairs
    simp only [readPairsEff, List.foldl_cons]
    by_cases h1 : value.Key.length > size
    · have hlt : size - 1 < value.Key.length := by omega
      have hle : size ≤ value.Key.length := le_of_lt h1
      rw [if_pos h1]
      cases hg : value.Key[size - 1]? with
      | none =>
        rw [List.getElem?_eq_none_iff] at hg
        omega
      | some c =>
        by_cases hc : c = '/'
        · subst hc
          simp only [if_true, if_pos hle, h1, true_and]
          exact ih _
        · simp only [if_neg hc, h1, true_and, Option.some.injEq, hc, if_false]
          exact ih _
    · simp only [if_neg h1, h1, false_and, if_false]
      exact ih _

theorem nodup_readPairsEff (size : Nat) (pairs : List KVPair) (acc : GoMap GoString)
    (h : (mapKeys acc).Nodup) : (mapKeys (readPairsEff size pairs acc)).Nodup := by
  induction pairs generalizing acc with
  | nil => exact h
  | cons value rest ih =>
    simp only [readPairsEff, List.foldl_cons]
    split_ifs
    · exact ih _ (nodup_mapKeys_mapSet _ _ h)
    · exact ih _ h

theorem nodup_snapshot (m : LogTask) (pairs : List KVPair) :
    (mapKeys (snapshot m pairs)).Nodup :=
  nodup_readPairsEff _ _ _ List.nodup_nil

theorem ReadConfigFromConsul_ok (m : LogTask) (pairs : List KVPair) :
    ReadConfigFromConsul m ⟨pairs, none⟩ = .ok (snapshot m pairs, none) := by
  simp only [ReadConfigFromConsul, readPairs_eq, snapshot]

theorem ReadConfigFromConsul_err (m : LogTask) (pairs : List KVPair) (e : GoError) :
    ReadConfigFromConsul m ⟨pairs, some e⟩ = .ok ([], some e) := rfl

theorem CheckReload_err (m : LogTask) (pairs : List KVPair) (e : GoError) :
    CheckReload m ⟨pairs, some e⟩ = .ok (m, some e) := rfl

theorem CheckReload_of_applyConf {m m1 : LogTask} {pairs : List KVPair}
    (h : applyConf m (snapshot m pairs) = .ok m1) :
    CheckReload m ⟨pairs, none⟩ = .ok (m1, none) := by
  simp only [CheckReload, ReadConfigFromConsul_ok, h]

theorem strAt_of_not_mem {a : GoMap GoString} {k : GoString} (h : k ∉ mapKeys a) :
    strAt a k = [] := by
  have := (mapGet?_eq_none_iff a k).2 h
  simp [strAt, this]

/-- After the first loop no key of the old snapshot that the second loop prunes is a
key of the new snapshot. -/
theorem prune_cond_not_mem {m : LogTask} {newConf : GoMap GoString}
    (hn : (mapKeys newConf).Nodup) {k : GoString}
    (h1 : strAt (loop1 newConf (mapKeys newConf) m).CurrentConfig k ≠ strAt newConf k)
    (h2 : strAt newConf k = []) : k ∉ mapKeys newConf := by
  intro hk
  have h3 := loop1_Cur_of_mem newConf _ m hn hk
  rw [h2] at h3 h1
  simp only [ite_self] at h3
  exact h1 h3

theorem applyConf_eq {m : LogTask} (hi : Inv m) {newConf : GoMap GoString}
    (hn : (mapKeys newConf).Nodup) : applyConf m newConf = .ok (applyEff m newConf) := by
  unfold applyConf
  rw [rangeLoop_reloadKey newConf _ m hn hi.good (fun k _ => hi.active k)]
  simp only
  rw [rangeLoop_pruneKey newConf _ _ (hi.keysCur.sublist (loop1_Cur_sublist _ _ _))
    (good_loop1 _ _ hi.good)]
  · rfl
  · intro k _ h1 h2
    have hk := prune_cond_not_mem hn h1 h2
    rw [loop1_LogStat_of_not_mem _ _ _ hk]
    rw [strAt_eq_of_get (loop1_Cur_of_not_mem _ _ _ hk), h2] at h1
    exact (hi.active k).2 h1

theorem good_applyEff {m : LogTask} (hg : Good m) (newConf : GoMap GoString) :
    Good (applyEff m newConf) :=
  (good_loop2 newConf _ (good_loop1 newConf _ hg)).of_eq rfl rfl rfl

/-- The registered signal of every key after the reconciliation. -/
theorem applyEff_LogStat (m : LogTask) {newConf : GoMap GoString}
    (hn : (mapKeys newConf).Nodup) (k : GoString) :
    (strAt m.CurrentConfig k = strAt newConf k →
      mapGet? (applyEff m newConf).LogStat k = mapGet? m.LogStat k) ∧
    (strAt m.CurrentConfig k ≠ strAt newConf k → strAt newConf k = [] →
      mapGet? (applyEff m newConf).LogStat k = none) ∧
    (strAt m.CurrentConfig k ≠ strAt newConf k → strAt newConf k ≠ [] →
      ∃ c, m.nchans < c ∧ mapGet? (applyEff m newConf).LogStat k = some c) := by
  have hl : mapGet? (applyEff m newConf).LogStat k =
      mapGet? (loop2 newConf (mapKeys (loop1 newConf (mapKeys newConf) m).CurrentConfig)
        (loop1 newConf (mapKeys newConf) m)).LogStat k := rfl
  rw [hl, loop2_LogStat]
  by_cases hk : k ∈ mapKeys newConf
  · have hc : ¬ (k ∈ mapKeys (loop1 newConf (mapKeys newConf) m).CurrentConfig ∧
        strAt (loop1 newConf (mapKeys newConf) m).CurrentConfig k ≠ strAt newConf k ∧
        strAt newConf k = []) := fun hh => prune_cond_not_mem hn hh.2.1 hh.2.2 hk
    rw [if_neg hc]
    exact loop1_LogStat_of_mem newConf _ m hn hk
  · have hnew : strAt newConf k = [] := strAt_of_not_mem hk
    have hcur : strAt (loop1 newConf (mapKeys newConf) m).CurrentConfig k = strAt m.CurrentConfig k :=
      strAt_eq_of_get (loop1_Cur_of_not_mem _ _ _ hk)
    rw [hcur, loop1_LogStat_of_not_mem _ _ _ hk]
    refine ⟨fun h1 => ?_, fun h1 _ => ?_, fun _ h2 => absurd hnew h2⟩
    · rw [if_neg (fun hh => hh.2.1 h1)]
    · rw [if_pos]
      refine ⟨?_, h1, hnew⟩
      apply strAt_ne_nil_mem
      rw [hcur]
      intro hh
      exact h1 (hh.trans hnew.symm)

theorem inv_applyEff {m : LogTask} (hi : Inv m) {newConf : GoMap GoString}
    (hn : (mapKeys newConf).Nodup) : Inv (applyEff m newConf) where
  good := good_applyEff hi.good newConf
  keysCur := hn
  active := by
    intro k
    obtain ⟨h1, h2, h3⟩ := applyEff_LogStat m hn k
    show mapGet? (applyEff m newConf).LogStat k ≠ none ↔ strAt newConf k ≠ []
    by_cases hc : strAt m.CurrentConfig k = strAt newConf k
    · rw [h1 hc, ← hc]
      exact hi.active k
    · by_cases he : strAt newConf k = []
      · rw [h2 hc he]
        exact ⟨fun hh => absurd rfl hh, fun hh => absurd he hh⟩
      · obtain ⟨c, _, hc2⟩ := h3 hc he
        rw [hc2]
        exact ⟨fun _ => he, fun _ => by simp⟩

theorem CheckReload_ok {m : LogTask} (hi : Inv m) (pairs : List KVPair) :
    CheckReload m ⟨pairs, none⟩ = .ok (applyEff m (snapshot m pairs), none) :=
  CheckReload_of_applyConf (applyConf_eq hi (nodup_snapshot m pairs))

theorem applyEff_Setting (m : LogTask) (newConf : GoMap GoString) :
    (applyEff m newConf).Setting = m.Setting :=
  (loop2_fixed _ _ _).2.1.trans (loop1_fixed _ _ _).1

theorem applyEff_exitChan (m : LogTask) (newConf : GoMap GoString) :
    (applyEff m newConf).exitChan = m.exitChan :=
  (loop2_fixed _ _ _).2.2.1.trans (loop1_fixed _ _ _).2.1

theorem applyEff_nchans (m : LogTask) (newConf : GoMap GoString) :
    m.nchans ≤ (applyEff m newConf).nchans := by
  have h1 : (applyEff m newConf).nchans = (loop1 newConf (mapKeys newConf) m).nchans :=
    (loop2_fixed _ _ _).1
  rw [h1]
  exact loop1_nchans _ _ _

theorem torn1_single_pos {newConf : GoMap GoString} {m : LogTask} {k : GoString}
    (h : strAt m.CurrentConfig k ≠ strAt newConf k ∧ strAt m.CurrentConfig k ≠ []) :
    torn1 newConf m [k] = [k] := by
  simp only [torn1, List.filter_cons, decide_eq_true h, if_true, List.filter_nil]

theorem torn1_single_neg {newConf : GoMap GoString} {m : LogTask} {k : GoString}
    (h : ¬ (strAt m.CurrentConfig k ≠ strAt newConf k ∧ strAt m.CurrentConfig k ≠ [])) :
    torn1 newConf m [k] = [] := by
  simp only [torn1, List.filter_cons, decide_eq_false h, List.filter_nil]
  rfl

theorem torn2_single_pos {newConf : GoMap GoString} {m : LogTask} {k : GoString}
    (h : strAt m.CurrentConfig k ≠ strAt newConf k ∧ strAt newConf k = []) :
    torn2 newConf m [k] = [k] := by
  simp only [torn2, List.filter_cons, decide_eq_true h, if_true, List.filter_nil]

theorem torn2_single_neg {newConf : GoMap GoString} {m : LogTask} {k : GoString}
    (h : ¬ (strAt m.CurrentConfig k ≠ strAt newConf k ∧ strAt newConf k = [])) :
    torn2 newConf m [k] = [] := by
  simp only [torn2, List.filter_cons, decide_eq_false h, List.filter_nil]
  rfl

theorem reloadKeyEff_closed (newConf : GoMap GoString) (m : LogTask) (k : GoString) :
    (reloadKeyEff newConf m k).closed = m.closed ++ (torn1 newConf m [k]).map (chanAt m.LogStat) := by
  unfold reloadKeyEff
  by_cases h1 : strAt m.CurrentConfig k = strAt newConf k
  · rw [if_pos h1, torn1_single_neg (fun hh => hh.1 h1)]; simp
  · by_cases h2 : strAt m.CurrentConfig k = []
    · rw [if_neg h1, if_pos h2, torn1_single_neg (fun hh => hh.2 h2)]; simp [startKey]
    · by_cases h3 : strAt newConf k = []
      · rw [if_neg h1, if_neg h2, if_pos h3, torn1_single_pos ⟨h1, h2⟩]
        simp [dropKey]
      · rw [if_neg h1, if_neg h2, if_neg h3, torn1_single_pos ⟨h1, h2⟩]
        simp [dropKey, startKey]

theorem torn1_cons (newConf : GoMap GoString) (m : LogTask) (k : GoString) (ks : List GoString) :
    torn1 newConf m (k :: ks) = torn1 newConf m [k] ++ torn1 newConf m ks := by
  simp only [torn1, List.filter_cons, List.filter_nil]
  split_ifs <;> rfl

theorem loop1_closed (newConf : GoMap GoString) (ks : List GoString) (m : LogTask)
    (hn : ks.Nodup) :
    (loop1 newConf ks m).closed = m.closed ++ (torn1 newConf m ks).map (chanAt m.LogStat) := by
  induction ks generalizing m with
  | nil => simp [loop1, torn1]
  | cons k0 ks ih =>
    rw [List.nodup_cons] at hn
    rw [loop1_cons, ih _ hn.2, reloadKeyEff_closed, torn1_cons newConf m k0 ks, List.map_append,
      List.append_assoc]
    congr 2
    have hf : torn1 newConf (reloadKeyEff newConf m k0) ks = torn1 newConf m ks := by
      apply List.filter_congr
      intro k hk
      have hne : k ≠ k0 := fun hh => hn.1 (hh ▸ hk)
      rw [strAt_eq_of_get (reloadKeyEff_Cur_ne newConf m hne)]
    rw [hf]
    apply List.map_congr_left
    intro k hk
    have hne : k ≠ k0 := fun hh => hn.1 (hh ▸ (List.mem_filter.1 hk).1)
    simp only [chanAt, reloadKeyEff_LogStat_ne newConf m hne]

theorem pruneKeyEff_closed (newConf : GoMap GoString) (m : LogTask) (k : GoString) :
    (pruneKeyEff newConf m k).closed = m.closed ++ (torn2 newConf m [k]).map (chanAt m.LogStat) ∧
    (pruneKeyEff newConf m k).trace =
      m.trace ++ ((torn2 newConf m [k]).map (chanAt m.LogStat)).map Event.close := by
  unfold pruneKeyEff
  by_cases h : strAt m.CurrentConfig k ≠ strAt newConf k ∧ strAt newConf k = []
  · rw [if_pos h, torn2_single_pos h]
    exact ⟨rfl, rfl⟩
  · rw [if_neg h, torn2_single_neg h]
    simp

theorem torn2_cons (newConf : GoMap GoString) (m : LogTask) (k : GoString) (ks : List GoString) :
    torn2 newConf m (k :: ks) = torn2 newConf m [k] ++ torn2 newConf m ks := by
  simp only [torn2, List.filter_cons, List.filter_nil]
  split_ifs <;> rfl

theorem loop2_closed (newConf : GoMap GoString) (ks : List GoString) (m : LogTask)
    (hn : ks.Nodup) :
    (loop2 newConf ks m).closed = m.closed ++ (torn2 newConf m ks).map (chanAt m.LogStat) ∧
    (loop2 newConf ks m).trace =
      m.trace ++ ((torn2 newConf m ks).map (chanAt m.LogStat)).map Event.close := by
  induction ks generalizing m with
  | nil => simp [loop2, torn2]
  | cons k0 ks ih =>
    rw [List.nodup_cons] at hn
    have hf : torn2 newConf (pruneKeyEff newConf m k0) ks = torn2 newConf m ks := by
      simp only [torn2, pruneKeyEff_Cur]
    have hm : (torn2 newConf m ks).map (chanAt (pruneKeyEff newConf m k0).LogStat)
        = (torn2 newConf m ks).map (chanAt m.LogStat) := by
      apply List.map_congr_left
      intro k hk
      have hne : k ≠ k0 := fun hh => hn.1 (hh ▸ (List.mem_filter.1 hk).1)
      simp only [chanAt, pruneKeyEff_LogStat, if_neg (fun hh : k = k0 ∧ _ => hne hh.1)]
    obtain ⟨i1, i2⟩ := ih (pruneKeyEff newConf m k0) hn.2
    obtain ⟨p1, p2⟩ := pruneKeyEff_closed newConf m k0
    rw [loop2_cons, i1, i2, hf, hm, p1, p2, torn2_cons newConf m k0 ks]
    simp only [List.map_append, List.append_assoc, and_self]

theorem applyEff_closed {m : LogTask} (hi : Inv m) {newConf : GoMap GoString}
    (hn : (mapKeys newConf).Nodup) :
    (applyEff m newConf).closed = m.closed ++ closes m newConf := by
  have h2 := (loop2_closed newConf (mapKeys (loop1 newConf (mapKeys newConf) m).CurrentConfig)
    (loop1 newConf (mapKeys newConf) m) (hi.keysCur.sublist (loop1_Cur_sublist _ _ _))).1
  show (loop2 newConf _ (loop1 newConf (mapKeys newConf) m)).closed = _
  rw [h2, loop1_closed _ _ _ hn, closes, List.append_assoc]

theorem chanAt_registered {m : LogTask} (hi : Inv m) {k : GoString}
    (h : strAt m.CurrentConfig k ≠ []) : mapGet? m.LogStat k = some (chanAt m.LogStat k) := by
  have h3 := (hi.active k).2 h
  cases hg : mapGet? m.LogStat k with
  | none => exact absurd hg h3
  | some c => rw [chanAt_of_get hg]

theorem mem_closes_iff {m : LogTask} (hi : Inv m) {newConf : GoMap GoString}
    (hn : (mapKeys newConf).Nodup) (c : Chan) :
    c ∈ closes m newConf ↔
      ∃ k, mapGet? m.LogStat k = some c ∧ strAt m.CurrentConfig k ≠ strAt newConf k := by
  simp only [closes, List.mem_append, List.mem_map, torn1, torn2, List.mem_filter,
    decide_eq_true_eq]
  constructor
  · rintro (⟨k, ⟨_, h1, h2⟩, rfl⟩ | ⟨k, ⟨_, h1, h2⟩, rfl⟩)
    · exact ⟨k, chanAt_registered hi h2, h1⟩
    · have hk := prune_cond_not_mem hn h1 h2
      have hcur := strAt_eq_of_get (loop1_Cur_of_not_mem newConf (mapKeys newConf) m hk)
      rw [hcur] at h1
      have hne : strAt m.CurrentConfig k ≠ [] := fun hh => h1 (hh.trans h2.symm)
      refine ⟨k, ?_, h1⟩
      simp only [chanAt, loop1_LogStat_of_not_mem _ _ _ hk]
      exact chanAt_registered hi hne
  · rintro ⟨k, h1, h2⟩
    have hne : strAt m.CurrentConfig k ≠ [] := (hi.active k).1 (by rw [h1]; simp)
    by_cases hk : k ∈ mapKeys newConf
    · exact Or.inl ⟨k, ⟨hk, h2, hne⟩, chanAt_of_get h1⟩
    · have hcur := strAt_eq_of_get (loop1_Cur_of_not_mem newConf (mapKeys newConf) m hk)
      refine Or.inr ⟨k, ⟨?_, ?_, strAt_of_not_mem hk⟩, ?_⟩
      · apply strAt_ne_nil_mem; rw [hcur]; exact hne
      · rw [hcur]; exact h2
      · simp only [chanAt, loop1_LogStat_of_not_mem _ _ _ hk]
        exact chanAt_of_get h1

theorem nodup_map_chanAt {m : LogTask} (hg : Good m) {ks : List GoString} (hn : ks.Nodup)
    (hs : ∀ k ∈ ks, mapGet? m.LogStat k ≠ none) : (ks.map (chanAt m.LogStat)).Nodup := by
  apply List.Nodup.map_on _ hn
  intro a ha b hb hab
  cases h1 : mapGet? m.LogStat a with
  | none => exact absurd h1 (hs a ha)
  | some c =>
    cases h2 : mapGet? m.LogStat b with
    | none => exact absurd h2 (hs b hb)
    | some c' =>
      rw [chanAt_of_get h1, chanAt_of_get h2] at hab
      subst hab
      exact hg.inj a b c h1 h2

/-- No channel is closed twice by a reconciliation, and none that was closed before. -/
theorem nodup_closes {m : LogTask} (hi : Inv m) {newConf : GoMap GoString}
    (hn : (mapKeys newConf).Nodup) :
    (closes m newConf).Nodup ∧ ∀ c ∈ closes m newConf, c ∉ m.closed := by
  have hg1 : Good (loop1 newConf (mapKeys newConf) m) := good_loop1 _ _ hi.good
  have hk1 : (mapKeys (loop1 newConf (mapKeys newConf) m).CurrentConfig).Nodup :=
    hi.keysCur.sublist (loop1_Cur_sublist _ _ _)
  have hreg2 : ∀ k ∈ torn2 newConf (loop1 newConf (mapKeys newConf) m)
      (mapKeys (loop1 newConf (mapKeys newConf) m).CurrentConfig),
      mapGet? (loop1 newConf (mapKeys newConf) m).LogStat k ≠ none := by
    intro k hk
    simp only [torn2, List.mem_filter, decide_eq_true_eq] at hk
    obtain ⟨_, h1, h2⟩ := hk
    have hk' := prune_cond_not_mem hn h1 h2
    rw [loop1_LogStat_of_not_mem _ _ _ hk']
    rw [strAt_eq_of_get (loop1_Cur_of_not_mem _ _ _ hk'), h2] at h1
    exact (hi.active k).2 h1
  have hreg1 : ∀ k ∈ torn1 newConf m (mapKeys newConf), mapGet? m.LogStat k ≠ none := by
    intro k hk
    simp only [torn1, List.mem_filter, decide_eq_true_eq] at hk
    exact (hi.active k).2 hk.2.2
  have hopen2 : ∀ c ∈ (torn2 newConf (loop1 newConf (mapKeys newConf) m)
      (mapKeys (loop1 newConf (mapKeys newConf) m).CurrentConfig)).map
        (chanAt (loop1 newConf (mapKeys newConf) m).LogStat),
      c ∉ (loop1 newConf (mapKeys newConf) m).closed := by
    intro c hc
    obtain ⟨k, hk, rfl⟩ := List.mem_map.1 hc
    cases hg : mapGet? (loop1 newConf (mapKeys newConf) m).LogStat k with
    | none => exact absurd hg (hreg2 k hk)
    | some c' =>
      rw [chanAt_of_get hg]
      exact (hg1.opened k c' hg).2.2
  constructor
  · unfold closes
    rw [List.nodup_append]
    refine ⟨nodup_map_chanAt hi.good (hn.sublist (List.filter_sublist _)) hreg1,
      nodup_map_chanAt hg1 (hk1.sublist (List.filter_sublist _)) hreg2, ?_⟩
    intro c h1 h2
    apply hopen2 c h2
    rw [loop1_closed _ _ _ hn]
    exact List.mem_append_right _ h1
  · intro c hc
    unfold closes at hc
    rcases List.mem_append.1 hc with h | h
    · obtain ⟨k, hk, rfl⟩ := List.mem_map.1 h
      cases hg : mapGet? m.LogStat k with
      | none => exact absurd hg (hreg1 k hk)
      | some c' =>
        rw [chanAt_of_get hg]
        exact (hi.good.opened k c' hg).2.2
    · intro hcl
      apply hopen2 c h
      rw [loop1_closed _ _ _ hn]
      exact List.mem_append_left _ hcl

theorem inv_of_registered {m : LogTask} (hr : Registered m) (hd : Distinct m) : Inv m := by
  obtain ⟨h1, h2, h3, h4, h5, h6⟩ := hr
  refine ⟨⟨h1, ?_, ?_, h6⟩, h2, ?_⟩
  · intro k c hc
    exact h5 c (List.mem_map_of_mem Prod.snd (mem_of_mapGet? hc))
  · intro k k' c hk hk'
    have e1 := mem_of_mapGet? hk
    have e2 := mem_of_mapGet? hk'
    have hinj := List.inj_on_of_nodup_map hd e1 e2 rfl
    exact congrArg Prod.fst hinj
  · intro k
    unfold ActiveAt
    rw [← mem_mapKeys_iff]
    constructor
    · exact h3 k
    · intro hk
      exact h4 k (strAt_ne_nil_mem hk) hk

theorem values_of_good {m : LogTask} (hg : Good m) :
    (m.LogStat.map Prod.snd).Nodup ∧
    ∀ c ∈ m.LogStat.map Prod.snd, 0 < c ∧ c ≤ m.nchans ∧ c ∉ m.closed := by
  constructor
  · apply List.Nodup.map_on _ (List.Nodup.of_map Prod.fst hg.keys)
    rintro ⟨k1, c1⟩ h1 ⟨k2, c2⟩ h2 h
    simp only at h
    subst h
    have e1 := mapGet?_of_mem hg.keys h1
    have e2 := mapGet?_of_mem hg.keys h2
    rw [hg.inj k1 k2 c1 e1 e2]
  · intro c hc
    obtain ⟨⟨k, c'⟩, he, rfl⟩ := List.mem_map.1 hc
    exact hg.opened k c' (mapGet?_of_mem hg.keys he)

theorem inv_of_empty {m : LogTask} (h1 : m.LogStat = []) (h2 : m.CurrentConfig = [])
    (h3 : ∀ c ∈ m.closed, c ≤ m.nchans) : Inv m := by
  refine ⟨⟨by rw [h1]; exact List.nodup_nil, ?_, ?_, h3⟩, by rw [h2]; exact List.nodup_nil, ?_⟩
  · intro k c hc; rw [h1] at hc; cases hc
  · intro k k' c hc; rw [h1] at hc; cases hc
  · intro k
    unfold ActiveAt
    rw [h1, h2]
    exact ⟨fun h => absurd rfl h, fun h => absurd rfl h⟩

theorem runInv_runInit (setting : GoMap GoString) : RunInv (runInit (newLogTask setting)) where
  inv := inv_of_empty rfl rfl (by intro c hc; cases hc)
  exitPos := Nat.succ_pos 0
  exitAlloc := Nat.le_succ 1
  exitOpen := by intro h; cases h
  exitFresh := by intro k h; cases h

theorem runInv_applyEff {m : LogTask} (h : RunInv m) {newConf : GoMap GoString}
    (hn : (mapKeys newConf).Nodup) : RunInv (applyEff m newConf) where
  inv := inv_applyEff h.inv hn
  exitPos := by rw [applyEff_exitChan]; exact h.exitPos
  exitAlloc := by rw [applyEff_exitChan]; exact le_trans h.exitAlloc (applyEff_nchans _ _)
  exitOpen := by
    rw [applyEff_exitChan, applyEff_closed h.inv hn, List.mem_append]
    rintro (hc | hc)
    · exact h.exitOpen hc
    · obtain ⟨k, hk, _⟩ := (mem_closes_iff h.inv hn _).1 hc
      exact h.exitFresh k hk
  exitFresh := by
    intro k
    rw [applyEff_exitChan]
    obtain ⟨h1, h2, h3⟩ := applyEff_LogStat m hn k
    by_cases hc : strAt m.CurrentConfig k = strAt newConf k
    · rw [h1 hc]; exact h.exitFresh k
    · by_cases he : strAt newConf k = []
      · rw [h2 hc he]; exact fun hh => by cases hh
      · obtain ⟨c, hc1, hc2⟩ := h3 hc he
        rw [hc2]
        intro hh
        have e1 : c = m.exitChan := by simpa using hh
        rw [e1] at hc1
        exact absurd hc1 (Nat.not_lt.2 h.exitAlloc)

theorem CheckReload_runInv {m : LogTask} (h : RunInv m) (l : Listing) :
    ∃ m1 e, CheckReload m l = .ok (m1, e) ∧ RunInv m1 := by
  obtain ⟨pairs, err⟩ := l
  cases err with
  | some e => exact ⟨m, some e, rfl, h⟩
  | none =>
    exact ⟨_, none, CheckReload_ok h.inv pairs, runInv_applyEff h (nodup_snapshot m pairs)⟩

theorem tickLoop_runInv (ls : List Listing) {m : LogTask} (h : RunInv m) :
    ∃ m1, tickLoop ls m = .ok m1 ∧ RunInv m1 := by
  induction ls generalizing m with
  | nil => exact ⟨m, rfl, h⟩
  | cons l ls ih =>
    obtain ⟨m1, e, h1, h2⟩ := CheckReload_runInv h l
    obtain ⟨m2, h3, h4⟩ := ih h2
    exact ⟨m2, by simp only [tickLoop, h1, h3], h4⟩

theorem closeAll_eq (vs : List Chan) (m : LogTask) (hn : vs.Nodup)
    (hv : ∀ v ∈ vs, v ≠ 0 ∧ v ∉ m.closed) :
    closeAll vs m = .ok { m with closed := m.closed ++ vs,
                                 trace := m.trace ++ vs.map Event.close } := by
  induction vs generalizing m with
  | nil => simp [closeAll]
  | cons v vs ih =>
    rw [List.nodup_cons] at hn
    obtain ⟨h0, h1⟩ := hv v (List.mem_cons_self _ _)
    simp only [closeAll, closeChan_ok h0 h1]
    rw [ih _ hn.2]
    · simp
    · intro w hw
      obtain ⟨w0, w1⟩ := hv w (List.mem_cons_of_mem _ hw)
      refine ⟨w0, ?_⟩
      simp only [List.mem_append, List.mem_singleton, not_or]
      exact ⟨w1, fun hh => hn.1 (hh ▸ hw)⟩

/-- On a task between two reconciliations of `Run`, `Stop` closes the exit signal and
then every registered signal, each once, without a panic. -/
theorem Stop_eq {m : LogTask} (h : RunInv m) :
    Stop m = .ok { m with closed := m.closed ++ m.exitChan :: m.LogStat.map Prod.snd,
                          trace := m.trace ++ Event.close m.exitChan ::
                            (m.LogStat.map Prod.snd).map Event.close ++ [Event.writerStop] } := by
  obtain ⟨hnd, hop⟩ := values_of_good h.inv.good
  have hne : ∀ c ∈ m.LogStat.map Prod.snd, c ≠ m.exitChan := by
    intro c hc hh
    obtain ⟨⟨k, c'⟩, he, rfl⟩ := List.mem_map.1 hc
    exact h.exitFresh k (by rw [← hh]; exact mapGet?_of_mem h.inv.good.keys he)
  unfold Stop
  rw [closeChan_ok (Nat.pos_iff_ne_zero.1 h.exitPos) h.exitOpen]
  simp only
  rw [closeAll_eq _ _ hnd]
  · simp
  · intro v hv
    obtain ⟨v0, _, v2⟩ := hop v hv
    refine ⟨Nat.pos_iff_ne_zero.1 v0, ?_⟩
    simp only [List.mem_append, List.mem_singleton, not_or]
    exact ⟨v2, hne v hv⟩

theorem reloadKeyEff_trace (newConf : GoMap GoString) (m : LogTask) (k : GoString) :
    (reloadKeyEff newConf m k).trace = m.trace ++ keyEvents newConf m k := by
  unfold reloadKeyEff keyEvents
  by_cases h1 : strAt m.CurrentConfig k = strAt newConf k
  · rw [if_pos h1, if_pos h1, List.append_nil]
  · by_cases h2 : strAt m.CurrentConfig k = []
    · have h3 : strAt newConf k ≠ [] := fun hh => h1 (h2.trans hh.symm)
      rw [if_neg h1, if_pos h2, if_neg h1, if_pos h2, if_neg h3]
      rfl
    · by_cases h3 : strAt newConf k = []
      · rw [if_neg h1, if_neg h2, if_pos h3, if_neg h1, if_neg h2, if_pos h3, List.append_nil]
        rfl
      · rw [if_neg h1, if_neg h2, if_neg h3, if_neg h1, if_neg h2, if_neg h3]
        simp [startKey, dropKey]

theorem reloadKeyEff_nchans_start (newConf : GoMap GoString) (m : LogTask) (k : GoString)
    (h1 : strAt m.CurrentConfig k ≠ strAt newConf k) (h3 : strAt newConf k ≠ []) :
    (reloadKeyEff newConf m k).nchans = m.nchans + 1 := by
  unfold reloadKeyEff
  by_cases h2 : strAt m.CurrentConfig k = []
  · rw [if_neg h1, if_pos h2]; rfl
  · rw [if_neg h1, if_neg h2, if_neg h3]; rfl

theorem loop1_trace (newConf : GoMap GoString) (ks : List GoString) (m : LogTask) :
    (loop1 newConf ks m).trace = m.trace ++ loop1Events newConf ks m := by
  induction ks generalizing m with
  | nil => simp [loop1, loop1Events]
  | cons k0 ks ih =>
    rw [loop1_cons, ih, reloadKeyEff_trace, loop1Events, List.append_assoc]

theorem about_starts_self (k : GoString) (cOld c : Chan) (v : GoString) :
    ∀ e ∈ starts k c v, about k cOld c e = true := by
  intro e he
  simp only [starts, List.mem_flatMap, List.mem_cons, List.mem_singleton, List.not_mem_nil,
    or_false] at he
  obtain ⟨f, _, rfl | rfl⟩ := he <;> simp [about]

theorem about_starts_other {k k0 : GoString} (cOld : Chan) {c c0 : Chan} (v : GoString)
    (hk : k0 ≠ k) (hc : c0 ≠ c) : ∀ e ∈ starts k0 c0 v, about k cOld c e = false := by
  intro e he
  simp only [starts, List.mem_flatMap, List.mem_cons, List.mem_singleton, List.not_mem_nil,
    or_false] at he
  obtain ⟨f, _, rfl | rfl⟩ := he <;> simp [about, hk, hc]

theorem own_keyEvents (newConf : GoMap GoString) (m : LogTask) (k : GoString) :
    (keyEvents newConf m k).filter (about k (chanAt m.LogStat k) (m.nchans + 1))
      = keyEvents newConf m k := by
  rw [List.filter_eq_self]
  intro e he
  unfold keyEvents at he
  split_ifs at he <;>
    simp only [List.mem_append, List.mem_cons, List.mem_singleton, List.not_mem_nil,
      or_false, false_or] at he
  · rcases he with rfl | he
    · simp [about]
    · exact about_starts_self _ _ _ _ _ he
  · subst he; simp [about]
  · rcases he with rfl | rfl | he
    · simp [about]
    · simp [about]
    · exact about_starts_self _ _ _ _ _ he

theorem foreign_keyEvents (newConf : GoMap GoString) (m : LogTask) {k k0 : GoString}
    {cOld c : Chan} (hk : k0 ≠ k)
    (hc : strAt m.CurrentConfig k0 ≠ strAt newConf k0 → strAt newConf k0 ≠ [] →
      m.nchans + 1 ≠ c)
    (ho : strAt m.CurrentConfig k0 ≠ [] →
      chanAt m.LogStat k0 ≠ c ∧ chanAt m.LogStat k0 ≠ cOld) :
    (keyEvents newConf m k0).filter (about k cOld c) = [] := by
  rw [List.filter_eq_nil_iff]
  intro e he
  unfold keyEvents at he
  by_cases h1 : strAt m.CurrentConfig k0 = strAt newConf k0
  · rw [if_pos h1] at he; cases he
  · rw [if_neg h1] at he
    rcases List.mem_append.1 he with he | he
    · by_cases h2 : strAt m.CurrentConfig k0 = []
      · rw [if_pos h2] at he; cases he
      · rw [if_neg h2, List.mem_singleton] at he
        subst he
        obtain ⟨o1, o2⟩ := ho h2
        simp [about, o1, o2]
    · by_cases h3 : strAt newConf k0 = []
      · rw [if_pos h3] at he; cases he
      · rw [if_neg h3] at he
        have hc' := hc h1 h3
        rcases List.mem_cons.1 he with rfl | he
        · simp [about, hc']
        · rw [about_starts_other cOld _ hk hc' e he]
          simp

theorem foreign_loop1Events (newConf : GoMap GoString) {k : GoString} {cOld c : Chan}
    (ks : List GoString) (m : LogTask) (hk : k ∉ ks) (hn : ks.Nodup) (hc : c ≤ m.nchans)
    (ho : ∀ k' ∈ ks, strAt m.CurrentConfig k' ≠ [] →
      chanAt m.LogStat k' ≠ c ∧ chanAt m.LogStat k' ≠ cOld) :
    (loop1Events newConf ks m).filter (about k cOld c) = [] := by
  induction ks generalizing m with
  | nil => rfl
  | cons k0 ks ih =>
    rw [List.nodup_cons] at hn
    have hk0 : k0 ≠ k := fun hh => hk (hh ▸ List.mem_cons_self _ _)
    rw [loop1Events, List.filter_append,
      foreign_keyEvents newConf m hk0
        (fun _ _ hh => absurd (hh.symm ▸ hc : m.nchans + 1 ≤ m.nchans) (Nat.not_succ_le_self _))
        (ho k0 (List.mem_cons_self _ _)),
      List.nil_append]
    apply ih _ (fun hh => hk (List.mem_cons_of_mem _ hh)) hn.2
      (le_trans hc (reloadKeyEff_nchans _ _ _))
    intro k' hk' h1
    have hne : k' ≠ k0 := fun hh => hn.1 (hh ▸ hk')
    rw [strAt_eq_of_get (reloadKeyEff_Cur_ne newConf m hne)] at h1
    simp only [chanAt, reloadKeyEff_LogStat_ne newConf m hne]
    exact ho k' (List.mem_cons_of_mem _ hk') h1

/-- In the events of the first loop, those that concern a key with a new non-empty
value are the close of its old signal, if it had one, the allocation of its new
signal and the goroutine starts on it, in this order. -/
theorem about_loop1Events (newConf : GoMap GoString) {k : GoString}
    (ks : List GoString) (m : LogTask) (hn : ks.Nodup) (hk : k ∈ ks)
    (h1 : strAt m.CurrentConfig k ≠ strAt newConf k) (h3 : strAt newConf k ≠ [])
    (ho : ∀ k' ∈ ks, k' ≠ k → strAt m.CurrentConfig k' ≠ [] →
      chanAt m.LogStat k' ≤ m.nchans ∧ chanAt m.LogStat k' ≠ chanAt m.LogStat k) :
    ∃ c, m.nchans < c ∧ c ≤ (loop1 newConf ks m).nchans ∧
      mapGet? (loop1 newConf ks m).LogStat k = some c ∧
      (loop1Events newConf ks m).filter (about k (chanAt m.LogStat k) c) =
        (if strAt m.CurrentConfig k = [] then [] else [Event.close (chanAt m.LogStat k)]) ++
          Event.make c :: starts k c (strAt newConf k) := by
  induction ks generalizing m with
  | nil => cases hk
  | cons k0 ks ih =>
    rw [List.nodup_cons] at hn
    by_cases hkk : k = k0
    · subst hkk
      refine ⟨m.nchans + 1, Nat.lt_succ_self _, ?_, ?_, ?_⟩
      · rw [loop1_cons]
        exact le_trans (le_of_eq (reloadKeyEff_nchans_start newConf m k h1 h3).symm)
          (loop1_nchans _ _ _)
      · rw [loop1_cons, loop1_LogStat_of_not_mem _ _ _ hn.1, reloadKeyEff_LogStat_self,
          if_neg h1, if_neg h3]
      · rw [loop1Events, List.filter_append, own_keyEvents]
        rw [foreign_loop1Events newConf ks _ hn.1 hn.2
          (le_of_eq (reloadKeyEff_nchans_start newConf m k h1 h3).symm), List.append_nil]
        · unfold keyEvents
          rw [if_neg h1, if_neg h3]
        · intro k' hk' hc'
          have hne : k' ≠ k := fun hh => hn.1 (hh ▸ hk')
          rw [strAt_eq_of_get (reloadKeyEff_Cur_ne newConf m hne)] at hc'
          simp only [chanAt, reloadKeyEff_LogStat_ne newConf m hne]
          obtain ⟨o1, o2⟩ := ho k' (List.mem_cons_of_mem _ hk') hne hc'
          refine ⟨?_, o2⟩
          intro hh
          have o1' : chanAt m.LogStat k' ≤ m.nchans := o1
          simp only [chanAt] at o1'
          rw [hh] at o1'
          exact absurd o1' (Nat.not_succ_le_self _)
    · have hmem : k ∈ ks := by
        rcases List.mem_cons.1 hk with h | h
        · exact absurd h hkk
        · exact h
      have hcur : strAt (reloadKeyEff newConf m k0).CurrentConfig k = strAt m.CurrentConfig k :=
        strAt_eq_of_get (reloadKeyEff_Cur_ne newConf m hkk)
      have hch : chanAt (reloadKeyEff newConf m k0).LogStat k = chanAt m.LogStat k := by
        simp only [chanAt, reloadKeyEff_LogStat_ne newConf m hkk]
      obtain ⟨c, c1, c2, c3, c4⟩ := ih (reloadKeyEff newConf m k0) hn.2 hmem
        (by rw [hcur]; exact h1)
        (by
          intro k' hk' hne hc'
          have hne0 : k' ≠ k0 := fun hh => hn.1 (hh ▸ hk')
          rw [strAt_eq_of_get (reloadKeyEff_Cur_ne newConf m hne0)] at hc'
          rw [hch]
          simp only [chanAt, reloadKeyEff_LogStat_ne newConf m hne0]
          obtain ⟨o1, o2⟩ := ho k' (List.mem_cons_of_mem _ hk') hne hc'
          exact ⟨le_trans o1 (reloadKeyEff_nchans _ _ _), o2⟩)
      rw [hcur, hch] at c4
      refine ⟨c, lt_of_le_of_lt (reloadKeyEff_nchans _ _ _) c1, c2, c3, ?_⟩
      rw [loop1Events, List.filter_append, c4, foreign_keyEvents newConf m (Ne.symm hkk),
        List.nil_append]
      · intro e1 e3 hh
        rw [reloadKeyEff_nchans_start newConf m k0 e1 e3, hh] at c1
        exact absurd c1 (lt_irrefl _)
      · intro e2
        obtain ⟨o1, o2⟩ := ho k0 (List.mem_cons_self _ _) (Ne.symm hkk) e2
        refine ⟨?_, o2⟩
        intro hh
        have o1' : chanAt m.LogStat k0 ≤ m.nchans := o1
        rw [hh] at o1'
        exact absurd (lt_of_le_of_lt (le_trans o1' (reloadKeyEff_nchans newConf m k0)) c1)
          (lt_irrefl _)

theorem applyEff_trace {m : LogTask} (hi : Inv m) (newConf : GoMap GoString) :
    (applyEff m newConf).trace = m.trace ++ applyEvents m newConf := by
  have h2 := (loop2_closed newConf (mapKeys (loop1 newConf (mapKeys newConf) m).CurrentConfig)
    (loop1 newConf (mapKeys newConf) m) (hi.keysCur.sublist (loop1_Cur_sublist _ _ _))).2
  show (loop2 newConf _ (loop1 newConf (mapKeys newConf) m)).trace = _
  rw [h2, loop1_trace, applyEvents, List.append_assoc]

theorem other_chan {m : LogTask} (hi : Inv m) {k k' : GoString} (hne : k' ≠ k)
    (hc : strAt m.CurrentConfig k' ≠ []) :
    chanAt m.LogStat k' ≤ m.nchans ∧ chanAt m.LogStat k' ≠ chanAt m.LogStat k := by
  have hr := chanAt_registered hi hc
  obtain ⟨o1, o2, _⟩ := hi.good.opened k' _ hr
  refine ⟨o2, ?_⟩
  intro hh
  cases hg : mapGet? m.LogStat k with
  | none =>
    have : chanAt m.LogStat k = 0 := by simp [chanAt, hg]
    rw [this] at hh
    rw [hh] at o1
    exact absurd o1 (lt_irrefl _)
  | some c =>
    rw [chanAt_of_get hg] at hh
    rw [hh] at hr
    exact hne (hi.good.inj k' k c hr hg)

theorem applyEff_LogStat_of_mem (m : LogTask) {newConf : GoMap GoString}
    (hn : (mapKeys newConf).Nodup) {k : GoString} (hk : k ∈ mapKeys newConf) :
    mapGet? (applyEff m newConf).LogStat k =
      mapGet? (loop1 newConf (mapKeys newConf) m).LogStat k := by
  show mapGet? (loop2 newConf _ (loop1 newConf (mapKeys newConf) m)).LogStat k = _
  rw [loop2_LogStat, if_neg]
  exact fun hh => prune_cond_not_mem hn hh.2.1 hh.2.2 hk

/-- Among the events of a reconciliation, those that concern a key whose value changed
to a non-empty one are: the close of its old signal if it had one, the allocation of
its new signal, and the goroutine starts on the new signal, in this order. -/
theorem about_applyEvents {m : LogTask} (hi : Inv m) {newConf : GoMap GoString}
    (hn : (mapKeys newConf).Nodup) {k : GoString}
    (h1 : strAt m.CurrentConfig k ≠ strAt newConf k) (h3 : strAt newConf k ≠ []) :
    ∃ c, m.nchans < c ∧ c ≤ (applyEff m newConf).nchans ∧
      mapGet? (applyEff m newConf).LogStat k = some c ∧
      (applyEvents m newConf).filter (about k (chanAt m.LogStat k) c) =
        (if strAt m.CurrentConfig k = [] then [] else [Event.close (chanAt m.LogStat k)]) ++
          Event.make c :: starts k c (strAt newConf k) := by
  have hk : k ∈ mapKeys newConf := strAt_ne_nil_mem h3
  obtain ⟨c, c1, c2, c3, c4⟩ := about_loop1Events newConf (mapKeys newConf) m hn hk h1 h3
    (fun k' _ hne hc => other_chan hi hne hc)
  refine ⟨c, c1, ?_, ?_, ?_⟩
  · have e : (applyEff m newConf).nchans = (loop1 newConf (mapKeys newConf) m).nchans :=
      (loop2_fixed _ _ _).1
    rw [e]; exact c2
  · rw [applyEff_LogStat_of_mem m hn hk]; exact c3
  · rw [applyEvents, List.filter_append, c4]
    have : (((torn2 newConf (loop1 newConf (mapKeys newConf) m)
        (mapKeys (loop1 newConf (mapKeys newConf) m).CurrentConfig)).map
          (chanAt (loop1 newConf (mapKeys newConf) m).LogStat)).map Event.close).filter
        (about k (chanAt m.LogStat k) c) = [] := by
      rw [List.filter_eq_nil_iff]
      intro e he
      simp only [List.mem_map, torn2, List.mem_filter, decide_eq_true_eq] at he
      obtain ⟨x, ⟨k', ⟨_, e1, e2⟩, rfl⟩, rfl⟩ := he
      have hk' := prune_cond_not_mem hn e1 e2
      have hne : k' ≠ k := fun hh => hk' (hh ▸ hk)
      rw [strAt_eq_of_get (loop1_Cur_of_not_mem _ _ _ hk'), e2] at e1
      have hch : chanAt (loop1 newConf (mapKeys newConf) m).LogStat k' = chanAt m.LogStat k' := by
        simp only [chanAt, loop1_LogStat_of_not_mem _ _ _ hk']
      obtain ⟨o1, o2⟩ := other_chan hi hne e1
      rw [hch]
      have o3 : chanAt m.LogStat k' ≠ c := by
        intro hh
        rw [hh] at o1
        exact absurd (lt_of_le_of_lt o1 c1) (lt_irrefl _)
      simp [about, o2, o3]
    rw [this, List.append_nil]

theorem closeChan_ok_inv {m m1 : LogTask} {c : Chan} (h : closeChan m c = .ok m1) :
    c ≠ 0 ∧ c ∉ m.closed := by
  unfold closeChan at h
  by_cases h0 : c = 0
  · rw [if_pos h0] at h; cases h
  · by_cases h1 : c ∈ m.closed
    · rw [if_neg h0, if_pos h1] at h; cases h
    · exact ⟨h0, h1⟩

theorem reloadKey_ok_inv {newConf : GoMap GoString} {m m1 : LogTask} {k : GoString}
    (h : reloadKey newConf m k = .ok m1) : m1 = reloadKeyEff newConf m k := by
  have hp : strAt m.CurrentConfig k ≠ strAt newConf k → strAt m.CurrentConfig k ≠ [] →
      chanAt m.LogStat k ≠ 0 ∧ chanAt m.LogStat k ∉ m.closed := by
    intro h1 h2
    unfold reloadKey at h
    rw [if_pos h1, if_pos ((length_pos_iff_ne_nil _).2 h2)] at h
    cases hc : closeChan m (chanAt m.LogStat k) with
    | error p => rw [hc] at h; cases h
    | ok m2 => exact closeChan_ok_inv hc
  rw [reloadKey_eq newConf m k hp] at h
  cases h; rfl

theorem pruneKey_ok_inv {newConf : GoMap GoString} {m m1 : LogTask} {k : GoString}
    (h : pruneKey newConf m k = .ok m1) : m1 = pruneKeyEff newConf m k := by
  have hp : strAt m.CurrentConfig k ≠ strAt newConf k → strAt newConf k = [] →
      chanAt m.LogStat k ≠ 0 ∧ chanAt m.LogStat k ∉ m.closed := by
    intro h1 h2
    unfold pruneKey at h
    have hl : (strAt newConf k).length = 0 := by rw [h2]; rfl
    rw [if_pos h1, if_pos hl] at h
    cases hc : closeChan m (chanAt m.LogStat k) with
    | error p => rw [hc] at h; cases h
    | ok m2 => exact closeChan_ok_inv hc
  rw [pruneKey_eq newConf m k hp] at h
  cases h; rfl

theorem rangeLoop_reloadKey_inv {newConf : GoMap GoString} (ks : List GoString)
    {m m1 : LogTask} (h : rangeLoop (reloadKey newConf) ks m = .ok m1) :
    m1 = loop1 newConf ks m := by
  induction ks generalizing m with
  | nil => cases h; rfl
  | cons k0 ks ih =>
    unfold rangeLoop at h
    cases hc : reloadKey newConf m k0 with
    | error p => rw [hc] at h; cases h
    | ok m2 =>
      rw [hc] at h
      rw [loop1_cons, ← reloadKey_ok_inv hc]
      exact ih h

theorem rangeLoop_pruneKey_inv {newConf : GoMap GoString} (ks : List GoString)
    {m m1 : LogTask} (h : rangeLoop (pruneKey newConf) ks m = .ok m1) :
    m1 = loop2 newConf ks m := by
  induction ks generalizing m with
  | nil => cases h; rfl
  | cons k0 ks ih =>
    unfold rangeLoop at h
    cases hc : pruneKey newConf m k0 with
    | error p => rw [hc] at h; cases h
    | ok m2 =>
      rw [hc] at h
      rw [loop2_cons, ← pruneKey_ok_inv hc]
      exact ih h

theorem applyConf_ok_inv {newConf : GoMap GoString} {m m1 : LogTask}
    (h : applyConf m newConf = .ok m1) : m1 = applyEff m newConf := by
  unfold applyConf at h
  cases h1 : rangeLoop (reloadKey newConf) (mapKeys newConf) m with
  | error p => rw [h1] at h; cases h
  | ok m2 =>
    rw [h1] at h
    simp only at h
    have e1 := rangeLoop_reloadKey_inv _ h1
    cases h2 : rangeLoop (pruneKey newConf) (mapKeys m2.CurrentConfig) m2 with
    | error p => rw [h2] at h; cases h
    | ok m3 =>
      rw [h2] at h
      have e2 := rangeLoop_pruneKey_inv _ h2
      cases h
      rw [e2, e1]
      rfl

theorem rangeLoop_reloadKey_same {newConf : GoMap GoString} {m : LogTask}
    (he : ∀ k, strAt m.CurrentConfig k = strAt newConf k) (ks : List GoString) :
    rangeLoop (reloadKey newConf) ks m = .ok m := by
  induction ks with
  | nil => rfl
  | cons k0 ks ih =>
    have h0 : reloadKey newConf m k0 = .ok m := by
      unfold reloadKey
      rw [if_neg (fun hh => hh (he k0))]
    simp only [rangeLoop, h0, ih]

theorem rangeLoop_pruneKey_same {newConf : GoMap GoString} {m : LogTask}
    (he : ∀ k, strAt m.CurrentConfig k = strAt newConf k) (ks : List GoString) :
    rangeLoop (pruneKey newConf) ks m = .ok m := by
  induction ks with
  | nil => rfl
  | cons k0 ks ih =>
    have h0 : pruneKey newConf m k0 = .ok m := by
      unfold pruneKey
      rw [if_neg (fun hh => hh (he k0))]
    simp only [rangeLoop, h0, ih]

theorem applyConf_same {newConf : GoMap GoString} {m : LogTask}
    (he : ∀ k, strAt m.CurrentConfig k = strAt newConf k) :
    applyConf m newConf = .ok { m with CurrentConfig := newConf } := by
  unfold applyConf
  rw [rangeLoop_reloadKey_same he]
  simp only
  rw [rangeLoop_pruneKey_same he]

theorem CheckReload_of_fetch {m : LogTask} {l : Listing} {newConf : GoMap GoString}
    (hf : ReadConfigFromConsul m l = .ok (newConf, none)) :
    CheckReload m l = (applyConf m newConf).map fun m1 => (m1, none) := by
  unfold CheckReload
  rw [hf]
  simp only
  cases applyConf m newConf <;> rfl

theorem ReadConfigFromConsul_congr {m m1 : LogTask} (h : m1.Setting = m.Setting) (l : Listing) :
    ReadConfigFromConsul m1 l = ReadConfigFromConsul m l := by
  unfold ReadConfigFromConsul
  rw [h]

theorem CheckReload_ok_inv {m m1 : LogTask} {l : Listing}
    (h : CheckReload m l = .ok (m1, none)) :
    ∃ newConf, ReadConfigFromConsul m l = .ok (newConf, none) ∧ m1 = applyEff m newConf := by
  unfold CheckReload at h
  cases hf : ReadConfigFromConsul m l with
  | error p => rw [hf] at h; cases h
  | ok r =>
    obtain ⟨newConf, e⟩ := r
    rw [hf] at h
    cases e with
    | some e => cases h
    | none =>
      simp only at h
      cases ha : applyConf m newConf with
      | error p => rw [ha] at h; cases h
      | ok m2 =>
        rw [ha] at h
        cases h
        exact ⟨newConf, rfl, applyConf_ok_inv ha⟩

theorem CheckReload_inv {m : LogTask} (h : Inv m) (pairs : List KVPair) :
    ∃ m1, CheckReload m ⟨pairs, none⟩ = .ok (m1, none) ∧ Inv m1 ∧
      ReadConfigFromConsul m ⟨pairs, none⟩ = .ok (m1.CurrentConfig, none) :=
  ⟨_, CheckReload_ok h pairs, inv_applyEff h (nodup_snapshot m pairs),
    ReadConfigFromConsul_ok m pairs⟩

theorem tickLoop_inv (ps : List (List KVPair)) {m : LogTask} (h : Inv m) :
    ∃ m1, tickLoop (ps.map fun p => ⟨p, none⟩) m = .ok m1 ∧ Inv m1 := by
  induction ps generalizing m with
  | nil => exact ⟨m, rfl, h⟩
  | cons p ps ih =>
    obtain ⟨m1, h1, h2, _⟩ := CheckReload_inv h p
    obtain ⟨m2, h3, h4⟩ := ih h2
    exact ⟨m2, by simp only [List.map_cons, tickLoop, h1, h3], h4⟩

theorem filter_filter_of_imp {α : Type} (p q : α → Bool) (l : List α)
    (h : ∀ a, q a = true → p a = true) : l.filter q = (l.filter p).filter q := by
  rw [List.filter_filter]
  apply List.filter_congr
  intro a _
  cases hq : q a with
  | false => rfl
  | true => rw [h a hq]; rfl

theorem filter_isCloseOrMake_starts (cOld cNew : Chan) (k : GoString) (c : Chan) (v : GoString) :
    (starts k c v).filter (isCloseOrMake cOld cNew) = [] := by
  rw [List.filter_eq_nil_iff]
  intro e he
  simp only [starts, List.mem_flatMap, List.mem_cons, List.mem_singleton, List.not_mem_nil,
    or_false] at he
  obtain ⟨f, _, rfl | rfl⟩ := he <;> simp [isCloseOrMake]

theorem filter_isStart_starts (k : GoString) (c : Chan) (v : GoString) :
    (starts k c v).filter (isStart k c) = starts k c v := by
  rw [List.filter_eq_self]
  intro e he
  simp only [starts, List.mem_flatMap, List.mem_cons, List.mem_singleton, List.not_mem_nil,
    or_false] at he
  obtain ⟨f, _, rfl | rfl⟩ := he <;> simp [isStart]

theorem Split_of_not_mem {s : GoString} {sep : Char} (h : sep ∉ s) : Split s sep = [s] := by
  induction s with
  | nil => rfl
  | cons c rest ih =>
    have hc : c ≠ sep := fun hh => h (hh ▸ List.mem_cons_self _ _)
    have hr : sep ∉ rest := fun hh => h (List.mem_cons_of_mem _ hh)
    simp only [Split, if_neg hc, ih hr]

theorem Split_append_sep {a : GoString} {sep : Char} (b : GoString) (h : sep ∉ a) :
    Split (a ++ sep :: b) sep = a :: Split b sep := by
  induction a with
  | nil => simp [Split]
  | cons c rest ih =>
    have hc : c ≠ sep := fun hh => h (hh ▸ List.mem_cons_self _ _)
    have hr : sep ∉ rest := fun hh => h (List.mem_cons_of_mem _ hh)
    have e : Split (rest.append (sep :: b)) sep = rest :: Split b sep := ih hr
    simp only [List.cons_append, Split, if_neg hc, e]

theorem starts_eq (k : GoString) (c : Chan) (v : GoString) :
    starts k c v = (filesOf v).flatMap fun fileName =>
      [Event.goWriteLoop c, Event.goReadLog fileName k c (batchFor v)] := rfl

theorem filesOf_colon {paths : GoString} (s : GoString) (h : ':' ∉ paths) :
    filesOf (paths ++ ':' :: s) = Split paths ',' := by
  simp only [filesOf, Split_append_sep s h, List.headD_cons]

theorem filesOf_plain {v : GoString} (h : ':' ∉ v) : filesOf v = Split v ',' := by
  simp only [filesOf, Split_of_not_mem h, List.headD_cons]

theorem batchFor_plain {v : GoString} (h : ':' ∉ v) : batchFor v = 20 := by
  simp only [batchFor, Split_of_not_mem h, batchOf]

theorem foldl_dec (ds : GoString) (a : Nat) :
    ds.foldl (fun a c => 10 * a + (c.toNat - '0'.toNat)) a = a * 10 ^ ds.length + decValue ds := by
  induction ds generalizing a with
  | nil => simp [decValue]
  | cons c ds ih =>
    simp only [List.foldl_cons, decValue, List.length_cons]
    rw [ih, ih (10 * 0 + (c.toNat - '0'.toNat))]
    ring

theorem decValue_cons (c : Char) (ds : GoString) :
    decValue (c :: ds) = (c.toNat - '0'.toNat) * 10 ^ ds.length + decValue ds := by
  have := foldl_dec ds (10 * 0 + (c.toNat - '0'.toNat))
  simp only [decValue, List.foldl_cons] at this ⊢
  rw [this]
  ring

theorem digitChar_spec {d : Nat} (h : d < 10) :
    isDecDigit (Nat.digitChar d) = true ∧ (Nat.digitChar d).toNat - '0'.toNat = d := by
  interval_cases d <;> exact ⟨rfl, rfl⟩

theorem toDigitsCore_spec (fuel : Nat) : ∀ (n : Nat) (ds : GoString), n < fuel →
    (∀ c ∈ ds, isDecDigit c = true) →
    (∀ c ∈ Nat.toDigitsCore 10 fuel n ds, isDecDigit c = true) ∧
    Nat.toDigitsCore 10 fuel n ds ≠ [] ∧
    decValue (Nat.toDigitsCore 10 fuel n ds) = n * 10 ^ ds.length + decValue ds := by
  induction fuel with
  | zero => intro n ds h; exact absurd h (Nat.not_lt_zero _)
  | succ fuel ih =>
    intro n ds hn hds
    have hd := digitChar_spec (Nat.mod_lt n (by decide : 0 < 10))
    have hds' : ∀ c ∈ Nat.digitChar (n % 10) :: ds, isDecDigit c = true := by
      intro c hc
      rcases List.mem_cons.1 hc with rfl | hc
      · exact hd.1
      · exact hds c hc
    unfold Nat.toDigitsCore
    by_cases h0 : n / 10 = 0
    · simp only [h0, if_true]
      refine ⟨hds', by simp, ?_⟩
      rw [decValue_cons, hd.2]
      have : n % 10 = n := Nat.mod_eq_of_lt (by omega)
      rw [this]
    · simp only [h0, if_false]
      obtain ⟨i1, i2, i3⟩ := ih (n / 10) (Nat.digitChar (n % 10) :: ds) (by omega) hds'
      refine ⟨i1, i2, ?_⟩
      rw [i3, decValue_cons, hd.2, List.length_cons, pow_succ]
      conv_rhs => rw [← Nat.div_add_mod n 10]
      ring

/-- The decimal numeral of `N` consists of digits only and denotes `N`. -/
theorem toDigits_spec (N : Nat) :
    (∀ c ∈ Nat.toDigits 10 N, isDecDigit c = true) ∧ Nat.toDigits 10 N ≠ [] ∧
    decValue (Nat.toDigits 10 N) = N := by
  have h := toDigitsCore_spec (N + 1) N [] (Nat.lt_succ_self _) (by intro c hc; cases hc)
  simpa [Nat.toDigits, decValue] using h

theorem head_ne_sign {s : GoString} (h : ∀ c ∈ s, isDecDigit c = true) :
    ¬ (s.head? = some '+' ∨ s.head? = some '-') := by
  cases s with
  | nil => simp
  | cons c rest =>
    have hc := h c (List.mem_cons_self _ _)
    simp only [List.head?_cons, Option.some.injEq]
    rintro (rfl | rfl) <;> exact absurd hc (by decide)

theorem not_mem_colon_of_digits {s : GoString} (h : ∀ c ∈ s, isDecDigit c = true) :
    ':' ∉ s := fun hh => absurd (h _ hh) (by decide)

theorem Atoi_digits {s : GoString} (h : ∀ c ∈ s, isDecDigit c = true) (hne : s ≠ []) :
    Atoi s = if decValue s ≥ 2 ^ (intSize - 1) then none else some (decValue s : Int) := by
  have h1 := head_ne_sign h
  have h2 : ¬ s.head? = some '-' := fun hh => h1 (Or.inr hh)
  have h3 : s.all isDecDigit = true := List.all_eq_true.2 h
  simp only [Atoi, if_neg h1, if_neg hne, h3, decide_eq_false h2, Bool.not_true]
  rfl

/-- `Atoi` reads the decimal numeral of `N` as `N` when `N` fits `int`, and fails
otherwise. -/
theorem Atoi_toDigits (N : Nat) :
    Atoi (Nat.toDigits 10 N) = if N ≥ 2 ^ (intSize - 1) then none else some (N : Int) := by
  obtain ⟨h1, h2, h3⟩ := toDigits_spec N
  rw [Atoi_digits h1 h2, h3]

theorem Atoi_not_numeral {s : GoString} (h : isNumeral s = false) : Atoi s = none := by
  unfold isNumeral at h
  unfold Atoi
  simp only
  generalize (if s.head? = some '+' ∨ s.head? = some '-' then s.tail else s) = ds at h ⊢
  cases ds with
  | nil => simp
  | cons c r =>
    simp only [List.isEmpty_cons, Bool.not_false, Bool.true_and] at h
    simp [h]

/-- `Atoi` on an optionally signed run of digits: the integer it denotes when that fits
`int`, a failure otherwise. -/
theorem Atoi_numeral {s : GoString} (h : isNumeral s = true) :
    Atoi s = if -(2 : Int) ^ 63 ≤ numValue s ∧ numValue s < 2 ^ 63 then some (numValue s)
      else none := by
  have hn : (2 : Nat) ^ (intSize - 1) = 9223372036854775808 := by norm_num [intSize]
  have hz : (2 : Int) ^ 63 = 9223372036854775808 := by norm_num
  unfold isNumeral at h
  unfold Atoi numValue
  simp only [hn, hz]
  by_cases hm : s.head? = some '-'
  · have hp : ¬ s.head? = some '+' := by rw [hm]; decide
    simp only [hm, or_true, if_true, decide_True, Bool.and_eq_true, Bool.not_eq_true',
      List.isEmpty_eq_false] at h ⊢
    have h1 : ¬ s.tail = [] := by
      intro hh
      rw [hh] at h
      exact absurd h.1 (by simp)
    simp only [if_neg h1, h.2, Bool.not_true]
    generalize decValue s.tail = d
    split_ifs <;> first | rfl | contradiction | (exfalso; omega)
  · by_cases hp : s.head? = some '+'
    · simp only [hp, true_or, if_true, Bool.and_eq_true, Bool.not_eq_true',
        List.isEmpty_eq_false] at h ⊢
      have h1 : ¬ s.tail = [] := by
        intro hh
        rw [hh] at h
        exact absurd h.1 (by simp)
      have hd : decide ((some '+' : Option Char) = some '-') = false := by decide
      have hd2 : ¬ (some '+' : Option Char) = some '-' := by decide
      simp only [if_neg h1, h.2, Bool.not_true, hd, if_neg hd2]
      generalize decValue s.tail = d
      split_ifs <;> first | rfl | contradiction | (exfalso; omega)
    · have hor : ¬ (s.head? = some '+' ∨ s.head? = some '-') := by
        rintro (h | h)
        · exact hp h
        · exact hm h
      simp only [if_neg hor, if_neg hm, if_neg hp, Bool.and_eq_true, Bool.not_eq_true',
        List.isEmpty_eq_false, decide_eq_false hm] at h ⊢
      have h1 : ¬ s = [] := by
        intro hh
        rw [hh] at h
        exact absurd h.1 (by simp)
      simp only [if_neg h1, h.2, Bool.not_true]
      generalize decValue s = d
      split_ifs <;> first | rfl | contradiction | (exfalso; omega)

/-- Lines 100-108 on the second item `s`: the batch is the integer `s` denotes when `s`
is a numeral of a positive integer that fits `int`, and the default otherwise. -/
theorem batchOf_rule (p s : GoString) (tl : List GoString) :
    batchOf (p :: s :: tl) =
      if isNumeral s = true ∧ 0 < numValue s ∧ numValue s < 2 ^ 63 then numValue s else 20 := by
  have hz : (2 : Int) ^ 63 = 9223372036854775808 := by norm_num
  by_cases hnum : isNumeral s = true
  · simp only [batchOf, Atoi_numeral hnum, hnum, true_and, hz]
    by_cases hr : -(9223372036854775808 : Int) ≤ numValue s ∧ numValue s < 9223372036854775808
    · simp only [if_pos hr]
      by_cases h0 : 0 < numValue s
      · rw [if_pos h0, if_pos ⟨h0, hr.2⟩]
      · rw [if_neg h0, if_neg (fun hh => h0 hh.1)]
    · simp only [if_neg hr]
      rw [if_neg]
      intro hh
      exact hr ⟨by omega, hh.2⟩
  · have hf : isNumeral s = false := by simpa using hnum
    simp only [batchOf, Atoi_not_numeral hf, hf]
    simp

theorem Split_first_two {paths s rest : GoString} (hp : ':' ∉ paths) (hs : ':' ∉ s)
    (hr : rest = [] ∨ ∃ r, rest = ':' :: r) :
    ∃ tl, Split (paths ++ ':' :: (s ++ rest)) ':' = paths :: s :: tl := by
  rw [Split_append_sep _ hp]
  rcases hr with rfl | ⟨r, rfl⟩
  · rw [List.append_nil, Split_of_not_mem hs]
    exact ⟨[], rfl⟩
  · rw [Split_append_sep _ hs]
    exact ⟨_, rfl⟩

theorem batchFor_rule {paths s rest : GoString} (hp : ':' ∉ paths) (hs : ':' ∉ s)
    (hr : rest = [] ∨ ∃ r, rest = ':' :: r) :
    batchFor (paths ++ ':' :: (s ++ rest)) =
      if isNumeral s = true ∧ 0 < numValue s ∧ numValue s < 2 ^ 63 then numValue s else 20 := by
  obtain ⟨tl, h⟩ := Split_first_two hp hs hr
  rw [batchFor, h, batchOf_rule]

theorem exists_first_sep {c : Char} {v : GoString} (h : c ∈ v) :
    ∃ a b, v = a ++ c :: b ∧ c ∉ a := by
  induction v with
  | nil => cases h
  | cons d v ih =>
    by_cases hd : d = c
    · exact ⟨[], v, by rw [hd]; rfl, by simp⟩
    · rcases List.mem_cons.1 h with h1 | h1
      · exact absurd h1.symm hd
      · obtain ⟨a, b, e, ha⟩ := ih h1
        refine ⟨d :: a, b, by rw [e]; rfl, ?_⟩
        intro hh
        rcases List.mem_cons.1 hh with h2 | h2
        · exact hd h2.symm
        · exact ha h2

/-- Every value with a `:` is `paths`, a `:`, the text `s` up to the next `:` or the
end, and the rest. -/
theorem exists_items {v : GoString} (h : ':' ∈ v) :
    ∃ paths s rest, v = paths ++ ':' :: (s ++ rest) ∧ ':' ∉ paths ∧ ':' ∉ s ∧
      (rest = [] ∨ ∃ r, rest = ':' :: r) := by
  obtain ⟨a, b, e, ha⟩ := exists_first_sep h
  by_cases hb : ':' ∈ b
  · obtain ⟨s, r, e2, hs⟩ := exists_first_sep hb
    exact ⟨a, s, ':' :: r, by rw [e, e2], ha, hs, Or.inr ⟨r, rfl⟩⟩
  · exact ⟨a, b, [], by rw [e, List.append_nil], ha, hb, Or.inl rfl⟩

theorem numeral_toDigits (N : Nat) :
    isNumeral (Nat.toDigits 10 N) = true ∧ numValue (Nat.toDigits 10 N) = N := by
  obtain ⟨h1, h2, h3⟩ := toDigits_spec N
  have hs := head_ne_sign h1
  have hm : ¬ (Nat.toDigits 10 N).head? = some '-' := fun h => hs (Or.inr h)
  have hp : ¬ (Nat.toDigits 10 N).head? = some '+' := fun h => hs (Or.inl h)
  constructor
  · unfold isNumeral
    simp only [if_neg hs, Bool.and_eq_true, Bool.not_eq_true', List.isEmpty_eq_false]
    exact ⟨by simpa using h2, List.all_eq_true.2 h1⟩
  · rw [numValue, if_neg hm, if_neg hp, h3]

theorem numeral_signed_toDigits (N : Nat) :
    (isNumeral ('+' :: Nat.toDigits 10 N) = true ∧ numValue ('+' :: Nat.toDigits 10 N) = N) ∧
    (isNumeral ('-' :: Nat.toDigits 10 N) = true ∧
      numValue ('-' :: Nat.toDigits 10 N) = -(N : Int)) := by
  obtain ⟨h1, h2, h3⟩ := toDigits_spec N
  have ha : (Nat.toDigits 10 N).all isDecDigit = true := List.all_eq_true.2 h1
  have he : (Nat.toDigits 10 N).isEmpty = false := by simpa using h2
  refine ⟨⟨?_, ?_⟩, ?_, ?_⟩
  · simp [isNumeral, ha, he]
  · simp [numValue, h3]
  · simp [isNumeral, ha, he]
  · simp [numValue, h3]

theorem isStart_starts_other {k k0 : GoString} {c c0 : Chan} (v : GoString)
    (hk : k0 ≠ k) (hc : c0 ≠ c) : ∀ e ∈ starts k0 c0 v, isStart k c e = false := by
  intro e he
  simp only [starts, List.mem_flatMap, List.mem_cons, List.mem_singleton, List.not_mem_nil,
    or_false] at he
  obtain ⟨f, _, rfl | rfl⟩ := he <;> simp [isStart, hk, hc]

theorem own_keyEvents_isStart (newConf : GoMap GoString) (m : LogTask) {k : GoString}
    (h1 : strAt m.CurrentConfig k ≠ strAt newConf k) (h3 : strAt newConf k ≠ []) :
    (keyEvents newConf m k).filter (isStart k (m.nchans + 1))
      = starts k (m.nchans + 1) (strAt newConf k) := by
  unfold keyEvents
  rw [if_neg h1, if_neg h3, List.filter_append, List.filter_cons]
  have e1 : isStart k (m.nchans + 1) (Event.make (m.nchans + 1)) = false := rfl
  have e2 : (if strAt m.CurrentConfig k = [] then []
      else [Event.close (chanAt m.LogStat k)]).filter (isStart k (m.nchans + 1)) = [] := by
    split_ifs <;> rfl
  rw [e1, e2, filter_isStart_starts]
  rfl

theorem foreign_keyEvents_isStart (newConf : GoMap GoString) (m : LogTask) {k k0 : GoString}
    {c : Chan} (hk : k0 ≠ k)
    (hc : strAt m.CurrentConfig k0 ≠ strAt newConf k0 → strAt newConf k0 ≠ [] →
      m.nchans + 1 ≠ c) :
    (keyEvents newConf m k0).filter (isStart k c) = [] := by
  rw [List.filter_eq_nil_iff]
  intro e he
  unfold keyEvents at he
  by_cases h1 : strAt m.CurrentConfig k0 = strAt newConf k0
  · rw [if_pos h1] at he; cases he
  · rw [if_neg h1] at he
    rcases List.mem_append.1 he with he | he
    · by_cases h2 : strAt m.CurrentConfig k0 = []
      · rw [if_pos h2] at he; cases he
      · rw [if_neg h2, List.mem_singleton] at he
        subst he
        simp [isStart]
    · by_cases h3 : strAt newConf k0 = []
      · rw [if_pos h3] at he; cases he
      · rw [if_neg h3] at he
        rcases List.mem_cons.1 he with rfl | he
        · simp [isStart]
        · rw [isStart_starts_other _ hk (hc h1 h3) e he]
          simp

theorem foreign_loop1Events_isStart (newConf : GoMap GoString) {k : GoString} {c : Chan}
    (ks : List GoString) (m : LogTask) (hk : k ∉ ks) (hc : c ≤ m.nchans) :
    (loop1Events newConf ks m).filter (isStart k c) = [] := by
  induction ks generalizing m with
  | nil => rfl
  | cons k0 ks ih =>
    have hk0 : k0 ≠ k := fun hh => hk (hh ▸ List.mem_cons_self _ _)
    rw [loop1Events, List.filter_append,
      foreign_keyEvents_isStart newConf m hk0
        (fun _ _ hh => absurd (hh.symm ▸ hc : m.nchans + 1 ≤ m.nchans) (Nat.not_succ_le_self _)),
      List.nil_append]
    exact ih _ (fun hh => hk (List.mem_cons_of_mem _ hh))
      (le_trans hc (reloadKeyEff_nchans _ _ _))

/-- In the events of the first loop, the goroutine starts for a key with a new
non-empty value, or on its new signal, are those of its own pass. -/
theorem isStart_loop1Events (newConf : GoMap GoString) {k : GoString}
    (ks : List GoString) (m : LogTask) (hn : ks.Nodup) (hk : k ∈ ks)
    (h1 : strAt m.CurrentConfig k ≠ strAt newConf k) (h3 : strAt newConf k ≠ []) :
    ∃ c, m.nchans < c ∧ mapGet? (loop1 newConf ks m).LogStat k = some c ∧
      (loop1Events newConf ks m).filter (isStart k c) = starts k c (strAt newConf k) := by
  induction ks generalizing m with
  | nil => cases hk
  | cons k0 ks ih =>
    rw [List.nodup_cons] at hn
    by_cases hkk : k = k0
    · subst hkk
      refine ⟨m.nchans + 1, Nat.lt_succ_self _, ?_, ?_⟩
      · rw [loop1_cons, loop1_LogStat_of_not_mem _ _ _ hn.1, reloadKeyEff_LogStat_self,
          if_neg h1, if_neg h3]
      · rw [loop1Events, List.filter_append, own_keyEvents_isStart newConf m h1 h3,
          foreign_loop1Events_isStart newConf ks _ hn.1
            (le_of_eq (reloadKeyEff_nchans_start newConf m k h1 h3).symm), List.append_nil]
    · have hmem : k ∈ ks := by
        rcases List.mem_cons.1 hk with h | h
        · exact absurd h hkk
        · exact h
      have hcur : strAt (reloadKeyEff newConf m k0).CurrentConfig k = strAt m.CurrentConfig k :=
        strAt_eq_of_get (reloadKeyEff_Cur_ne newConf m hkk)
      obtain ⟨c, c1, c3, c4⟩ := ih (reloadKeyEff newConf m k0) hn.2 hmem
        (by rw [hcur]; exact h1)
      refine ⟨c, lt_of_le_of_lt (reloadKeyEff_nchans _ _ _) c1, c3, ?_⟩
      rw [loop1Events, List.filter_append, c4,
        foreign_keyEvents_isStart newConf m (Ne.symm hkk), List.nil_append]
      intro e1 e3 hh
      rw [reloadKeyEff_nchans_start newConf m k0 e1 e3, hh] at c1
      exact absurd c1 (lt_irrefl _)

theorem loop2_trace_closes (newConf : GoMap GoString) (ks : List GoString) (m : LogTask) :
    ∃ xs : List Chan, (loop2 newConf ks m).trace = m.trace ++ xs.map Event.close := by
  induction ks generalizing m with
  | nil => exact ⟨[], by simp [loop2]⟩
  | cons k0 ks ih =>
    obtain ⟨xs, hx⟩ := ih (pruneKeyEff newConf m k0)
    rw [loop2_cons, hx, (pruneKeyEff_closed newConf m k0).2, List.append_assoc,
      ← List.map_append]
    exact ⟨_, rfl⟩

/-- Among the events of a reconciliation that did not panic, the goroutine starts
for a key whose value changed to a non-empty one, or on its new signal, are one
`WriteLoop` and one `ReadLog` per file name, on the signal registered for the key. -/
theorem isStart_applyEff (m : LogTask) {newConf : GoMap GoString}
    (hn : (mapKeys newConf).Nodup) {k : GoString}
    (h1 : strAt m.CurrentConfig k ≠ strAt newConf k) (h3 : strAt newConf k ≠ []) :
    ∃ T, (applyEff m newConf).trace = m.trace ++ T ∧
    ∃ c, m.nchans < c ∧ mapGet? (applyEff m newConf).LogStat k = some c ∧
      T.filter (isStart k c) = starts k c (strAt newConf k) := by
  have hk : k ∈ mapKeys newConf := strAt_ne_nil_mem h3
  obtain ⟨c, c1, c3, c4⟩ := isStart_loop1Events newConf (mapKeys newConf) m hn hk h1 h3
  obtain ⟨xs, hx⟩ := loop2_trace_closes newConf
    (mapKeys (loop1 newConf (mapKeys newConf) m).CurrentConfig) (loop1 newConf (mapKeys newConf) m)
  refine ⟨loop1Events newConf (mapKeys newConf) m ++ xs.map Event.close, ?_, c, c1, ?_, ?_⟩
  · show (loop2 newConf _ (loop1 newConf (mapKeys newConf) m)).trace = _
    rw [hx, loop1_trace, List.append_assoc]
  · rw [applyEff_LogStat_of_mem m hn hk]; exact c3
  · rw [List.filter_append, c4]
    have : (xs.map Event.close).filter (isStart k c) = [] := by
      rw [List.filter_eq_nil_iff]
      intro e he
      obtain ⟨x, _, rfl⟩ := List.mem_map.1 he
      simp [isStart]
    rw [this, List.append_nil]

theorem nodup_of_fetch {m : LogTask} {l : Listing} {newConf : GoMap GoString}
    (h : ReadConfigFromConsul m l = .ok (newConf, none)) : (mapKeys newConf).Nodup := by
  obtain ⟨pairs, err⟩ := l
  cases err with
  | some e => rw [ReadConfigFromConsul_err] at h; cases h
  | none =>
    rw [ReadConfigFromConsul_ok] at h
    cases h
    exact nodup_snapshot m pairs

/-- The value under `name` after the loop of `ReadConfigFromConsul`, for any listing:
an entry counts when its key is longer than `size` and has `/` at index `size - 1`,
and its name is the key without its first `size` bytes. -/
theorem readPairsEff_get (size : Nat) (pairs : List KVPair) (acc : GoMap GoString)
    (name : GoString) :
    mapGet? (readPairsEff size pairs acc) name =
      match lastValue (pairs.filterMap fun e =>
          if e.Key.length > size ∧ e.Key[size - 1]? = some '/' then
            some ⟨e.Key.drop size, e.Value⟩
          else none) name with
      | some v => some v
      | none => mapGet? acc name := by
  induction pairs generalizing acc with
  | nil => rfl
  | cons e rest ih =>
    simp only [readPairsEff, List.foldl_cons] at ih ⊢
    rw [ih]
    by_cases hq : e.Key.length > size ∧ e.Key[size - 1]? = some '/'
    · simp only [List.filterMap_cons, if_pos hq, lastValue]
      cases lastValue (rest.filterMap fun e =>
          if e.Key.length > size ∧ e.Key[size - 1]? = some '/' then
            some ⟨e.Key.drop size, e.Value⟩
          else none) name with
      | some v => rfl
      | none =>
        by_cases hk : e.Key.drop size = name
        · simp only [hk, if_true, mapGet?_mapSet_self]
        · simp only [if_neg hk, mapGet?_mapSet_ne _ _ (Ne.symm hk)]
    · simp only [List.filterMap_cons, if_neg hq]

theorem lastValue_filterMap (p : GoString) (pairs : List KVPair)
    (hp : ∀ e ∈ pairs, p <+: e.Key) (name : GoString) :
    lastValue (pairs.filterMap fun e =>
        if e.Key.length > p.length + 1 ∧ e.Key[p.length + 1 - 1]? = some '/' then
          some ⟨e.Key.drop (p.length + 1), e.Value⟩
        else none) name =
      if name = [] then none else lastValue pairs (p ++ '/' :: name) := by
  induction pairs with
  | nil => simp [lastValue]
  | cons e rest ih =>
    have ih' := ih (fun e he => hp e (List.mem_cons_of_mem _ he))
    obtain ⟨r, hr⟩ := hp e (List.mem_cons_self _ _)
    have hiff : (e.Key.length > p.length + 1 ∧ e.Key[p.length + 1 - 1]? = some '/') ↔
        ∃ n, n ≠ [] ∧ r = '/' :: n := by
      rw [← hr]
      simp only [List.length_append, Nat.add_sub_cancel]
      rw [List.getElem?_append_right (le_refl _)]
      simp only [Nat.sub_self]
      constructor
      · rintro ⟨h1, h2⟩
        cases r with
        | nil => simp at h2
        | cons c n =>
          simp only [List.getElem?_cons_zero, Option.some.injEq] at h2
          subst h2
          refine ⟨n, ?_, rfl⟩
          rintro rfl
          simp at h1
      · rintro ⟨n, hn, rfl⟩
        refine ⟨?_, List.getElem?_cons_zero⟩
        cases n with
        | nil => exact absurd rfl hn
        | cons c n => simp
    by_cases hq : e.Key.length > p.length + 1 ∧ e.Key[p.length + 1 - 1]? = some '/'
    · obtain ⟨n, hn, rfl⟩ := hiff.1 hq
      have hdrop : e.Key.drop (p.length + 1) = n := by
        rw [← hr]
        simp
      simp only [List.filterMap_cons, if_pos hq, lastValue, ih', hdrop]
      by_cases hname : name = []
      · subst hname
        simp [hn]
      · simp only [if_neg hname]
        cases lastValue rest (p ++ '/' :: name) with
        | some v => rfl
        | none =>
          simp only [← hr]
          by_cases hnn : n = name
          · subst hnn; simp
          · have : ¬ (p ++ '/' :: n = p ++ '/' :: name) := by
              intro hh
              exact hnn (by simpa using hh)
            simp [hnn, this]
    · simp only [List.filterMap_cons, if_neg hq, lastValue, ih']
      by_cases hname : name = []
      · simp [hname]
      · simp only [if_neg hname]
        cases lastValue rest (p ++ '/' :: name) with
        | some v => rfl
        | none =>
          have : e.Key ≠ p ++ '/' :: name := by
            intro hh
            apply hq
            apply hiff.2
            refine ⟨name, hname, ?_⟩
            rw [← hr] at hh
            exact List.append_cancel_left hh
          simp [this]

theorem eq_nil_of_get_none {V : Type} {a : GoMap V} (h : ∀ k, mapGet? a k = none) : a = [] := by
  cases a with
  | nil => rfl
  | cons e rest =>
    obtain ⟨k, v⟩ := e
    have := h k
    simp [mapGet?] at this

theorem lastValue_eq_none {pairs : List KVPair} {key : GoString}
    (h : ∀ e ∈ pairs, e.Key ≠ key) : lastValue pairs key = none := by
  induction pairs with
  | nil => rfl
  | cons e rest ih =>
    simp only [lastValue, ih (fun e he => h e (List.mem_cons_of_mem _ he)),
      if_neg (h e (List.mem_cons_self _ _))]

theorem lastValue_of_mem {pairs : List KVPair} (hn : (pairs.map KVPair.Key).Nodup)
    {e : KVPair} (he : e ∈ pairs) : lastValue pairs e.Key = some e.Value := by
  induction pairs with
  | nil => cases he
  | cons e0 rest ih =>
    simp only [List.map_cons, List.nodup_cons] at hn
    rcases List.mem_cons.1 he with rfl | he
    · have : lastValue rest e.Key = none :=
        lastValue_eq_none (fun e' he' hh => hn.1 (hh ▸ List.mem_map_of_mem KVPair.Key he'))
      simp [lastValue, this]
    · simp [lastValue, ih hn.2 he]

/-- C7. Key extraction in `ReadConfigFromConsul`: for the prefix `p = Setting["cluster"]`
and every listing returned without error, whose keys, as `kv.List(p)` returns them,
all start with `p`, the call returns nil and a snapshot in which a name is bound
exactly when it is non-empty and the listing has an entry with key `p + "/" + name`,
and is then bound to the value of that entry (the last such entry, when several have
that key; the value of any listed entry when the listed keys are pairwise distinct);
entries of another shape contribute nothing, so a listing without an entry of that
shape gives the empty snapshot. On no listing at all does the call index a key out
of range. -/
theorem ReadConfigFromConsul_names (m : LogTask) (pairs : List KVPair)
    (hp : ∀ e ∈ pairs, strAt m.Setting "cluster".toList <+: e.Key) :
    (∃ snap, ReadConfigFromConsul m ⟨pairs, none⟩ = .ok (snap, none) ∧
      (∀ name, mapGet? snap name =
        if name = [] then none
        else lastValue pairs (strAt m.Setting "cluster".toList ++ '/' :: name)) ∧
      ((pairs.map KVPair.Key).Nodup → ∀ e ∈ pairs, ∀ name, name ≠ [] →
        e.Key = strAt m.Setting "cluster".toList ++ '/' :: name →
        mapGet? snap name = some e.Value) ∧
      ((∀ e ∈ pairs, ∀ name, name ≠ [] →
          e.Key ≠ strAt m.Setting "cluster".toList ++ '/' :: name) → snap = [])) ∧
    ∀ l : Listing, ∃ r, ReadConfigFromConsul m l = .ok r := by
  have hget : ∀ name, mapGet? (snapshot m pairs) name =
      if name = [] then none
      else lastValue pairs (strAt m.Setting "cluster".toList ++ '/' :: name) := by
    intro name
    rw [snapshot, readPairsEff_get, lastValue_filterMap _ pairs hp name]
    split <;> simp_all [mapGet?]
  refine ⟨⟨snapshot m pairs, ReadConfigFromConsul_ok m pairs, hget, ?_, ?_⟩, ?_⟩
  · intro hn e he name hname hk
    rw [hget, if_neg hname, ← hk]
    exact lastValue_of_mem hn he
  · intro h
    apply eq_nil_of_get_none
    intro name
    rw [hget]
    by_cases hname : name = []
    · rw [if_pos hname]
    · rw [if_neg hname]
      exact lastValue_eq_none (fun e he => h e he name hname)
  · rintro ⟨ps, err⟩
    cases err with
    | some e => exact ⟨_, ReadConfigFromConsul_err m ps e⟩
    | none => exact ⟨_, ReadConfigFromConsul_ok m ps⟩

theorem ReadConfigFromConsul_names_witness :
    (∀ e ∈ [(⟨"c/A".toList, "f:10".toList⟩ : KVPair), ⟨"c".toList, "x".toList⟩,
        ⟨"c/".toList, "y".toList⟩, ⟨"cd/B".toList, "z".toList⟩],
      strAt (newLogTask [("cluster".toList, "c".toList)]).Setting "cluster".toList <+: e.Key) ∧
    ReadConfigFromConsul (newLogTask [("cluster".toList, "c".toList)])
      ⟨[⟨"c/A".toList, "f:10".toList⟩, ⟨"c".toList, "x".toList⟩,
        ⟨"c/".toList, "y".toList⟩, ⟨"cd/B".toList, "z".toList⟩], none⟩
      = .ok ([("A".toList, "f:10".toList)], none) ∧
    ∀ l : Listing, ∃ r,
      ReadConfigFromConsul (newLogTask [("cluster".toList, "c".toList)]) l = .ok r :=
  ⟨by decide, rfl,
    (ReadConfigFromConsul_names (newLogTask [("cluster".toList, "c".toList)])
      [⟨"c/A".toList, "f:10".toList⟩, ⟨"c".toList, "x".toList⟩,
        ⟨"c/".toList, "y".toList⟩, ⟨"cd/B".toList, "z".toList⟩] (by decide)).2⟩

theorem awaitResult_success (msg : message) (errs : List GoError)
    (rest : List (Option GoError)) (tr : List ReaderEvent) :
    awaitResult msg (errs.map some ++ none :: rest) tr
      = (tr ++ retries msg errs.length, some rest) := by
  induction errs generalizing tr with
  | nil => simp [awaitResult, retries]
  | cons e errs ih =>
    show awaitResult msg (List.map some errs ++ none :: rest)
      (tr ++ [ReaderEvent.sleep, ReaderEvent.resend msg]) = _
    rw [ih]
    simp only [List.length_cons, retries, List.append_assoc, List.cons_append, List.nil_append]

theorem awaitResult_failures (msg : message) (errs : List GoError) (tr : List ReaderEvent) :
    awaitResult msg (errs.map some) tr = (tr ++ retries msg errs.length, none) := by
  induction errs generalizing tr with
  | nil => simp [awaitResult, retries]
  | cons e errs ih =>
    show awaitResult msg (List.map some errs)
      (tr ++ [ReaderEvent.sleep, ReaderEvent.resend msg]) = _
    rw [ih]
    simp only [List.length_cons, retries, List.append_assoc, List.cons_append, List.nil_append]

theorem sends_append (a b : List ReaderEvent) : sends (a ++ b) = sends a ++ sends b := by
  induction a with
  | nil => rfl
  | cons e a ih => cases e <;> simp [sends, ih]

theorem sends_retries (msg : message) (n : Nat) :
    sends (retries msg n) = List.replicate n msg := by
  induction n with
  | zero => rfl
  | succ n ih => simp [retries, sends, ih, List.replicate_succ]

/-- C5. Retry to success in the submit loop of `ReadLog`: when the outcomes that
arrive on the reply channel of a message are `N` errors followed by nil, the reader
puts the very same message on the work channel exactly `N + 1` times, once at first
and once after each error, sleeping before each resubmission, and only then clears
the buffer and goes on with the main loop; when the outcomes are errors only, however
many, it has resubmitted after each of them, still waits, and the buffer still holds
the payload. -/
theorem ReadLog_retry_to_success (topic line : GoString) (r : Reader)
    (errs : List GoError) (rest : List (Option GoError)) :
    emit topic line { r with acks := errs.map some ++ none :: rest }
      = .next { r with
          body := [], retryCount := 0, made := r.made + 1, acks := rest,
          trace := r.trace ++
            ReaderEvent.send ⟨topic, if line ≠ [] then r.body ++ [line] else r.body, r.made + 1⟩
              :: retries ⟨topic, if line ≠ [] then r.body ++ [line] else r.body, r.made + 1⟩
                  errs.length } ∧
    sends (ReaderEvent.send ⟨topic, if line ≠ [] then r.body ++ [line] else r.body, r.made + 1⟩
        :: retries ⟨topic, if line ≠ [] then r.body ++ [line] else r.body, r.made + 1⟩
            errs.length)
      = List.replicate (errs.length + 1)
          ⟨topic, if line ≠ [] then r.body ++ [line] else r.body, r.made + 1⟩ ∧
    emit topic line { r with acks := errs.map some }
      = .done .running { r with
          body := if line ≠ [] then r.body ++ [line] else r.body,
          retryCount := 0, made := r.made + 1, acks := [],
          trace := r.trace ++
            ReaderEvent.send ⟨topic, if line ≠ [] then r.body ++ [line] else r.body, r.made + 1⟩
              :: retries ⟨topic, if line ≠ [] then r.body ++ [line] else r.body, r.made + 1⟩
                  errs.length } := by
  refine ⟨?_, ?_, ?_⟩
  · simp only [emit, awaitResult_success, List.append_assoc, List.singleton_append]
  · simp only [sends, sends_retries, List.replicate_succ]
  · simp only [emit, awaitResult_failures, List.append_assoc, List.singleton_append]

/-- C9 (amended). End-of-file repositioning: with the recorded offset `size0` and the
measured size `size1` of the reopened file, reading resumes at `size0` when
`size1 >= size0` and at `size1`, the end of the reopened file, when `size1 < size0`;
this is where the descriptor stands after every pass of the main loop whose retried
read ended in end-of-file. -/
theorem ReadLog_eof_position (size0 size1 : Int) :
    (reposition size0 { size := size1, pos := 0 } false).1.pos
      = (if size1 < size0 then size1 else size0) ∧
    (reposition size0 { size := size1, pos := 0 } false).2 = size1 ∧
    ∀ (topic : GoString) (r : Reader) (p1 p2 : GoString) (e1 : ReadErr)
      (rest : List ReadResult) (ps : List EofProbe),
      (iteration topic { r with
          reads := .fail p1 e1 :: .fail p2 .EOF :: rest,
          probes := ⟨some size0, some size1, false⟩ :: ps }).reader.fd
        = { size := size1, pos := if size1 < size0 then size1 else size0 } := by
  have h1 : reposition size0 { size := size1, pos := 0 } false
      = ({ size := size1, pos := if size1 < size0 then size1 else size0 }, size1) := by
    unfold reposition
    by_cases h : size1 < size0 <;> simp [File.Seek, h]
  refine ⟨by rw [h1], by rw [h1], ?_⟩
  intro topic r p1 p2 e1 rest ps
  simp only [iteration, readLine, h1]
  split_ifs <;> rfl

/-- C9 as stated fails when the file shrank: with the recorded offset 10 and the new
size 3, reading resumes at offset 3, not at the recorded offset. -/
theorem shrunk_file_resumes_at_end :
    (reposition 10 { size := 3, pos := 0 } false).1.pos = 3 ∧
    (ReadLog [] "f".toList "t".toList 20
      { opened := some 10, seekStartOk := true, seekEndOk := true, polls := [false],
        reads := [.fail [] .EOF, .fail [] .EOF],
        probes := [⟨some 10, some 3, false⟩], acks := [] }).2.fd.pos = 3 ∧
    (3 : Int) ≠ 10 := by
  refine ⟨by decide, by decide, by decide⟩

theorem readsOf_append (a b : List ReaderEvent) : readsOf (a ++ b) = readsOf a ++ readsOf b := by
  induction a with
  | nil => rfl
  | cons e a ih => cases e <;> simp [readsOf, ih]

theorem firstBodies_append (a b : List ReaderEvent) :
    firstBodies (a ++ b) = firstBodies a ++ firstBodies b := by
  induction a with
  | nil => rfl
  | cons e a ih => cases e <;> simp [firstBodies, ih]

theorem resendCount_append (a b : List ReaderEvent) :
    resendCount (a ++ b) = resendCount a + resendCount b := by
  induction a with
  | nil => simp [resendCount]
  | cons e a ih => cases e <;> simp [resendCount, ih]; omega

theorem errorCount_append (a b : List (Option GoError)) :
    errorCount (a ++ b) = errorCount a + errorCount b := by
  induction a with
  | nil => simp [errorCount]
  | cons e a ih => cases e <;> simp [errorCount, ih]; omega

theorem retries_facts (msg : message) (n : Nat) :
    readsOf (retries msg n) = [] ∧ firstBodies (retries msg n) = [] ∧
    resendCount (retries msg n) = n ∧
    (∀ e ∈ retries msg n, e = ReaderEvent.sleep ∨ e = ReaderEvent.resend msg) := by
  induction n with
  | zero => exact ⟨rfl, rfl, rfl, fun e he => by cases he⟩
  | succ n ih =>
    obtain ⟨h1, h2, h3, h4⟩ := ih
    refine ⟨by simp [retries, readsOf, h1], by simp [retries, firstBodies, h2],
      by simp [retries, resendCount, h3], ?_⟩
    intro e he
    simp only [retries, List.mem_cons] at he
    rcases he with rfl | rfl | he
    · exact Or.inl rfl
    · exact Or.inr rfl
    · exact h4 e he

/-- The wait for the outcome uses up a run of errors, then a nil if there is one. -/
theorem awaitResult_used (msg : message) (acks : List (Option GoError))
    (tr : List ReaderEvent) :
    ∃ n used, (awaitResult msg acks tr).1 = tr ++ retries msg n ∧ errorCount used = n ∧
      acks = used ++ ((awaitResult msg acks tr).2).getD [] := by
  induction acks generalizing tr with
  | nil => exact ⟨0, [], by simp [awaitResult, retries], rfl, by simp [awaitResult]⟩
  | cons a acks ih =>
    cases a with
    | none => exact ⟨0, [none], by simp [awaitResult, retries], rfl, by simp [awaitResult]⟩
    | some e =>
      obtain ⟨n, used, h1, h2, h3⟩ := ih (tr ++ [ReaderEvent.sleep, ReaderEvent.resend msg])
      refine ⟨n + 1, some e :: used, ?_, by simp [errorCount, h2], ?_⟩
      · simp only [awaitResult, h1, retries, List.append_assoc, List.cons_append,
          List.nil_append]
      · simp only [awaitResult, List.cons_append]
        rw [← h3]

/-- A reader stays tidy when it appends events that are tidy for the reads and the
outcomes it uses up. -/
theorem Tidy.extend {topic : GoString} {allReads : List ReadResult}
    {allAcks : List (Option GoError)} {r r' : Reader} (h : Tidy topic allReads allAcks r)
    (es : List ReaderEvent) (used : List (Option GoError))
    (ht : r'.trace = r.trace ++ es)
    (h1 : ∀ b n, ReaderEvent.loopHead b n ∈ es → b = [])
    (h2 : ∀ msg ∈ sends es, msg.topic = topic ∧ ∃ c, msg.body = [c ++ ['\n']])
    (h3 : ReaderEvent.eofElse ∉ es)
    (h4 : r.reads = readsOf es ++ r'.reads)
    (h5 : firstBodies es = (readsOf es).filterMap lineBody)
    (h6 : r.acks = used ++ r'.acks) (h7 : resendCount es = errorCount used) :
    Tidy topic allReads allAcks r' where
  heads := by
    intro b n hb
    rw [ht, List.mem_append] at hb
    rcases hb with hb | hb
    · exact h.heads b n hb
    · exact h1 b n hb
  msgs := by
    intro msg hm
    rw [ht, sends_append, List.mem_append] at hm
    rcases hm with hm | hm
    · exact h.msgs msg hm
    · exact h2 msg hm
  noElse := by
    rw [ht, List.mem_append]
    rintro (hh | hh)
    · exact h.noElse hh
    · exact h3 hh
  reads := by
    rw [ht, readsOf_append, List.append_assoc, ← h4]
    exact h.reads
  bodies := by
    rw [ht, firstBodies_append, readsOf_append, List.filterMap_append, h.bodies, h5]
  acks := by
    obtain ⟨u, hu1, hu2⟩ := h.acks
    refine ⟨u ++ used, ?_, ?_⟩
    · rw [List.append_assoc, ← h6]; exact hu1
    · rw [ht, resendCount_append, errorCount_append, hu2, h7]

theorem emit_tidy {topic : GoString} {allReads : List ReadResult}
    {allAcks : List (Option GoError)} {r0 r : Reader} (h : Tidy topic allReads allAcks r0)
    (c : GoString) (es : List ReaderEvent) (hb : r.body = [])
    (ht : r.trace = r0.trace ++ es) (ha : r.acks = r0.acks)
    (h1 : ∀ b n, ReaderEvent.loopHead b n ∈ es → b = [])
    (h2 : sends es = []) (h3 : ReaderEvent.eofElse ∉ es)
    (h4 : r0.reads = readsOf es ++ r.reads)
    (h5 : firstBodies es ++ [[c ++ ['\n']]] = (readsOf es).filterMap lineBody)
    (h7 : resendCount es = 0) :
    Tidy topic allReads allAcks (emit topic (c ++ ['\n']) r).reader ∧
    ∀ r', emit topic (c ++ ['\n']) r = .next r' → r'.body = [] := by
  have hne : c ++ ['\n'] ≠ [] := by simp
  obtain ⟨n, used, a1, a2, a3⟩ := awaitResult_used ⟨topic, [c ++ ['\n']], r.made + 1⟩ r.acks
    (r.trace ++ [ReaderEvent.send ⟨topic, [c ++ ['\n']], r.made + 1⟩])
  obtain ⟨f1, f2, f3, f4⟩ := retries_facts ⟨topic, [c ++ ['\n']], r.made + 1⟩ n
  have key : ∀ r' : Reader,
      r'.trace = (awaitResult ⟨topic, [c ++ ['\n']], r.made + 1⟩ r.acks
        (r.trace ++ [ReaderEvent.send ⟨topic, [c ++ ['\n']], r.made + 1⟩])).1 →
      r'.reads = r.reads →
      r'.acks = ((awaitResult ⟨topic, [c ++ ['\n']], r.made + 1⟩ r.acks
        (r.trace ++ [ReaderEvent.send ⟨topic, [c ++ ['\n']], r.made + 1⟩])).2).getD [] →
      Tidy topic allReads allAcks r' := by
    intro r' e1 e2 e3
    apply h.extend (es ++ ReaderEvent.send ⟨topic, [c ++ ['\n']], r.made + 1⟩ ::
      retries ⟨topic, [c ++ ['\n']], r.made + 1⟩ n) used
    · rw [e1, a1, ht]; simp
    · intro b k hbk
      rw [List.mem_append, List.mem_cons] at hbk
      rcases hbk with hbk | hbk | hbk
      · exact h1 b k hbk
      · cases hbk
      · rcases f4 _ hbk with hh | hh <;> cases hh
    · intro msg hm
      rw [sends_append, h2, List.nil_append, sends, sends_retries, List.mem_cons] at hm
      have : msg = ⟨topic, [c ++ ['\n']], r.made + 1⟩ := by
        rcases hm with hm | hm
        · exact hm
        · exact (List.mem_replicate.1 hm).2
      subst this
      exact ⟨rfl, c, rfl⟩
    · rw [List.mem_append, List.mem_cons]
      rintro (hh | hh | hh)
      · exact h3 hh
      · cases hh
      · rcases f4 _ hh with hh | hh <;> cases hh
    · rw [readsOf_append, e2]
      simp only [readsOf, f1, List.append_nil]
      exact h4
    · rw [firstBodies_append, readsOf_append]
      simp only [firstBodies, readsOf, f1, f2, List.append_nil]
      exact h5
    · rw [e3, ← ha]; exact a3
    · rw [resendCount_append, h7]
      simp only [resendCount, f3, a2, Nat.zero_add]
  unfold emit
  simp only [hb, List.nil_append, if_pos hne]
  split
  · next hw => exact ⟨key _ rfl rfl (by rw [hw]; rfl), fun r' hh => by cases hh⟩
  · next rest hw =>
    refine ⟨key _ rfl rfl (by rw [hw]; rfl), ?_⟩
    intro r' hh
    cases hh
    rfl

theorem plain_tidy {topic : GoString} {allReads : List ReadResult}
    {allAcks : List (Option GoError)} {r r' : Reader} (h : Tidy topic allReads allAcks r)
    (es : List ReaderEvent) (ht : r'.trace = r.trace ++ es) (ha : r'.acks = r.acks)
    (h1 : ∀ b n, ReaderEvent.loopHead b n ∈ es → b = [])
    (h2 : sends es = []) (h3 : ReaderEvent.eofElse ∉ es)
    (h4 : r.reads = readsOf es ++ r'.reads)
    (h5 : firstBodies es = (readsOf es).filterMap lineBody)
    (h7 : resendCount es = 0) : Tidy topic allReads allAcks r' :=
  h.extend es [] ht h1 (by rw [h2]; intro msg hm; cases hm) h3 h4 h5 (by rw [ha]; rfl) h7

/-- One pass of the main loop from an empty buffer keeps the reader tidy, and leaves
the buffer empty when the loop goes on. -/
theorem iteration_tidy {topic : GoString} {allReads : List ReadResult}
    {allAcks : List (Option GoError)} {r : Reader} (h : Tidy topic allReads allAcks r)
    (hb : r.body = []) :
    Tidy topic allReads allAcks
      (iteration topic
        { r with trace := r.trace ++ [ReaderEvent.loopHead r.body r.retryCount] }).reader ∧
    ∀ r', iteration topic
        { r with trace := r.trace ++ [ReaderEvent.loopHead r.body r.retryCount] } = .next r' →
      r'.body = [] := by
  obtain ⟨fd, rc, body, made, reads, probes, acks, trace⟩ := r
  simp only at hb
  subst hb
  cases reads with
  | nil =>
    refine ⟨plain_tidy h [ReaderEvent.loopHead [] rc] rfl rfl ?_ rfl ?_ rfl rfl rfl, ?_⟩
    · intro b n hbn; simp at hbn; exact hbn.1
    · simp
    · intro r' hh; simp [iteration, readLine] at hh
  | cons r1 rest =>
    cases r1 with
    | line c =>
      simp only [iteration, readLine]
      exact emit_tidy h c [ReaderEvent.loopHead [] rc, ReaderEvent.read (ReadResult.line c)]
        rfl (by simp) rfl (by intro b n hbn; simp at hbn; exact hbn.1) rfl (by simp) rfl rfl rfl
    | fail p1 e1 =>
      cases rest with
      | nil =>
        refine ⟨plain_tidy h [ReaderEvent.loopHead [] rc, ReaderEvent.read (ReadResult.fail p1 e1),
          ReaderEvent.sleep] (by simp [iteration, readLine, Step.reader]) rfl ?_ rfl ?_ rfl rfl
          rfl, ?_⟩
        · intro b n hbn; simp at hbn; exact hbn.1
        · simp
        · intro r' hh; simp [iteration, readLine] at hh
      | cons r2 rest2 =>
        cases r2 with
        | line c =>
          simp only [iteration, readLine]
          exact emit_tidy h c [ReaderEvent.loopHead [] rc,
            ReaderEvent.read (ReadResult.fail p1 e1), ReaderEvent.sleep,
            ReaderEvent.read (ReadResult.line c)]
            rfl (by simp) rfl (by intro b n hbn; simp at hbn; exact hbn.1) rfl (by simp) rfl
            rfl rfl
        | fail p2 e2 =>
          have hes : ∀ (more : List ReaderEvent) (r' : Reader),
              (∀ e ∈ more, ∃ a b c, e = ReaderEvent.reopened a b c) →
              r'.trace = trace ++ ([ReaderEvent.loopHead [] rc,
                ReaderEvent.read (ReadResult.fail p1 e1), ReaderEvent.sleep,
                ReaderEvent.read (ReadResult.fail p2 e2)] ++ more) →
              r'.acks = acks → r'.reads = rest2 → Tidy topic allReads allAcks r' := by
            intro more r' hm ht ha hr
            have hmore : readsOf more = [] ∧ firstBodies more = [] ∧ sends more = [] ∧
                resendCount more = 0 := by
              clear ht
              induction more with
              | nil => exact ⟨rfl, rfl, rfl, rfl⟩
              | cons e more ih =>
                obtain ⟨a, b, c, rfl⟩ := hm _ (List.mem_cons_self _ _)
                exact ih (fun e he => hm e (List.mem_cons_of_mem _ he))
            obtain ⟨m1, m2, m3, m4⟩ := hmore
            apply plain_tidy h _ ht ha
            · intro b n hbn
              simp only [List.mem_append, List.mem_cons, List.not_mem_nil, or_false] at hbn
              rcases hbn with (hbn | hbn | hbn | hbn) | hbn
              · cases hbn; rfl
              · cases hbn
              · cases hbn
              · cases hbn
              · obtain ⟨a, b', c, hh⟩ := hm _ hbn; cases hh
            · rw [sends_append, m3]; rfl
            · simp only [List.mem_append, List.mem_cons, List.not_mem_nil, or_false]
              rintro ((hh | hh | hh | hh) | hh)
              · cases hh
              · cases hh
              · cases hh
              · cases hh
              · obtain ⟨a, b', c, hh'⟩ := hm _ hh; cases hh'
            · rw [readsOf_append, m1, hr]; rfl
            · rw [firstBodies_append, readsOf_append, m1, m2]; rfl
            · rw [resendCount_append, m4]; rfl
          cases e2 with
          | other e =>
            refine ⟨hes [] _ (fun e he => by cases he) (by simp [iteration, readLine, Step.reader])
              rfl rfl, ?_⟩
            intro r' hh; simp [iteration, readLine] at hh
          | EOF =>
            cases probes with
            | nil =>
              refine ⟨hes [] _ (fun e he => by cases he)
                (by simp [iteration, readLine, Step.reader]) rfl rfl, ?_⟩
              intro r' hh; simp [iteration, readLine] at hh
            | cons p ps =>
              obtain ⟨off, opn, sef⟩ := p
              cases off with
              | none =>
                refine ⟨hes [] _ (fun e he => by cases he)
                  (by simp [iteration, readLine, Step.reader]) rfl rfl, ?_⟩
                intro r' hh; simp [iteration, readLine] at hh
              | some size0 =>
                cases opn with
                | none =>
                  refine ⟨hes [] _ (fun e he => by cases he)
                    (by simp [iteration, readLine, Step.reader]) rfl rfl, ?_⟩
                  intro r' hh; simp [iteration, readLine] at hh
                | some sz =>
                  have hit : iteration topic
                      { fd := fd, retryCount := rc, body := [], made := made,
                        reads := ReadResult.fail p1 e1 :: ReadResult.fail p2 ReadErr.EOF :: rest2,
                        probes := ⟨some size0, some sz, sef⟩ :: ps, acks := acks,
                        trace := trace ++ [ReaderEvent.loopHead [] rc] }
                      = .next
                      { fd := (reposition size0 { size := sz, pos := 0 } sef).1,
                        retryCount := rc + 1, body := [], made := made,
                        reads := rest2, probes := ps, acks := acks,
                        trace := trace ++ [ReaderEvent.loopHead [] rc] ++
                          [ReaderEvent.read (ReadResult.fail p1 e1), ReaderEvent.sleep] ++
                          [ReaderEvent.read (ReadResult.fail p2 ReadErr.EOF)] ++
                          [ReaderEvent.reopened size0
                            (reposition size0 { size := sz, pos := 0 } sef).2
                            (reposition size0 { size := sz, pos := 0 } sef).1.pos] } := by
                    simp [iteration, readLine]
                  rw [hit]
                  refine ⟨hes [ReaderEvent.reopened size0
                      (reposition size0 { size := sz, pos := 0 } sef).2
                      (reposition size0 { size := sz, pos := 0 } sef).1.pos] _ ?_
                    (by simp [Step.reader]) rfl rfl, ?_⟩
                  · intro e he
                    simp only [List.mem_singleton] at he
                    exact ⟨_, _, _, he⟩
                  · intro r' hh
                    cases hh
                    rfl

/-- The main loop keeps a tidy reader with an empty buffer tidy. -/
theorem readLoop_tidy {topic : GoString} {allReads : List ReadResult}
    {allAcks : List (Option GoError)} (polls : List Bool) {r : Reader}
    (h : Tidy topic allReads allAcks r) (hb : r.body = []) :
    Tidy topic allReads allAcks (readLoop topic polls r).2 := by
  induction polls generalizing r with
  | nil => exact h
  | cons p polls ih =>
    cases p with
    | true =>
      show Tidy topic allReads allAcks
        { r with trace := r.trace ++ [ReaderEvent.loopHead r.body r.retryCount] }
      refine plain_tidy h [ReaderEvent.loopHead r.body r.retryCount] ?_ ?_ ?_ ?_ ?_ ?_ ?_ ?_
      · rfl
      · rfl
      · intro b n hbn; simp at hbn; rw [hbn.1, hb]
      · rfl
      · simp
      · rfl
      · rfl
      · rfl
    | false =>
      obtain ⟨h1, h2⟩ := iteration_tidy h hb
      unfold readLoop
      cases hi : iteration topic
          { r with trace := r.trace ++ [ReaderEvent.loopHead r.body r.retryCount] } with
      | next r1 =>
        rw [hi] at h1
        exact ih h1 (h2 r1 hi)
      | done s r1 =>
        rw [hi] at h1
        exact h1

/-- Every run of `ReadLog` leaves a tidy reader. -/
theorem ReadLog_tidy (readAll file topic : GoString) (batch : Int) (w : Feed) :
    Tidy topic w.reads w.acks (ReadLog readAll file topic batch w).2 := by
  have h0 : ∀ fd : File, Tidy topic w.reads w.acks
      { fd := fd, retryCount := 0, body := [], made := 0, reads := w.reads,
        probes := w.probes, acks := w.acks, trace := [] } := by
    intro fd
    exact ⟨fun b n hh => (by cases hh), fun msg hh => (by cases hh), fun hh => (by cases hh),
      rfl, rfl, ⟨[], rfl, rfl⟩⟩
  unfold ReadLog
  simp only
  split
  · exact h0 _
  · split_ifs
    · exact h0 _
    · exact h0 _
    · exact readLoop_tidy _ (h0 _) rfl
    · exact readLoop_tidy _ (h0 _) rfl

theorem mapGet?_perm {V : Type} {a b : GoMap V} (hp : a.Perm b) (hn : (mapKeys b).Nodup)
    (k : GoString) : mapGet? a k = mapGet? b k := by
  have hna : (mapKeys a).Nodup := (hp.map Prod.fst).nodup_iff.2 hn
  cases hb : mapGet? b k with
  | some v => exact mapGet?_of_mem hna (hp.mem_iff.2 (mem_of_mapGet? hb))
  | none =>
    rw [mapGet?_eq_none_iff] at hb ⊢
    intro hk
    exact hb ((hp.map Prod.fst).mem_iff.1 hk)

theorem inv_reorder {m : LogTask} (h : Inv m) {logStat : GoMap Chan}
    {currentConfig : GoMap GoString} (h1 : logStat.Perm m.LogStat)
    (h2 : currentConfig.Perm m.CurrentConfig) :
    Inv { m with LogStat := logStat, CurrentConfig := currentConfig } := by
  have g1 := mapGet?_perm h1 h.good.keys
  have g2 := mapGet?_perm h2 h.keysCur
  refine ⟨⟨(h1.map Prod.fst).nodup_iff.2 h.good.keys, ?_, ?_, h.good.closedAlloc⟩,
    (h2.map Prod.fst).nodup_iff.2 h.keysCur, ?_⟩
  · intro k c hc
    simp only [g1] at hc
    exact h.good.opened k c hc
  · intro k k' c hk hk'
    simp only [g1] at hk hk'
    exact h.good.inj k k' c hk hk'
  · intro k
    have := h.active k
    unfold ActiveAt at this ⊢
    simp only [g1, strAt, g2]
    exact this

theorem runInv_reorder {m : LogTask} (h : RunInv m) {logStat : GoMap Chan}
    {currentConfig : GoMap GoString} (h1 : logStat.Perm m.LogStat)
    (h2 : currentConfig.Perm m.CurrentConfig) :
    RunInv { m with LogStat := logStat, CurrentConfig := currentConfig } where
  inv := inv_reorder h.inv h1 h2
  exitPos := h.exitPos
  exitAlloc := h.exitAlloc
  exitOpen := h.exitOpen
  exitFresh := by
    intro k
    have g1 := mapGet?_perm h1 h.inv.good.keys k
    simp only [g1]
    exact h.exitFresh k

theorem CheckReload_inv_any {m m1 : LogTask} (h : Inv m) {l : Listing} {e : Option GoError}
    (hc : CheckReload m l = .ok (m1, e)) : Inv m1 := by
  obtain ⟨pairs, err⟩ := l
  cases err with
  | some e' =>
    rw [CheckReload_err] at hc
    cases hc
    exact h
  | none =>
    rw [CheckReload_ok h] at hc
    cases hc
    exact inv_applyEff h (nodup_snapshot m pairs)

theorem CheckReload_runInv_any {m m1 : LogTask} (h : RunInv m) {l : Listing}
    {e : Option GoError} (hc : CheckReload m l = .ok (m1, e)) : RunInv m1 := by
  obtain ⟨m2, e2, h1, h2⟩ := CheckReload_runInv h l
  rw [h1] at hc
  cases hc
  exact h2

theorem inv_of_reaches {m0 m : LogTask} (h0 : Inv m0) (h : Reaches m0 m) : Inv m := by
  induction h with
  | start => exact h0
  | reload l e _ hc ih => exact CheckReload_inv_any ih hc
  | reorder ls cc _ h1 h2 ih => exact inv_reorder ih h1 h2

theorem runInv_of_reaches {m0 m : LogTask} (h0 : RunInv m0) (h : Reaches m0 m) : RunInv m := by
  induction h with
  | start => exact h0
  | reload l e _ hc ih => exact CheckReload_runInv_any ih hc
  | reorder ls cc _ h1 h2 ih => exact runInv_reorder ih h1 h2

theorem tickLoop_reaches (ls : List Listing) {m0 m m1 : LogTask} (hr : Reaches m0 m)
    (h : tickLoop ls m = .ok m1) : Reaches m0 m1 := by
  induction ls generalizing m with
  | nil => cases h; exact hr
  | cons l ls ih =>
    unfold tickLoop at h
    cases hc : CheckReload m l with
    | error p => rw [hc] at h; cases h
    | ok r =>
      obtain ⟨m2, e⟩ := r
      rw [hc] at h
      exact ih (Reaches.reload l e hr hc) h

/-- C1. Convergence of `CheckReload`: start from empty registries. Every finite
sequence of fetched snapshots, each applied by a `CheckReload`, runs without a panic
to a reachable state; and in every reachable state, whatever the calls before and
whatever the order of the map entries, a call whose fetch succeeds returns nil and
leaves `CurrentConfig` equal to the snapshot it fetched and the keys of `LogStat`
exactly the keys whose value in that snapshot is non-empty. -/
theorem CheckReload_converges (m0 : LogTask) (h1 : m0.LogStat = [])
    (h2 : m0.CurrentConfig = []) (h3 : ∀ c ∈ m0.closed, c ≤ m0.nchans) :
    (∀ snapshots : List (List KVPair), ∃ m,
      tickLoop (snapshots.map fun p => ⟨p, none⟩) m0 = .ok m ∧ Reaches m0 m) ∧
    ∀ m, Reaches m0 m → ∀ latest : List KVPair, ∃ m' snap,
      ReadConfigFromConsul m ⟨latest, none⟩ = .ok (snap, none) ∧
      CheckReload m ⟨latest, none⟩ = .ok (m', none) ∧
      m'.CurrentConfig = snap ∧
      ∀ k, k ∈ mapKeys m'.LogStat ↔ strAt snap k ≠ [] := by
  have i0 := inv_of_empty h1 h2 h3
  constructor
  · intro snapshots
    obtain ⟨m, e1, _⟩ := tickLoop_inv snapshots i0
    exact ⟨m, e1, tickLoop_reaches _ Reaches.start e1⟩
  · intro m hr latest
    obtain ⟨m', e2, i2, e3⟩ := CheckReload_inv (inv_of_reaches i0 hr) latest
    refine ⟨m', m'.CurrentConfig, e3, e2, rfl, ?_⟩
    intro k
    rw [mem_mapKeys_iff]
    exact i2.active k

theorem CheckReload_converges_witness :
    (newLogTask []).LogStat = [] ∧ (newLogTask []).CurrentConfig = [] ∧
    (∀ c ∈ (newLogTask []).closed, c ≤ (newLogTask []).nchans) ∧
    (∀ snapshots : List (List KVPair), ∃ m,
      tickLoop (snapshots.map fun p => ⟨p, none⟩) (newLogTask []) = .ok m ∧
        Reaches (newLogTask []) m) ∧
    ∀ m, Reaches (newLogTask []) m → ∀ latest : List KVPair, ∃ m' snap,
      ReadConfigFromConsul m ⟨latest, none⟩ = .ok (snap, none) ∧
      CheckReload m ⟨latest, none⟩ = .ok (m', none) ∧
      m'.CurrentConfig = snap ∧
      ∀ k, k ∈ mapKeys m'.LogStat ↔ strAt snap k ≠ [] :=
  ⟨rfl, rfl, (by intro c hc; cases hc),
    CheckReload_converges (newLogTask []) rfl rfl (by intro c hc; cases hc)⟩

/-- C8. Shutdown without double close: `Run`, from empty registries, makes the exit
signal and applies any sequence of reconciliations without a panic, failed fetches
included. In every state reachable after `Run` made the exit signal, whatever the
calls and the order of the map entries, the registered signals are open, allocated
and pairwise distinct, the exit signal is open and is none of them, so that `Stop`
returns without a panic having closed exactly the exit signal and then each
registered signal, each once; and a further `CheckReload` does not panic. -/
theorem Stop_after_Run (setting : GoMap GoString) :
    (∀ (first : Listing) (ticks : List Listing), ∃ m,
      Run (newLogTask setting) first ticks = .ok m ∧
        Reaches (runInit (newLogTask setting)) m) ∧
    ∀ m, Reaches (runInit (newLogTask setting)) m →
      (∀ c ∈ m.LogStat.map Prod.snd, 0 < c ∧ c ≤ m.nchans ∧ c ∉ m.closed) ∧
      (m.LogStat.map Prod.snd).Nodup ∧
      (0 < m.exitChan ∧ m.exitChan ≤ m.nchans ∧ m.exitChan ∉ m.closed) ∧
      m.exitChan ∉ m.LogStat.map Prod.snd ∧
      (∃ m', Stop m = .ok m' ∧
        m'.closed = m.closed ++ m.exitChan :: m.LogStat.map Prod.snd) ∧
      ∀ l : Listing, ∃ m1 e, CheckReload m l = .ok (m1, e) := by
  constructor
  · intro first ticks
    obtain ⟨m, h1, _⟩ := tickLoop_runInv (first :: ticks) (runInv_runInit setting)
    exact ⟨m, h1, tickLoop_reaches _ Reaches.start h1⟩
  · intro m hr
    have h2 := runInv_of_reaches (runInv_runInit setting) hr
    obtain ⟨hnd, hop⟩ := values_of_good h2.inv.good
    refine ⟨hop, hnd, ⟨h2.exitPos, h2.exitAlloc, h2.exitOpen⟩, ?_, ⟨_, Stop_eq h2, rfl⟩, ?_⟩
    · intro hc
      obtain ⟨⟨k, c'⟩, he, hh⟩ := List.mem_map.1 hc
      simp only at hh
      subst hh
      exact h2.exitFresh k (mapGet?_of_mem h2.inv.good.keys he)
    · intro l
      obtain ⟨m1, e, h3, _⟩ := CheckReload_runInv h2 l
      exact ⟨m1, e, h3⟩

theorem Stop_after_Run_witness :
    Reaches (runInit (newLogTask [])) (runInit (newLogTask [])) ∧
    (∀ c ∈ (runInit (newLogTask [])).LogStat.map Prod.snd,
      0 < c ∧ c ≤ (runInit (newLogTask [])).nchans ∧ c ∉ (runInit (newLogTask [])).closed) ∧
    ((runInit (newLogTask [])).LogStat.map Prod.snd).Nodup ∧
    (0 < (runInit (newLogTask [])).exitChan ∧
      (runInit (newLogTask [])).exitChan ≤ (runInit (newLogTask [])).nchans ∧
      (runInit (newLogTask [])).exitChan ∉ (runInit (newLogTask [])).closed) ∧
    (runInit (newLogTask [])).exitChan ∉ (runInit (newLogTask [])).LogStat.map Prod.snd ∧
    (∃ m', Stop (runInit (newLogTask [])) = .ok m' ∧
      m'.closed = (runInit (newLogTask [])).closed ++
        (runInit (newLogTask [])).exitChan :: (runInit (newLogTask [])).LogStat.map Prod.snd) ∧
    ∀ l : Listing, ∃ m1 e, CheckReload (runInit (newLogTask [])) l = .ok (m1, e) :=
  ⟨Reaches.start, (Stop_after_Run []).2 (runInit (newLogTask [])) Reaches.start⟩

/-- In a state that keeps the invariant, `LogStat` holds an open signal for exactly
the keys with a non-empty applied value, and no signal is registered under two keys. -/
theorem registered_of_inv {m : LogTask} (hi : Inv m) : Registered m ∧ Distinct m := by
  obtain ⟨hv1, hv2⟩ := values_of_good hi.good
  refine ⟨⟨hi.good.keys, hi.keysCur, ?_, ?_, hv2, hi.good.closedAlloc⟩, hv1⟩
  · intro k hk
    exact (hi.active k).1 ((mem_mapKeys_iff _ k).1 hk)
  · intro k _ hk
    exact (mem_mapKeys_iff _ k).2 ((hi.active k).2 hk)

/-- C3. Teardown exactly once. Let `m` be a state the task can be in, reached from
empty registries by any calls of `CheckReload` (in any map iteration order), or any
state in which `LogStat` holds an open signal for exactly the keys with a non-empty
applied value, each signal under one key. Then `m` is such a state, and a
`CheckReload` whose fetch succeeds returns nil without a panic; the channels it
closes are exactly the signals of the keys whose applied value differs from the
fetched one (changed, set empty or removed), each closed once, none of them nil or
closed before, and none of them is registered afterwards; and for a key whose new
value is non-empty, the close of the old signal comes before the allocation of the
new one, which is a fresh, open channel different from the old one. For example,
reconciling `{A: "f:10"}` and then `{A: "f:20"}` closes the first signal once and
leaves the fresh open signal `2` registered for `A`, its reader started with batch
20. -/
theorem CheckReload_teardown (m : LogTask) (pairs : List KVPair)
    (hm : (∃ m0 : LogTask, m0.LogStat = [] ∧ m0.CurrentConfig = [] ∧
        (∀ c ∈ m0.closed, c ≤ m0.nchans) ∧ Reaches m0 m) ∨
      (Registered m ∧ Distinct m)) :
    (Registered m ∧ Distinct m) ∧
    (∃ m' newConf cs T,
      ReadConfigFromConsul m ⟨pairs, none⟩ = .ok (newConf, none) ∧
      CheckReload m ⟨pairs, none⟩ = .ok (m', none) ∧
      m'.closed = m.closed ++ cs ∧ m'.trace = m.trace ++ T ∧
      cs.Nodup ∧ (∀ c ∈ cs, c ≠ 0 ∧ c ∉ m.closed) ∧
      (∀ c, c ∈ cs ↔
        ∃ k, mapGet? m.LogStat k = some c ∧ strAt m.CurrentConfig k ≠ strAt newConf k) ∧
      (∀ c ∈ cs, ∀ k, mapGet? m'.LogStat k ≠ some c) ∧
      (∀ k cOld, mapGet? m.LogStat k = some cOld →
        strAt m.CurrentConfig k ≠ strAt newConf k → strAt newConf k ≠ [] →
        ∃ cNew, mapGet? m'.LogStat k = some cNew ∧ cNew ≠ cOld ∧
          m.nchans < cNew ∧ cNew ≤ m'.nchans ∧ cNew ∉ m'.closed ∧
          T.filter (isCloseOrMake cOld cNew) = [Event.close cOld, Event.make cNew])) ∧
    (CheckReload (newLogTask []) ⟨[⟨"/A".toList, "f:10".toList⟩], none⟩
        = .ok (afterA, none) ∧
      CheckReload afterA ⟨[⟨"/A".toList, "f:20".toList⟩], none⟩
        = .ok ({ LogStat := [("A".toList, 2)],
                 CurrentConfig := [("A".toList, "f:20".toList)], Setting := [],
                 msgChan := 0, exitChan := 0, nchans := 2, closed := [1],
                 trace := afterA.trace ++ [.close 1, .make 2, .goWriteLoop 2,
                   .goReadLog "f".toList "A".toList 2 20] }, none)) := by
  have hi : Inv m := by
    rcases hm with ⟨m0, h1, h2, h3, hr⟩ | ⟨hr, hd⟩
    · exact inv_of_reaches (inv_of_empty h1 h2 h3) hr
    · exact inv_of_registered hr hd
  have hn := nodup_snapshot m pairs
  have hi' := inv_applyEff hi hn
  obtain ⟨hnd, hfresh⟩ := nodup_closes hi hn
  refine ⟨registered_of_inv hi,
    ⟨applyEff m (snapshot m pairs), snapshot m pairs, closes m (snapshot m pairs),
    applyEvents m (snapshot m pairs), ReadConfigFromConsul_ok m pairs, CheckReload_ok hi pairs,
    applyEff_closed hi hn, applyEff_trace hi _, hnd, ?_, mem_closes_iff hi hn, ?_, ?_⟩,
    ⟨rfl, rfl⟩⟩
  · intro c hc
    refine ⟨?_, hfresh c hc⟩
    obtain ⟨k, hk, _⟩ := (mem_closes_iff hi hn c).1 hc
    exact Nat.pos_iff_ne_zero.1 (hi.good.opened k c hk).1
  · intro c hc k hk
    apply (hi'.good.opened k c hk).2.2
    rw [applyEff_closed hi hn]
    exact List.mem_append_right _ hc
  · intro k cOld hk h1 h3
    obtain ⟨c, c1, c2, c3, c4⟩ := about_applyEvents hi hn h1 h3
    have hne : strAt m.CurrentConfig k ≠ [] := (hi.active k).1 (by rw [hk]; simp)
    rw [chanAt_of_get hk, if_neg hne] at c4
    have hco : cOld ≤ m.nchans := (hi.good.opened k cOld hk).2.1
    refine ⟨c, c3, ?_, c1, c2, (hi'.good.opened k c c3).2.2, ?_⟩
    · intro hh
      rw [hh] at c1
      exact absurd (lt_of_lt_of_le c1 hco) (lt_irrefl _)
    · rw [filter_filter_of_imp (about k cOld c) (isCloseOrMake cOld c), c4]
      · simp [List.filter_cons, isCloseOrMake, filter_isCloseOrMake_starts]
      · intro e he
        cases e <;> simp_all [isCloseOrMake, about]

theorem CheckReload_teardown_witness :
    (∃ m0 : LogTask, m0.LogStat = [] ∧ m0.CurrentConfig = [] ∧
      (∀ c ∈ m0.closed, c ≤ m0.nchans) ∧ Reaches m0 afterA) ∧
    (Registered afterA ∧ Distinct afterA) ∧
    ∃ m' newConf cs T,
      ReadConfigFromConsul afterA ⟨[⟨"/A".toList, "f:20".toList⟩], none⟩ = .ok (newConf, none) ∧
      CheckReload afterA ⟨[⟨"/A".toList, "f:20".toList⟩], none⟩ = .ok (m', none) ∧
      m'.closed = afterA.closed ++ cs ∧ m'.trace = afterA.trace ++ T ∧
      cs.Nodup ∧ (∀ c ∈ cs, c ≠ 0 ∧ c ∉ afterA.closed) ∧
      (∀ c, c ∈ cs ↔
        ∃ k, mapGet? afterA.LogStat k = some c ∧
          strAt afterA.CurrentConfig k ≠ strAt newConf k) ∧
      (∀ c ∈ cs, ∀ k, mapGet? m'.LogStat k ≠ some c) ∧
      (∀ k cOld, mapGet? afterA.LogStat k = some cOld →
        strAt afterA.CurrentConfig k ≠ strAt newConf k → strAt newConf k ≠ [] →
        ∃ cNew, mapGet? m'.LogStat k = some cNew ∧ cNew ≠ cOld ∧
          afterA.nchans < cNew ∧ cNew ≤ m'.nchans ∧ cNew ∉ m'.closed ∧
          T.filter (isCloseOrMake cOld cNew) = [Event.close cOld, Event.make cNew]) :=
  ⟨⟨newLogTask [], rfl, rfl, (by intro c hc; cases hc),
      Reaches.reload ⟨[⟨"/A".toList, "f:10".toList⟩], none⟩ none Reaches.start rfl⟩,
    (CheckReload_teardown afterA [⟨"/A".toList, "f:20".toList⟩]
      (Or.inl ⟨newLogTask [], rfl, rfl, (by intro c hc; cases hc),
        Reaches.reload ⟨[⟨"/A".toList, "f:10".toList⟩], none⟩ none Reaches.start rfl⟩)).1,
    (CheckReload_teardown afterA [⟨"/A".toList, "f:20".toList⟩]
      (Or.inl ⟨newLogTask [], rfl, rfl, (by intro c hc; cases hc),
        Reaches.reload ⟨[⟨"/A".toList, "f:10".toList⟩], none⟩ none Reaches.start rfl⟩)).2.1⟩

/-- C4. Idempotence: in every state, a `CheckReload` that fetches without error a
snapshot equal, as a map, to `CurrentConfig` returns nil and changes nothing but
replacing `CurrentConfig` by the equal snapshot: no channel is closed or allocated,
no goroutine is started, `LogStat` is unchanged. Hence a call that returned nil,
repeated on the same listing, returns nil and leaves the whole state as it is. -/
theorem CheckReload_idempotent (m : LogTask) (l : Listing) (newConf : GoMap GoString)
    (hf : ReadConfigFromConsul m l = .ok (newConf, none))
    (he : ∀ k, mapGet? newConf k = mapGet? m.CurrentConfig k) :
    CheckReload m l = .ok ({ m with CurrentConfig := newConf }, none) ∧
    (∀ k, mapGet? ({ m with CurrentConfig := newConf } : LogTask).CurrentConfig k
        = mapGet? m.CurrentConfig k) ∧
    ∀ (s : LogTask) (l' : Listing) (s1 : LogTask),
      CheckReload s l' = .ok (s1, none) → CheckReload s1 l' = .ok (s1, none) := by
  refine ⟨?_, he, ?_⟩
  · rw [CheckReload_of_fetch hf, applyConf_same (fun k => (strAt_eq_of_get (he k)).symm)]
    rfl
  · intro s l' s1 h
    obtain ⟨nc, h1, h2⟩ := CheckReload_ok_inv h
    have hs : s1.Setting = s.Setting := by rw [h2]; exact applyEff_Setting _ _
    have hc : s1.CurrentConfig = nc := by rw [h2]; rfl
    have hf' : ReadConfigFromConsul s1 l' = .ok (nc, none) := by
      rw [ReadConfigFromConsul_congr hs, h1]
    rw [CheckReload_of_fetch hf', applyConf_same (fun k => by rw [hc])]
    show Except.ok (({ s1 with CurrentConfig := nc } : LogTask), none) = _
    rw [← hc]

theorem CheckReload_idempotent_witness :
    ReadConfigFromConsul afterA ⟨[⟨"/A".toList, "f:10".toList⟩], none⟩
      = .ok ([("A".toList, "f:10".toList)], none) ∧
    (∀ k, mapGet? [("A".toList, "f:10".toList)] k = mapGet? afterA.CurrentConfig k) ∧
    CheckReload afterA ⟨[⟨"/A".toList, "f:10".toList⟩], none⟩
      = .ok ({ afterA with CurrentConfig := [("A".toList, "f:10".toList)] }, none) ∧
    (∀ k, mapGet? ({ afterA with CurrentConfig := [("A".toList, "f:10".toList)] } :
        LogTask).CurrentConfig k = mapGet? afterA.CurrentConfig k) ∧
    ∀ (s : LogTask) (l' : Listing) (s1 : LogTask),
      CheckReload s l' = .ok (s1, none) → CheckReload s1 l' = .ok (s1, none) :=
  ⟨rfl, fun _ => rfl,
    CheckReload_idempotent afterA ⟨[⟨"/A".toList, "f:10".toList⟩], none⟩
      [("A".toList, "f:10".toList)] rfl (fun _ => rfl)⟩

/-- C2 (amended). Parsing and start-up in `CheckReload`: when a call returns nil,
then for every key whose new value `v` is non-empty and differs from the applied one
the goroutines the call starts for that key or on that key's newly registered signal
`c` are exactly one `WriteLoop` on `c` and one `ReadLog` per file name of `v`, in
order, every reader with the key as topic, `c` as exit channel and the batch of `v`.
For every `v`: the file names are the comma-separated pieces of the part of `v` before
its first `:` (of all of `v` when it has no `:`); the batch is `N` when the text `s`
between the first `:` and the next `:` (or the end of `v`) is an optionally signed,
non-empty run of decimal digits denoting an integer `N` with `0 < N < 2^63`, and it is
20 in every other case: `v` has no `:`, `s` is not such a run of digits, `N ≤ 0`, or
`2^63 ≤ N`. Every `v` with a `:` has this shape `paths`, `:`, `s`, `rest`; the decimal
numeral of a natural number `N`, bare or after `+`, denotes `N`, and after `-` it
denotes `-N`. -/
theorem CheckReload_starts (m : LogTask) (l : Listing) (m' : LogTask)
    (hok : CheckReload m l = .ok (m', none)) :
    (∃ newConf, ReadConfigFromConsul m l = .ok (newConf, none) ∧
      ∀ k, strAt newConf k ≠ [] → strAt m.CurrentConfig k ≠ strAt newConf k →
        ∃ T c, m'.trace = m.trace ++ T ∧ m.nchans < c ∧ mapGet? m'.LogStat k = some c ∧
          T.filter (isStart k c) = (filesOf (strAt newConf k)).flatMap fun fileName =>
            [Event.goWriteLoop c,
             Event.goReadLog fileName k c (batchFor (strAt newConf k))]) ∧
    (∀ v : GoString, ':' ∉ v → filesOf v = Split v ',' ∧ batchFor v = 20) ∧
    (∀ paths s rest : GoString, ':' ∉ paths → ':' ∉ s →
      (rest = [] ∨ ∃ r, rest = ':' :: r) →
      filesOf (paths ++ ':' :: (s ++ rest)) = Split paths ',' ∧
      batchFor (paths ++ ':' :: (s ++ rest)) =
        if isNumeral s = true ∧ 0 < numValue s ∧ numValue s < 2 ^ 63 then numValue s
        else 20) ∧
    (∀ v : GoString, ':' ∈ v → ∃ paths s rest, v = paths ++ ':' :: (s ++ rest) ∧
      ':' ∉ paths ∧ ':' ∉ s ∧ (rest = [] ∨ ∃ r, rest = ':' :: r)) ∧
    (∀ N : Nat, ':' ∉ Nat.toDigits 10 N ∧
      (isNumeral (Nat.toDigits 10 N) = true ∧ numValue (Nat.toDigits 10 N) = N) ∧
      (isNumeral ('+' :: Nat.toDigits 10 N) = true ∧
        numValue ('+' :: Nat.toDigits 10 N) = N) ∧
      (isNumeral ('-' :: Nat.toDigits 10 N) = true ∧
        numValue ('-' :: Nat.toDigits 10 N) = -(N : Int))) ∧
    (∀ (paths rest : GoString) (N : Nat), ':' ∉ paths →
      (rest = [] ∨ ∃ r, rest = ':' :: r) →
      batchFor (paths ++ ':' :: (Nat.toDigits 10 N ++ rest)) =
        if 0 < N ∧ N < 2 ^ 63 then (N : Int) else 20) ∧
    (filesOf "a,b,c:5".toList = ["a".toList, "b".toList, "c".toList] ∧
      batchFor "a,b,c:5".toList = 5) ∧
    (filesOf "a,b,c".toList = ["a".toList, "b".toList, "c".toList] ∧
      batchFor "a,b,c".toList = 20) ∧
    (filesOf "a,b,c:bogus".toList = ["a".toList, "b".toList, "c".toList] ∧
      batchFor "a,b,c:bogus".toList = 20) ∧
    (filesOf "a,b,c:0".toList = ["a".toList, "b".toList, "c".toList] ∧
      batchFor "a,b,c:0".toList = 20) ∧
    (filesOf "a:5:7".toList = ["a".toList] ∧ batchFor "a:5:7".toList = 5) ∧
    (batchFor "a:+5".toList = 5 ∧ batchFor "a:007".toList = 7 ∧
      batchFor "a:-5".toList = 20 ∧ batchFor "a:".toList = 20 ∧
      batchFor "a:5x".toList = 20 ∧ batchFor "a::5".toList = 20 ∧
      batchFor "a:9223372036854775807".toList = 9223372036854775807 ∧
      batchFor "a:9223372036854775808".toList = 20) := by
  refine ⟨?_, fun v hv => ⟨filesOf_plain hv, batchFor_plain hv⟩,
    fun paths s rest hp hs hr => ⟨filesOf_colon _ hp, batchFor_rule hp hs hr⟩,
    fun v hv => exists_items hv, ?_, ?_,
    ⟨by decide, by decide⟩, ⟨by decide, by decide⟩, ⟨by decide, by decide⟩,
    ⟨by decide, by decide⟩, ⟨by decide, by decide⟩,
    ⟨by decide, by decide, by decide, by decide, by decide, by decide, by decide,
      by decide⟩⟩
  · obtain ⟨newConf, hf, he⟩ := CheckReload_ok_inv hok
    refine ⟨newConf, hf, ?_⟩
    intro k h3 h1
    obtain ⟨T, hT, c, c1, c3, c4⟩ := isStart_applyEff m (nodup_of_fetch hf) h1 h3
    rw [← he] at hT c3
    exact ⟨T, c, hT, c1, c3, by rw [c4, starts_eq]⟩
  · intro N
    exact ⟨not_mem_colon_of_digits (toDigits_spec N).1, numeral_toDigits N,
      numeral_signed_toDigits N⟩
  · intro paths rest N hp hr
    have hd := not_mem_colon_of_digits (toDigits_spec N).1
    obtain ⟨h1, h2⟩ := numeral_toDigits N
    rw [batchFor_rule hp hd hr, h2]
    by_cases h : 0 < N ∧ N < 2 ^ 63
    · rw [if_pos h, if_pos ⟨h1, by exact_mod_cast h.1, by exact_mod_cast h.2⟩]
    · rw [if_neg h, if_neg]
      rintro ⟨_, a, b⟩
      exact h ⟨by exact_mod_cast a, by exact_mod_cast b⟩

theorem CheckReload_starts_witness :
    CheckReload afterA ⟨[⟨"/A".toList, "f,g:20".toList⟩], none⟩
      = .ok ({ LogStat := [("A".toList, 2)],
               CurrentConfig := [("A".toList, "f,g:20".toList)], Setting := [],
               msgChan := 0, exitChan := 0, nchans := 2, closed := [1],
               trace := afterA.trace ++ [.close 1, .make 2,
                 .goWriteLoop 2, .goReadLog "f".toList "A".toList 2 20,
                 .goWriteLoop 2, .goReadLog "g".toList "A".toList 2 20] }, none) ∧
    ∃ newConf, ReadConfigFromConsul afterA ⟨[⟨"/A".toList, "f,g:20".toList⟩], none⟩
        = .ok (newConf, none) ∧
      ∀ k, strAt newConf k ≠ [] → strAt afterA.CurrentConfig k ≠ strAt newConf k →
        ∃ T c, (afterA.trace ++ [Event.close 1, Event.make 2,
            Event.goWriteLoop 2, Event.goReadLog "f".toList "A".toList 2 20,
            Event.goWriteLoop 2, Event.goReadLog "g".toList "A".toList 2 20])
            = afterA.trace ++ T ∧ afterA.nchans < c ∧
          mapGet? [("A".toList, 2)] k = some c ∧
          T.filter (isStart k c) = (filesOf (strAt newConf k)).flatMap fun fileName =>
            [Event.goWriteLoop c,
             Event.goReadLog fileName k c (batchFor (strAt newConf k))] :=
  ⟨rfl, (CheckReload_starts afterA ⟨[⟨"/A".toList, "f,g:20".toList⟩], none⟩ _ rfl).1⟩

/-- C2 as stated fails in two ways. A positive integer that does not fit `int` is not
taken as the batch: the value `a:9223372036854775808` is of the form `paths:N` with
`N = 2^63`, and the reader is started with batch 20. And a `:N` part that is not
numeric can still set the batch: in `a:5:7` what follows the `:` is `5:7`, and the
reader is started with batch 5, because only the text up to the next `:` is parsed. -/
theorem batch_not_as_claimed :
    Nat.toDigits 10 (2 ^ 63) = "9223372036854775808".toList ∧
    (∃ m', CheckReload (newLogTask [])
        ⟨[⟨"/A".toList, "a:9223372036854775808".toList⟩], none⟩ = .ok (m', none) ∧
      m'.trace = [Event.make 1, Event.goWriteLoop 1,
        Event.goReadLog "a".toList "A".toList 1 20]) ∧
    batchFor "a:9223372036854775808".toList = 20 ∧ (20 : Int) ≠ 2 ^ 63 ∧
    isNumeral "5:7".toList = false ∧
    (∃ m', CheckReload (newLogTask [])
        ⟨[⟨"/A".toList, "a:5:7".toList⟩], none⟩ = .ok (m', none) ∧
      m'.trace = [Event.make 1, Event.goWriteLoop 1,
        Event.goReadLog "a".toList "A".toList 1 5]) ∧
    batchFor "a:5:7".toList = 5 := by
  refine ⟨by decide, ⟨_, rfl, rfl⟩, by decide, by decide, by decide, ⟨_, rfl, rfl⟩,
    by decide⟩

/-- What `ReadLog` submits in every run, whatever the reads, the file-system answers
and the delivery outcomes: the reads made are a prefix of the reads the file offers;
the payloads of the messages submitted, resubmissions left out, are, in read order,
one message per read that returned a complete line with a nil error, holding that
line alone; and the reader resubmits once per error outcome it received. Content
that a read returns together with an error is in none of these messages. -/
theorem ReadLog_lines_submitted_once (readAll file topic : GoString) (batch : Int) (w : Feed) :
    w.reads = readsOf (ReadLog readAll file topic batch w).2.trace
      ++ (ReadLog readAll file topic batch w).2.reads ∧
    firstBodies (ReadLog readAll file topic batch w).2.trace
      = (readsOf (ReadLog readAll file topic batch w).2.trace).filterMap lineBody ∧
    ∃ used, w.acks = used ++ (ReadLog readAll file topic batch w).2.acks ∧
      resendCount (ReadLog readAll file topic batch w).2.trace = errorCount used :=
  ⟨(ReadLog_tidy readAll file topic batch w).reads,
    (ReadLog_tidy readAll file topic batch w).bodies,
    (ReadLog_tidy readAll file topic batch w).acks⟩

/-- C6. The code drops content a read returned, against the claim. When the line
`abcdef` reaches the tailed file in two pieces, the first read returns `abc` with
end-of-file, the retry of line 159 overwrites `line` with the line `def`, the
delivery is acknowledged, and the only message ever submitted holds `def` alone.
When `abc` is returned with end-of-file by the retry itself, the `continue` of line
183 skips it, and again the only message holds `def`. In both runs all reads are
consumed, the buffer ends empty, and the non-empty content `abc` was neither appended
to the buffer nor submitted. -/
theorem ReadLog_drops_unterminated_content :
    ((ReadLog [] "f".toList "t".toList 20 unterminatedFeed).1 = Status.returned ∧
      readsOf (ReadLog [] "f".toList "t".toList 20 unterminatedFeed).2.trace
        = [.fail "abc".toList .EOF, .line "def".toList] ∧
      sends (ReadLog [] "f".toList "t".toList 20 unterminatedFeed).2.trace
        = [⟨"t".toList, ["def\n".toList], 1⟩] ∧
      (∀ b n, ReaderEvent.loopHead b n ∈
        (ReadLog [] "f".toList "t".toList 20 unterminatedFeed).2.trace → b = []) ∧
      (ReadLog [] "f".toList "t".toList 20 unterminatedFeed).2.body = [] ∧
      (ReadLog [] "f".toList "t".toList 20 unterminatedFeed).2.reads = [] ∧
      (ReadLog [] "f".toList "t".toList 20 unterminatedFeed).2.acks = []) ∧
    ((ReadLog [] "f".toList "t".toList 20 eofRetryFeed).1 = Status.returned ∧
      readsOf (ReadLog [] "f".toList "t".toList 20 eofRetryFeed).2.trace
        = [.fail [] .EOF, .fail "abc".toList .EOF, .line "def".toList] ∧
      sends (ReadLog [] "f".toList "t".toList 20 eofRetryFeed).2.trace
        = [⟨"t".toList, ["def\n".toList], 1⟩] ∧
      (∀ b n, ReaderEvent.loopHead b n ∈
        (ReadLog [] "f".toList "t".toList 20 eofRetryFeed).2.trace → b = []) ∧
      (ReadLog [] "f".toList "t".toList 20 eofRetryFeed).2.body = [] ∧
      (ReadLog [] "f".toList "t".toList 20 eofRetryFeed).2.reads = [] ∧
      (ReadLog [] "f".toList "t".toList 20 eofRetryFeed).2.acks = []) ∧
    "abc".toList ≠ [] := by
  refine ⟨⟨by decide, by decide, by decide,
      (ReadLog_tidy [] "f".toList "t".toList 20 unterminatedFeed).heads,
      by decide, by decide, by decide⟩,
    ⟨by decide, by decide, by decide,
      (ReadLog_tidy [] "f".toList "t".toList 20 eofRetryFeed).heads,
      by decide, by decide, by decide⟩, by decide⟩

/-- C10. One line per delivery message: in every run of `ReadLog`, whatever the batch
size, the reads and the delivery outcomes, the buffer is empty at the head of every
pass of the main loop; every message put on the work channel carries the topic and
exactly one payload, a line with its terminator, so `WriteLoop` finds `msg.body[0]`
in range and issues the single-line publish; the end-of-file branch never takes the
`else` branch of line 184, the one meant to emit; and a pass that starts with an
empty buffer and reopens the file at end-of-file loops again, the buffer still empty
and no message made. -/
theorem ReadLog_one_line_per_message (readAll file topic : GoString) (batch : Int)
    (w : Feed) :
    (∀ b n, ReaderEvent.loopHead b n ∈ (ReadLog readAll file topic batch w).2.trace →
      b = []) ∧
    (∀ msg ∈ sends (ReadLog readAll file topic batch w).2.trace,
      msg.topic = topic ∧ msg.body.length = 1 ∧
      ∃ c, msg.body[0]? = some (c ++ ['\n']) ∧
        publishCall msg = .ok (.Publish topic (c ++ ['\n']))) ∧
    ReaderEvent.eofElse ∉ (ReadLog readAll file topic batch w).2.trace ∧
    ∀ (r : Reader) (p1 p2 : GoString) (e1 : ReadErr) (rest : List ReadResult)
      (size0 sz : Int) (sef : Bool) (ps : List EofProbe),
      ∃ r', iteration topic { r with
          body := [], reads := .fail p1 e1 :: .fail p2 .EOF :: rest,
          probes := ⟨some size0, some sz, sef⟩ :: ps } = .next r' ∧
        r'.body = [] ∧ r'.made = r.made ∧ r'.reads = rest := by
  have h := ReadLog_tidy readAll file topic batch w
  refine ⟨h.heads, ?_, h.noElse, ?_⟩
  · intro msg hm
    obtain ⟨h1, c, h2⟩ := h.msgs msg hm
    refine ⟨h1, by rw [h2]; rfl, c, by rw [h2]; rfl, ?_⟩
    simp [publishCall, h2, h1]
  · intro r p1 p2 e1 rest size0 sz sef ps
    refine ⟨{ r with
        fd := (reposition size0 { size := sz, pos := 0 } sef).1,
        retryCount := r.retryCount + 1, body := [], reads := rest, probes := ps,
        trace := r.trace ++
          [ReaderEvent.read (ReadResult.fail p1 e1), ReaderEvent.sleep,
            ReaderEvent.read (ReadResult.fail p2 ReadErr.EOF),
            ReaderEvent.reopened size0 (reposition size0 { size := sz, pos := 0 } sef).2
              (reposition size0 { size := sz, pos := 0 } sef).1.pos] }, ?_, rfl, rfl, rfl⟩
    simp [iteration, readLine]

end FileToNsq
